import Mathlib

/-!
A verification development for the sokosolve Sokoban solver.

The C sources are modelled shallowly:

* Grid positions are natural numbers `y * width + x` over the padded grid
  (the raw level plus a one-tile wall border), exactly as in the C code.
* A bitset (`bits_t*`) over the padded grid is modelled as a `Finset ℕ`
  of its set bit positions.  The wall bitset is initialised to all-ones
  and only interior cells are ever cleared, so every position at or past
  `area` that the C code can probe reads a set bit; the model `wallAt`
  therefore treats every position `≥ area` as a wall.  The goal and crate
  bitsets are initialised to zero and only interior bits are ever set, so
  plain membership models `get_bit` for them.
* Machine integers (`pos_t`, `cost_t`, …) are modelled as `ℕ`; the signed
  direction offsets `{-1, +1, width, -width}` are `ℤ`, and a move clamps
  at zero (`Int.toNat`), which is only observable outside the situations
  the C code can reach (the wall border stops every walk).
* `float` priorities are modelled as `ℚ`.  All priorities the claims
  exercise are small integers, for which C float arithmetic is exact.
* Loops are fuel-indexed structural recursions; the fuel needed is
  supplied by the callers and its sufficiency is proved where a claim
  needs it.
-/

namespace Sokosolve

/-- A solver context: the padded level dimensions, mirroring the
dimension fields of `struct context_t`. -/
structure Ctx where
  width : ℕ
  height : ℕ
deriving Repr, DecidableEq

/-- `create_context` stores `width + 2` and `height + 2`: two extra
columns and rows for the wall border. -/
def create_context (width height : ℕ) : Ctx :=
  ⟨width + 2, height + 2⟩

/-- `context->area = width * height` (padded dimensions). -/
def Ctx.area (c : Ctx) : ℕ := c.width * c.height

/-- Adding a (possibly negative) direction offset to a position. -/
def move (p : ℕ) (d : ℤ) : ℕ := ((p : ℤ) + d).toNat

/-- The direction offsets `{-1, 1, width, -width}`, in the order the C
code enumerates them. -/
def dirsList (width : ℕ) : List ℤ := [-1, 1, (width : ℤ), -(width : ℤ)]

/-- `ACTIONS = "lrduLRDU"`: the action character for each direction
index, lowercase for plain moves, uppercase for pushes. -/
def actionChars : List Char := ['l', 'r', 'd', 'u', 'L', 'R', 'D', 'U']

/-- `get_bit` on the wall bitset: the border and everything at or past
`area` reads as wall (the C wall bitset is `memset` to all-ones and only
interior cells are cleared). -/
def wallAt (walls : Finset ℕ) (area p : ℕ) : Bool :=
  decide (p ∈ walls) || decide (area ≤ p)

/-- `get_bit` on a zero-initialised bitset (goals, crates, …). -/
def bit (s : Finset ℕ) (p : ℕ) : Bool := decide (p ∈ s)

/-! ## The level parser (`parse_problem`, tile loop) -/

/-- The counters and bitsets accumulated by the tile loop of
`parse_problem`. -/
structure ParseAcc where
  walls : Finset ℕ
  goals : Finset ℕ
  crates : Finset ℕ
  player : ℕ
  goalCount : ℕ
  crateCount : ℕ
  playerCount : ℕ
deriving DecidableEq

/-- The tile alphabet accepted by the `switch` of `parse_problem`. -/
def isTile (c : Char) : Bool :=
  c = 'W' || c = 'w' || c = '.' || c = '0' || c = '1' ||
  c = 'A' || c = 'a' || c = 'g' || c = 'G' || c = '+'

/-- The effect of one recognised tile character on one interior cell,
mirroring the `switch` in `parse_problem`.  Every non-wall tile clears
the wall bit of its cell. -/
def applyTile (acc : ParseAcc) (p : ℕ) (c : Char) : ParseAcc :=
  if c = 'W' ∨ c = 'w' then acc
  else if c = '.' then { acc with walls := acc.walls.erase p }
  else if c = '0' then
    { acc with walls := acc.walls.erase p, goals := insert p acc.goals,
               goalCount := acc.goalCount + 1 }
  else if c = '1' then
    { acc with walls := acc.walls.erase p, crates := insert p acc.crates,
               crateCount := acc.crateCount + 1 }
  else if c = 'A' ∨ c = 'a' then
    { acc with walls := acc.walls.erase p, player := p,
               playerCount := acc.playerCount + 1 }
  else if c = 'g' ∨ c = 'G' then
    { acc with walls := acc.walls.erase p, goals := insert p acc.goals,
               goalCount := acc.goalCount + 1, crates := insert p acc.crates,
               crateCount := acc.crateCount + 1 }
  else -- '+'
    { acc with walls := acc.walls.erase p, goals := insert p acc.goals,
               goalCount := acc.goalCount + 1, player := p,
               playerCount := acc.playerCount + 1 }

/-- The interior cells of the padded grid in the order the parse loop
visits them: rows `y = 1 .. height-2`, columns `x = 1 .. width-2`. -/
def interiorCells (ctx : Ctx) : List ℕ :=
  (List.range (ctx.height - 2)).flatMap fun j =>
    (List.range (ctx.width - 2)).map fun i => (j + 1) * ctx.width + (i + 1)

/-- The tile loop of `parse_problem`: each interior cell consumes the
next tile character; characters outside the tile alphabet are skipped
without advancing the cell cursor; a NUL character (or the end of the
string) stops parsing at once. -/
def parseTiles : List Char → List ℕ → ParseAcc → ParseAcc
  | _, [], acc => acc
  | [], _ :: _, acc => acc
  | ch :: rest, p :: ps, acc =>
    if ch = Char.ofNat 0 then acc
    else if isTile ch then parseTiles rest ps (applyTile acc p ch)
    else parseTiles rest (p :: ps) acc

/-! ## The static 2x2 deadlock scan (`check_all_2x2_deadlock`) -/

/-- The inner loop of `check_all_2x2_deadlock` over the four cells of
one window: an empty cell (no wall, no crate) aborts the window with a
zero count; otherwise every crate that is not on a goal is counted. -/
def windowScan (walls goals crates : Finset ℕ) (area : ℕ) :
    List ℕ → ℕ → ℕ
  | [], u => u
  | q :: qs, u =>
    if !(bit crates q || wallAt walls area q) then 0
    else windowScan walls goals crates area qs
      (if bit crates q && !bit goals q then u + 1 else u)

/-- One 2x2 window, anchored at its top-left position `p`. -/
def windowCells (width p : ℕ) : List ℕ := [p, p + 1, p + width, p + width + 1]

/-- `check_all_2x2_deadlock`: some fully wall-or-crate 2x2 window
contains a crate that is not on a goal. -/
def check_all_2x2_deadlock (ctx : Ctx) (walls goals crates : Finset ℕ) : Bool :=
  ((List.range (ctx.height - 1)).flatMap fun y =>
    (List.range (ctx.width - 1)).map fun x => y * ctx.width + x).any fun p =>
      windowScan walls goals crates ctx.area (windowCells ctx.width p) 0 ≠ 0

/-! ## The per-push 2x2 deadlock test (`check_single_2x2_deadlock`) -/

/-- One orthogonal direction of `check_single_2x2_deadlock`: probe the
two remaining cells of the 2x2 square containing the pushed crate. -/
def orthoScan (walls goals crates : Finset ℕ) (area : ℕ)
    (position p10 : ℕ) (u : ℕ) (ortho : ℤ) : Bool :=
  let p01 := move position ortho
  if !(bit crates p01 || wallAt walls area p01) then false
  else
    let u1 := if bit crates p01 && !bit goals p01 then u + 1 else u
    let p11 := move p10 ortho
    if !(bit crates p11 || wallAt walls area p11) then false
    else
      let u2 := if bit crates p11 && !bit goals p11 then u1 + 1 else u1
      decide (u2 ≠ 0)

/-- `check_single_2x2_deadlock(crates, position, direction)`: would the
crate just pushed to `position` be frozen in a closed 2x2 square holding
a crate that is not on a goal? -/
def check_single_2x2_deadlock (walls goals : Finset ℕ) (area width : ℕ)
    (crates : Finset ℕ) (position : ℕ) (direction : ℤ) : Bool :=
  let ortho : ℤ := (width : ℤ) + 1 - |direction|
  let u0 : ℕ := if bit goals position then 0 else 1
  let p10 := move position direction
  if !(bit crates p10 || wallAt walls area p10) then false
  else
    let u1 := if bit crates p10 && !bit goals p10 then u0 + 1 else u0
    orthoScan walls goals crates area position p10 u1 ortho ||
    orthoScan walls goals crates area position p10 u1 (-ortho)


/-! ## The deadlock / heuristic map (`generate_deadlock_map`) -/

/-- The mutable state of `generate_deadlock_map`: `nd` is the set of
*cleared* bits of the deadlock bitset (the bitset starts all-ones), the
heuristic array starts at `area` everywhere, and `queue` is the pending
part of the BFS queue (`queue[front..back)`). -/
structure DLState where
  nd : Finset ℕ
  heur : ℕ → ℕ
  queue : List ℕ

/-- One direction of the reverse-push BFS expansion: from `current`,
reach `next = current + d` when `next` is no wall, is not already
settled at a cost `≤ cost`, and the cell `beyond = next + d` is no wall
(so a crate at `next` could be pushed back to `current`). -/
def dlExpand (walls : Finset ℕ) (area : ℕ) (current cost : ℕ)
    (s : DLState) (d : ℤ) : DLState :=
  let next := move current d
  if wallAt walls area next then s
  else if decide (next ∈ s.nd) && decide (s.heur next ≤ cost) then s
  else
    let beyond := move next d
    if wallAt walls area beyond then s
    else
      { nd := insert next s.nd,
        heur := Function.update s.heur next cost,
        queue := s.queue ++ [next] }

/-- The inner `while(front < back)` loop of `generate_deadlock_map`,
with explicit fuel. -/
def dlLoop (walls : Finset ℕ) (area width : ℕ) : ℕ → DLState → DLState
  | 0, s => s
  | fuel + 1, s =>
    match s.queue with
    | [] => s
    | current :: rest =>
      let cost := s.heur current + 1
      dlLoop walls area width fuel
        ((dirsList width).foldl (dlExpand walls area current cost)
          { s with queue := rest })

/-- Enough fuel to drain one goal's BFS queue (proved sufficient below). -/
def dlFuel (area : ℕ) : ℕ := area * area + 2

/-- `generate_deadlock_map`: seed a BFS from every goal cell in
position order, clearing the deadlock bit and recording the reverse-push
cost to the nearest goal; unreached cells keep cost `area`. -/
def generate_deadlock_map (ctx : Ctx) (walls goals : Finset ℕ) : DLState :=
  (List.range ctx.area).foldl
    (fun s position =>
      if bit goals position then
        dlLoop walls ctx.area ctx.width (dlFuel ctx.area)
          { nd := insert position s.nd,
            heur := Function.update s.heur position 0,
            queue := [position] }
      else s)
    { nd := ∅, heur := fun _ => ctx.area, queue := [] }

/-! ## Player reachability (`check_reachability`) -/

/-- The depth-first flood fill of `check_reachability`: pop a position
from the stack, mark it reachable, and push every adjacent position
that is neither a wall nor already marked.  The head of the list is the
top of the stack. -/
def reachLoop (walls : Finset ℕ) (area width : ℕ) :
    ℕ → Finset ℕ → List ℕ → Finset ℕ
  | 0, reach, _ => reach
  | _ + 1, reach, [] => reach
  | fuel + 1, reach, current :: rest =>
    let reach1 := insert current reach
    reachLoop walls area width fuel reach1
      ((dirsList width).foldl
        (fun st d =>
          let next := move current d
          if wallAt walls area next || bit reach1 next then st else next :: st)
        rest)

/-- Enough fuel to drain the flood-fill stack (proved sufficient below). -/
def reachFuel (area player : ℕ) : ℕ :=
  (area + player + 2) * (4 * area + 4 * player + 13)

/-- `check_reachability`: flood-fill from the player across non-wall
cells, then check that every *free object* — every set bit of
`crates XOR goals` — was reached.  (`bitset_covers_all` only probes bits
below `area`, and both of these bitsets are zero from `area` up.) -/
def check_reachability (ctx : Ctx) (crates goals walls : Finset ℕ)
    (player : ℕ) : Bool :=
  let reach := reachLoop walls ctx.area ctx.width
    (reachFuel ctx.area player) ∅ [player]
  decide (symmDiff crates goals ⊆ reach)

/-! ## `parse_problem` -/

/-- The parsed problem, mirroring `struct problem_t`.  The deadlock
bitset is stored through its cleared-bit set `nd` (a position is a
deadlock iff it is not in `nd`). -/
structure Problem where
  goalCount : ℕ
  player : ℕ
  walls : Finset ℕ
  goals : Finset ℕ
  crates : Finset ℕ
  nd : Finset ℕ
  heuristics : ℕ → ℕ
  compilable : Bool
  potentiallySolvable : Bool

/-- The initial parse accumulator: the wall bitset starts all-ones, the
others all-zero.  (The C player field would be left stale; it is only
read when a level is compilable, hence has exactly one player tile, so
the model fixes the pre-parse value at 0.) -/
def initAcc (ctx : Ctx) : ParseAcc :=
  ⟨Finset.range ctx.area, ∅, ∅, 0, 0, 0, 0⟩

/-- `parse_problem`: run the tile loop, then derive `compilable`, the
2x2 scan, the deadlock map, the crate-on-deadlock check and the
reachability check, short-circuiting exactly like the C code.  When the
chain stops before `generate_deadlock_map`, the C deadlock buffers hold
stale data that nothing ever reads (searches refuse to run); the model
uses an all-deadlock map there.  The C function returns `compilable`. -/
def parse_problem (ctx : Ctx) (level : List Char) : Problem :=
  let acc := parseTiles level (interiorCells ctx) (initAcc ctx)
  let compilable : Bool :=
    decide (acc.playerCount = 1) && decide (acc.goalCount = acc.crateCount) &&
    !decide (acc.crates = acc.goals)
  let v2 : Bool := compilable && !check_all_2x2_deadlock ctx acc.walls acc.goals acc.crates
  let dl : DLState :=
    if v2 then generate_deadlock_map ctx acc.walls acc.goals
    else ⟨∅, fun _ => ctx.area, []⟩
  -- `bitset_covers_any(crates, deadlocks)`: some crate sits on a deadlock cell
  let v3 : Bool := v2 && !decide (∃ p ∈ acc.crates, p ∉ dl.nd)
  let v4 : Bool := v3 && check_reachability ctx acc.crates acc.goals acc.walls acc.player
  { goalCount := acc.goalCount
    player := acc.player
    walls := acc.walls
    goals := acc.goals
    crates := acc.crates
    nd := dl.nd
    heuristics := dl.heur
    compilable := compilable
    potentiallySolvable := v4 }

/-! ## Search states and results -/

/-- A search node, mirroring `struct _state_t`.  The parent pointer is
an index into the state arena.  BFS leaves `heuristic`, `priority` and
`heapIndex` untouched (the C fields hold stale data); the model gives
them fixed defaults there. -/
structure SState where
  parent : Option ℕ
  action : Char
  player : ℕ
  crates : Finset ℕ
  cost : ℕ
  heuristic : ℕ
  priority : ℚ
  heapIndex : ℤ
deriving DecidableEq

instance : Inhabited SState := ⟨⟨none, 'l', 0, ∅, 0, 0, 0, 0⟩⟩

/-- The `result_t` structure. -/
structure Result where
  solved : Bool
  actions : Option (List Char)
  iterations : ℕ
  limitExceeded : Bool
deriving DecidableEq, Repr

/-- A hash-set key: `(player, crates)`. -/
abbrev Key := ℕ × Finset ℕ

/-- Solution reconstruction: the C code allocates `cost + 1` bytes,
writes the final action at position `cost - 1`, and then walks the
parent chain writing each state's action one position earlier, for
`cost - 1` further writes.  `k` counts the writes that remain. -/
def backtrack (arena : Array SState) : ℕ → Option ℕ → List Char → List Char
  | 0, _, acc => acc
  | _ + 1, none, acc => acc
  | k + 1, some i, acc =>
    let s := arena.getD i default
    backtrack arena k s.parent (s.action :: acc)

/-- The solution string returned for a goal child generated from the
state at `parentIdx` by `action`, at path cost `cost`. -/
def buildSolution (arena : Array SState) (parentIdx : ℕ) (action : Char)
    (cost : ℕ) : List Char :=
  backtrack arena (cost - 1) (some parentIdx) [action]

/-! ## The BFS driver (`solve_bfs`) -/

/-- The running state of `solve_bfs`.  The arena is both the state cache
and the FIFO queue: `current` is the front cursor and the arena size is
the back (`free_state`).  `oob` records whether a child was ever staged
at an arena index `≥ stateCount` — in the C code that is a write past
the end of the preallocated state cache. -/
structure BfsSt where
  arena : Array SState
  visited : Finset Key
  current : ℕ
  iterations : ℕ
  oob : Bool

/-- Generate and process the child of `parent` (sitting at `parentIdx`)
in direction number `index`, mirroring one iteration of the direction
loop in `solve_bfs`.  `Except.error` carries an early return. -/
def bfsChild (pr : Problem) (width area stateCount : ℕ) (parentIdx : ℕ)
    (parent : SState) (cost : ℕ) (st : BfsSt) (index : ℕ) :
    Except (Result × Bool) BfsSt :=
  let d := (dirsList width).getD index 0
  let player := move parent.player d
  if wallAt pr.walls area player then .ok st
  else
    let pushing := bit parent.crates player
    let next := move player d
    if pushing &&
        (wallAt pr.walls area next || bit parent.crates next || !bit pr.nd next) then
      .ok st
    else if pushing &&
        check_single_2x2_deadlock pr.walls pr.goals area width parent.crates next d then
      .ok st
    else
      let action := actionChars.getD (if pushing then index + 4 else index) 'l'
      let crates :=
        if pushing then insert next (parent.crates.erase player) else parent.crates
      -- a fresh crate bitset is consumed exactly when `changed` is set
      if pushing && decide (crates = pr.goals) then
        .error (⟨true, some (buildSolution st.arena parentIdx action cost),
                 st.iterations, false⟩, st.oob)
      else
        -- the child struct is written at `free_state` before the lookup
        let oob := st.oob || decide (stateCount ≤ st.arena.size)
        let child : SState := ⟨some parentIdx, action, player, crates, cost, 0, 0, 0⟩
        if decide ((player, crates) ∈ st.visited) then
          .ok { st with oob := oob }
        else
          let arena := st.arena.push child
          if decide (arena.size = stateCount) then
            .error (⟨false, none, st.iterations, true⟩, oob)
          else
            .ok { st with arena := arena,
                          visited := insert (player, crates) st.visited,
                          oob := oob }

/-- The main loop of `solve_bfs` (fuel-indexed; the C loop always
terminates because the hash set bounds the arena, but the model keeps
the fuel explicit).  Returns the result together with the out-of-arena
flag. -/
def bfsLoop (pr : Problem) (width area stateCount maxIterations : ℕ) :
    ℕ → BfsSt → Option (Result × Bool)
  | 0, _ => none
  | fuel + 1, st =>
    if st.current = st.arena.size then
      some (⟨false, none, st.iterations, false⟩, st.oob)
    else if 0 < maxIterations ∧ maxIterations ≤ st.iterations then
      some (⟨false, none, st.iterations, true⟩, st.oob)
    else
      let parent := st.arena.getD st.current default
      let st1 := { st with current := st.current + 1,
                           iterations := st.iterations + 1 }
      match [0, 1, 2, 3].foldlM
          (bfsChild pr width area stateCount st.current parent (parent.cost + 1)) st1 with
      | .error r => some r
      | .ok st2 => bfsLoop pr width area stateCount maxIterations fuel st2

/-- `solve_bfs`, additionally reporting whether any child was staged
outside the `stateCount`-slot state arena (the `Bool` component). -/
def solve_bfs_run (ctx : Ctx) (pr : Problem) (stateCount maxIterations fuel : ℕ) :
    Option (Result × Bool) :=
  if !pr.potentiallySolvable then some (⟨false, none, 0, false⟩, false)
  else
    let root : SState := ⟨none, 'l', pr.player, pr.crates, 0, 0, 0, 0⟩
    bfsLoop pr ctx.width ctx.area stateCount maxIterations fuel
      ⟨#[root], {(pr.player, pr.crates)}, 0, 0, false⟩

/-- `solve_bfs` as the C API returns it. -/
def solve_bfs (ctx : Ctx) (pr : Problem) (stateCount maxIterations fuel : ℕ) :
    Option Result :=
  (solve_bfs_run ctx pr stateCount maxIterations fuel).map Prod.fst

/-! ## The intrusive binary min-heap -/

/-- The priority of the state at arena index `i`. -/
def prioOf (arena : Array SState) (i : ℕ) : ℚ := (arena.getD i default).priority

/-- The priority of the state in heap slot `j`. -/
def heapPrioAt (arena : Array SState) (heap : List ℕ) (j : ℕ) : ℚ :=
  prioOf arena (heap.getD j 0)

/-- Store a heap index into a state (the intrusive back-pointer each
node keeps so that decrease-key can find it). -/
def setHeapIndex (arena : Array SState) (i : ℕ) (v : ℤ) : Array SState :=
  arena.modify i fun s => { s with heapIndex := v }

/-- `heapify_bottomup`: sift the node at `node` up while it beats its
parent at `node / 2`, updating both back-pointers on every swap.  The
fuel only needs to cover the iteration count; `node` itself is enough
since the index at least halves every step. -/
def heapify_bottomup : ℕ → Array SState × List ℕ → ℕ → Array SState × List ℕ
  | 0, ah, _ => ah
  | fuel + 1, (arena, heap), node =>
    if node = 0 then (arena, heap)
    else
      let parent := node / 2
      let ni := heap.getD node 0
      let pi := heap.getD parent 0
      if prioOf arena ni < prioOf arena pi then
        heapify_bottomup fuel
          (setHeapIndex (setHeapIndex arena ni (parent : ℕ)) pi (node : ℕ),
           (heap.set parent ni).set node pi) parent
      else (arena, heap)

/-- `heapify_topdown`: sift the node at `root` down towards its smaller
child among `2 * root` and `2 * root + 1`, within the first `size` heap
slots.  The fuel only needs to cover the iteration count; `size` is
enough since the index strictly grows every step. -/
def heapify_topdown : ℕ → Array SState × List ℕ → ℕ → ℕ → Array SState × List ℕ
  | 0, ah, _, _ => ah
  | fuel + 1, (arena, heap), root, size =>
    let child1 := 2 * root
    if size ≤ child1 then (arena, heap)
    else
      let minChild :=
        if child1 + 1 < size ∧
            heapPrioAt arena heap (child1 + 1) < heapPrioAt arena heap child1 then
          child1 + 1
        else child1
      let ci := heap.getD minChild 0
      let ri := heap.getD root 0
      if prioOf arena ci < prioOf arena ri then
        heapify_topdown fuel
          (setHeapIndex (setHeapIndex arena ci (root : ℕ)) ri (minChild : ℕ),
           (heap.set root ci).set minChild ri) minChild size
      else (arena, heap)

/-- `heap_insert`: append the element as the last leaf (its heap index
is the old size) and sift it up if it is not the only node. -/
def heap_insert (arena : Array SState) (heap : List ℕ) (elemIdx : ℕ) :
    Array SState × List ℕ :=
  let index := heap.length
  let arena1 := setHeapIndex arena elemIdx (index : ℕ)
  let heap1 := heap ++ [elemIdx]
  if 0 < index then heapify_bottomup index (arena1, heap1) index
  else (arena1, heap1)

/-- `heap_pop`: remove and return the slot-0 element; the last leaf
moves to slot 0 and sifts down.  (The caller never pops an empty heap;
that case returns a dummy index.) -/
def heap_pop (arena : Array SState) (heap : List ℕ) : ℕ × Array SState × List ℕ :=
  match heap with
  | [] => (0, arena, [])
  | [rootIdx] => (rootIdx, arena, [])
  | rootIdx :: r :: rs =>
    let rest := r :: rs
    let lastIdx := rest.getLastD 0
    let heap1 := lastIdx :: rest.dropLast
    let arena1 := setHeapIndex arena lastIdx 0
    let ah := heapify_topdown heap1.length (arena1, heap1) 0 heap1.length
    (rootIdx, ah.1, ah.2)

/-! ## The A* driver (`solve_astar`) -/

/-- `compute_heuristic`: the sum, over every crate, of the precomputed
reverse-push distance from its cell to the nearest goal. -/
def compute_heuristic (pr : Problem) (area : ℕ) (crates : Finset ℕ) : ℕ :=
  ∑ p ∈ Finset.range area, if p ∈ crates then pr.heuristics p else 0

/-- The running state of `solve_astar`.  The hash map also yields the
arena index of an existing twin state, so it is an association list. -/
structure AstSt where
  arena : Array SState
  visited : List (Key × ℕ)
  heap : List ℕ
  iterations : ℕ
  oob : Bool

/-- Generate and process the child of `parent` in direction `index`,
mirroring one iteration of the direction loop in `solve_astar`:
identical move generation to BFS, then either a fresh insert (with
heuristic, priority and heap insert) or the decrease-key update of the
already known twin. -/
def astChild (pr : Problem) (width area stateCount : ℕ) (hf gf : ℚ)
    (parentIdx : ℕ) (parent : SState) (cost : ℕ) (st : AstSt) (index : ℕ) :
    Except (Result × Bool) AstSt :=
  let d := (dirsList width).getD index 0
  let player := move parent.player d
  if wallAt pr.walls area player then .ok st
  else
    let pushing := bit parent.crates player
    let next := move player d
    if pushing &&
        (wallAt pr.walls area next || bit parent.crates next || !bit pr.nd next) then
      .ok st
    else if pushing &&
        check_single_2x2_deadlock pr.walls pr.goals area width parent.crates next d then
      .ok st
    else
      let action := actionChars.getD (if pushing then index + 4 else index) 'l'
      let crates :=
        if pushing then insert next (parent.crates.erase player) else parent.crates
      if pushing && decide (crates = pr.goals) then
        .error (⟨true, some (buildSolution st.arena parentIdx action cost),
                 st.iterations, false⟩, st.oob)
      else
        let oob := st.oob || decide (stateCount ≤ st.arena.size)
        match List.lookup (player, crates) st.visited with
        | none =>
          let heuristic :=
            if pushing then compute_heuristic pr area crates else parent.heuristic
          let priority : ℚ := gf * (cost : ℚ) + hf * (heuristic : ℚ)
          let childIdx := st.arena.size
          let child : SState :=
            ⟨some parentIdx, action, player, crates, cost, heuristic, priority, 0⟩
          let arena1 := st.arena.push child
          let ah := heap_insert arena1 st.heap childIdx
          if decide (arena1.size = stateCount) then
            .error (⟨false, none, st.iterations, true⟩, oob)
          else
            .ok ⟨ah.1, ((player, crates), childIdx) :: st.visited, ah.2,
                 st.iterations, oob⟩
        | some twinIdx =>
          let twin := st.arena.getD twinIdx default
          if 0 ≤ twin.heapIndex ∧ cost < twin.cost then
            let arena1 := st.arena.modify twinIdx fun t =>
              { t with parent := some parentIdx, action := action, cost := cost,
                       priority := hf * (t.heuristic : ℚ) + gf * (cost : ℚ) }
            let ah := heapify_bottomup twin.heapIndex.toNat (arena1, st.heap)
              twin.heapIndex.toNat
            .ok ⟨ah.1, st.visited, ah.2, st.iterations, oob⟩
          else .ok { st with oob := oob }

/-- The main loop of `solve_astar` (fuel-indexed). -/
def astLoop (pr : Problem) (width area stateCount maxIterations : ℕ)
    (hf gf : ℚ) : ℕ → AstSt → Option (Result × Bool)
  | 0, _ => none
  | fuel + 1, st =>
    if st.heap.isEmpty then some (⟨false, none, st.iterations, false⟩, st.oob)
    else if 0 < maxIterations ∧ maxIterations ≤ st.iterations then
      some (⟨false, none, st.iterations, true⟩, st.oob)
    else
      let pop := heap_pop st.arena st.heap
      let arena2 := setHeapIndex pop.2.1 pop.1 (-1)
      let parent := arena2.getD pop.1 default
      match [0, 1, 2, 3].foldlM
          (astChild pr width area stateCount hf gf pop.1 parent (parent.cost + 1))
          (⟨arena2, st.visited, pop.2.2, st.iterations + 1, st.oob⟩ : AstSt) with
      | .error r => some r
      | .ok st2 => astLoop pr width area stateCount maxIterations hf gf fuel st2

/-- `solve_astar`, additionally reporting whether any child was staged
outside the `stateCount`-slot state arena (the `Bool` component). -/
def solve_astar_run (ctx : Ctx) (pr : Problem) (hf gf : ℚ)
    (stateCount maxIterations fuel : ℕ) : Option (Result × Bool) :=
  if !pr.potentiallySolvable then some (⟨false, none, 0, false⟩, false)
  else
    let h0 := compute_heuristic pr ctx.area pr.crates
    let root : SState := ⟨none, 'l', pr.player, pr.crates, 0, h0, hf * (h0 : ℚ), 0⟩
    let ah := heap_insert #[root] [] 0
    astLoop pr ctx.width ctx.area stateCount maxIterations hf gf fuel
      ⟨ah.1, [((pr.player, pr.crates), 0)], ah.2, 0, false⟩

/-- `solve_astar` as the C API returns it. -/
def solve_astar (ctx : Ctx) (pr : Problem) (hf gf : ℚ)
    (stateCount maxIterations fuel : ℕ) : Option Result :=
  (solve_astar_run ctx pr hf gf stateCount maxIterations fuel).map Prod.fst

/-! ## Replaying an action string (`verify_solution`) -/

/-- The direction encoded by an action character (from the `switch` in
`verify_solution`; the C code leaves the direction unset for any other
character, which never occurs in a returned string — the model uses 0). -/
def dirOfAction (width : ℕ) (a : Char) : ℤ :=
  if a = 'l' ∨ a = 'L' then -1
  else if a = 'r' ∨ a = 'R' then 1
  else if a = 'u' ∨ a = 'U' then -(width : ℤ)
  else if a = 'd' ∨ a = 'D' then (width : ℤ)
  else 0

/-- One action of `verify_solution`: move the player, fail on a wall;
on contact with a crate, fail if the action is lowercase (`≥ 'a'`) and
otherwise translate the crate one further step, failing if that cell is
a wall or another crate. -/
def replayStep (walls : Finset ℕ) (area width : ℕ) :
    ℕ × Finset ℕ → Char → Option (ℕ × Finset ℕ)
  | (player, crates), a =>
    let d := dirOfAction width a
    let p := move player d
    if wallAt walls area p then none
    else if p ∈ crates then
      if 'a' ≤ a then none
      else
        let q := move p d
        if wallAt walls area q || q ∈ crates then none
        else some (p, insert q (crates.erase p))
    else some (p, crates)

/-- Replay a whole action string. -/
def replay (walls : Finset ℕ) (area width : ℕ) (st : ℕ × Finset ℕ)
    (acts : List Char) : Option (ℕ × Finset ℕ) :=
  acts.foldlM (replayStep walls area width) st

/-- A valid solution for a parsed problem: the replay never fails (no
move into a wall, no push into a wall or crate, no lowercase action onto
a crate) and the final crate set equals the goal set. -/
def validSolution (pr : Problem) (area width : ℕ) (acts : List Char) : Prop :=
  ∃ fin, replay pr.walls area width (pr.player, pr.crates) acts = some fin ∧
    fin.2 = pr.goals

/-! ## Concrete levels used to instantiate the theorems -/

/-- A 3x1 level `A10`: one push solves it. -/
def ctx31 : Ctx := create_context 3 1

def levelA10 : List Char := ['A', '1', '0']

/-- A 4x1 level `A1.0`: two pushes solve it, and the first expansion
must stage a non-goal child. -/
def ctx41 : Ctx := create_context 4 1

def levelA1E0 : List Char := ['A', '1', '.', '0']

/-- A 4x1 level `1.A0`: compilable, but the crate can never be pushed
(the player cell behind it is the border wall), so it is not potentially
solvable. -/
def level1EA0 : List Char := ['1', '.', 'A', '0']

/-- The stream of tile characters the parse loop actually consumes: the
level string up to the first NUL, restricted to the tile alphabet. -/
def tileStream (cs : List Char) : List Char :=
  (cs.takeWhile fun c => c ≠ Char.ofNat 0).filter isTile

/-- One step of player movement for the reachability specification:
`b` is a direction neighbour of `a` and is not a wall. -/
def stepTo (walls : Finset ℕ) (area width : ℕ) (a b : ℕ) : Prop :=
  (∃ d ∈ dirsList width, b = move a d) ∧ wallAt walls area b = false

/-- The player can walk from `a` to `b` across non-wall cells. -/
def Reaches (walls : Finset ℕ) (area width : ℕ) (a b : ℕ) : Prop :=
  Relation.ReflTransGen (stepTo walls area width) a b

/-- The heap-order property of the intrusive heap, in the indexing the
source actually uses: entries live in slots `0, 1, ..., size-1`, and the
parent of slot `j ≥ 1` is slot `j / 2` — so slot 0 (the root, the slot
`heap_pop` removes) has the single child 1, and a slot `i ≥ 1` has the
children `2i` and `2i+1`. -/
def HeapProp (arena : Array SState) (heap : List ℕ) : Prop :=
  ∀ j : ℕ, 1 ≤ j → j < heap.length →
    heapPrioAt arena heap (j / 2) ≤ heapPrioAt arena heap j

/-- Sift-up intermediate state: every heap edge holds except possibly
the one into `node`, and the children of `node` are no smaller than the
parent of `node` (so that parent may move down into `node`'s slot). -/
def heapAlmostUp (arena : Array SState) (heap : List ℕ) (node : ℕ) : Prop :=
  (∀ j : ℕ, 1 ≤ j → j < heap.length → j ≠ node →
    heapPrioAt arena heap (j / 2) ≤ heapPrioAt arena heap j) ∧
  (1 ≤ node → ∀ c : ℕ, c < heap.length → (c = 2 * node ∨ c = 2 * node + 1) →
    heapPrioAt arena heap (node / 2) ≤ heapPrioAt arena heap c)

/-- Sift-down intermediate state: every heap edge holds except possibly
the ones out of `root`, and the children of `root` are no smaller than
the parent of `root`. -/
def heapAlmostDown (arena : Array SState) (heap : List ℕ) (root : ℕ) : Prop :=
  (∀ j : ℕ, 1 ≤ j → j < heap.length → j / 2 ≠ root →
    heapPrioAt arena heap (j / 2) ≤ heapPrioAt arena heap j) ∧
  (1 ≤ root → ∀ c : ℕ, c < heap.length → (c = 2 * root ∨ c = 2 * root + 1) →
    heapPrioAt arena heap (root / 2) ≤ heapPrioAt arena heap c)

/-- One reverse-push expansion step of `generate_deadlock_map`: from a
cell `c` (already reached from a goal) to `n = c + d`, allowed when `n`
is no wall and the cell beyond it, `n + d`, is no wall either — i.e. a
crate at `n` could be pushed back onto `c` by a player at `n + d`. -/
def revStep (walls : Finset ℕ) (area width : ℕ) (c n : ℕ) : Prop :=
  ∃ d ∈ dirsList width, n = move c d ∧ wallAt walls area n = false ∧
    wallAt walls area (move n d) = false

/-- Some goal reaches `p` by the reverse-push expansion. -/
def RevReachable (walls goals : Finset ℕ) (area width : ℕ) (p : ℕ) : Prop :=
  ∃ g ∈ goals, Relation.ReflTransGen (revStep walls area width) g p

/-- One push of a lone crate from `x` to `y` (walls blocking, other
crates ignored, the player assumed able to stand behind the crate): `y`
is the direction neighbour of `x`, the crate cell and the target cell
are not walls, and neither is the player cell behind the crate.  The
neighbour arithmetic is stated over `ℤ` so that no clamping at the grid
edge is involved. -/
def pushStep (walls : Finset ℕ) (area width : ℕ) (x y : ℕ) : Prop :=
  ∃ d ∈ dirsList width, (y : ℤ) = (x : ℤ) + d ∧
    wallAt walls area x = false ∧ wallAt walls area y = false ∧
    ∃ pc : ℕ, (pc : ℤ) = (x : ℤ) - d ∧ wallAt walls area pc = false

/-- A lone crate at `x` can be brought to `z` in exactly `k` pushes. -/
inductive PushesTo (walls : Finset ℕ) (area width : ℕ) : ℕ → ℕ → ℕ → Prop
  | refl (x : ℕ) : PushesTo walls area width x x 0
  | step {x y z k} : pushStep walls area width x y →
      PushesTo walls area width y z k → PushesTo walls area width x z (k + 1)

/-- The invariant of the deadlock-map BFS state: cleared cells lie on
the grid, every cleared cell's cost is below the number of cleared
cells, untouched cells still hold the sentinel `area`, and the queue
only holds cleared cells. -/
def DLInv (area : ℕ) (s : DLState) : Prop :=
  s.nd ⊆ Finset.range area ∧
  (∀ c ∈ s.nd, s.heur c + 1 ≤ s.nd.card) ∧
  (∀ c, c ∉ s.nd → s.heur c = area) ∧
  (∀ c ∈ s.queue, c ∈ s.nd)

/-- A settled cell: each of its reverse-push successors is cleared with
a cost at most one larger. -/
def DLClosedAt (walls : Finset ℕ) (area width : ℕ) (s : DLState) (c : ℕ) : Prop :=
  ∀ d ∈ dirsList width, wallAt walls area (move c d) = false →
    wallAt walls area (move (move c d) d) = false →
    move c d ∈ s.nd ∧ s.heur (move c d) ≤ s.heur c + 1

/-- The termination measure of the deadlock-map BFS. -/
def dlMeasure (area : ℕ) (s : DLState) : ℕ :=
  (∑ p ∈ Finset.range area, s.heur p) + s.queue.length

/-- The body of the outer goal-seeding loop of `generate_deadlock_map`:
whenever `position` is a goal, clear its deadlock bit, set its cost to
`0` and flood from it. -/
def dlSeedStep (ctx : Ctx) (walls goals : Finset ℕ) (s : DLState) (position : ℕ) : DLState :=
  if bit goals position then
    dlLoop walls ctx.area ctx.width (dlFuel ctx.area)
      { nd := insert position s.nd,
        heur := Function.update s.heur position 0,
        queue := [position] }
  else s

/-- The parent-chain invariant of a search arena: the root state carries
the problem's initial player and crates at cost 0, and every other state
records its parent's index, a cost one larger than the parent's, and an
action whose replay from the parent's configuration produces exactly the
state's own configuration. -/
def ChainInv (pr : Problem) (area width : ℕ) (arena : Array SState) : Prop :=
  ∀ i, i < arena.size →
    ((arena.getD i default).parent = none →
      (arena.getD i default).player = pr.player ∧
      (arena.getD i default).crates = pr.crates ∧
      (arena.getD i default).cost = 0) ∧
    (∀ j, (arena.getD i default).parent = some j →
      j < arena.size ∧
      (arena.getD i default).cost = (arena.getD j default).cost + 1 ∧
      replayStep pr.walls area width
        ((arena.getD j default).player, (arena.getD j default).crates)
        (arena.getD i default).action
        = some ((arena.getD i default).player, (arena.getD i default).crates))

/-- Well-formedness of the intrusive heap: every slot holds a live arena
index whose back-pointer points at that slot. -/
def HeapWF (arena : Array SState) (heap : List ℕ) : Prop :=
  ∀ j, j < heap.length → heap.getD j 0 < arena.size ∧
    (arena.getD (heap.getD j 0) default).heapIndex = (j : ℤ)

/-- Every state's parent has already been popped (back-pointer `-1`), so
decrease-key — which only touches states still in the heap — can never
rewrite a recorded parent. -/
def ParentsFrozen (arena : Array SState) : Prop :=
  ∀ i, i < arena.size → ∀ j, (arena.getD i default).parent = some j →
    (arena.getD j default).heapIndex = -1

/-- The closed hash map of `solve_astar`: every entry points at a live
arena slot holding exactly the entry's key. -/
def VisitedWF (arena : Array SState) (visited : List (Key × ℕ)) : Prop :=
  ∀ e ∈ visited, e.2 < arena.size ∧
    (arena.getD e.2 default).player = e.1.1 ∧ (arena.getD e.2 default).crates = e.1.2

/-- Two arenas agree on every search-relevant field (everything except
the heuristic, priority and heap back-pointer). -/
def CoreEq (a b : Array SState) : Prop :=
  a.size = b.size ∧ ∀ i, (a.getD i default).parent = (b.getD i default).parent ∧
    (a.getD i default).action = (b.getD i default).action ∧
    (a.getD i default).player = (b.getD i default).player ∧
    (a.getD i default).crates = (b.getD i default).crates ∧
    (a.getD i default).cost = (b.getD i default).cost

/-- Every live state is either popped (back-pointer `-1`) or on the
heap. -/
def HeapNonMem (arena : Array SState) (heap : List ℕ) : Prop :=
  ∀ i, i < arena.size → (arena.getD i default).heapIndex = -1 ∨ i ∈ heap

/-! # Theorems -/

lemma parseTiles_eq_zip_foldl :
    ∀ (cs : List Char) (ps : List ℕ) (acc : ParseAcc),
      parseTiles cs ps acc =
        (ps.zip (tileStream cs)).foldl (fun a pc => applyTile a pc.1 pc.2) acc := by
  intro cs
  induction cs with
  | nil => intro ps acc; cases ps <;> simp [parseTiles, tileStream]
  | cons ch rest ih =>
    intro ps acc
    cases ps with
    | nil => simp [parseTiles]
    | cons p ps =>
      by_cases h0 : ch = Char.ofNat 0
      · simp [parseTiles, tileStream, h0]
      · by_cases ht : isTile ch
        · simp [parseTiles, tileStream, h0, ht, ih]
        · simp [parseTiles, tileStream, h0, ht, ih]

lemma applyTile_walls_other (acc : ParseAcc) (q : ℕ) (c : Char) (p : ℕ)
    (hne : p ≠ q) : p ∈ (applyTile acc q c).walls ↔ p ∈ acc.walls := by
  have h : (applyTile acc q c).walls = acc.walls ∨
      (applyTile acc q c).walls = acc.walls.erase q := by
    unfold applyTile
    repeat' split
    all_goals first | exact Or.inl rfl | exact Or.inr rfl
  rcases h with h | h <;> rw [h]
  simp [Finset.mem_erase, hne]

lemma foldl_applyTile_walls_other :
    ∀ (l : List (ℕ × Char)) (acc : ParseAcc) (p : ℕ),
      (∀ q ∈ l, p ≠ q.1) →
      (p ∈ (l.foldl (fun a pc => applyTile a pc.1 pc.2) acc).walls ↔ p ∈ acc.walls) := by
  intro l
  induction l with
  | nil => intro acc p _; exact Iff.rfl
  | cons qc l ih =>
    intro acc p hp
    simp only [List.foldl_cons]
    rw [ih _ _ fun q hq => hp q (List.mem_cons_of_mem _ hq),
      applyTile_walls_other _ _ _ _ (hp qc (List.mem_cons_self _ _))]

lemma interiorCells_lt_area (ctx : Ctx) : ∀ p ∈ interiorCells ctx, p < ctx.area := by
  intro p hp
  simp only [interiorCells, List.mem_flatMap, List.mem_map, List.mem_range] at hp
  obtain ⟨j, hj, i, hi, rfl⟩ := hp
  have h2 : (j + 2) * ctx.width = (j + 1) * ctx.width + ctx.width := by ring
  have h3 : (j + 2) * ctx.width ≤ ctx.height * ctx.width :=
    Nat.mul_le_mul_right _ (by omega)
  have h4 : ctx.area = ctx.height * ctx.width := Nat.mul_comm _ _
  omega

lemma interiorCells_nodup (ctx : Ctx) : (interiorCells ctx).Nodup := by
  unfold interiorCells
  rw [List.nodup_flatMap]
  refine ⟨fun j _ => List.Nodup.map (fun a b h => by omega) (List.nodup_range _), ?_⟩
  have hpl : (List.range (ctx.height - 2)).Pairwise (· < ·) := List.pairwise_lt_range _
  refine hpl.imp ?_
  intro j j' hjj x hx hx'
  simp only [List.mem_map, List.mem_range] at hx hx'
  obtain ⟨i, hi, rfl⟩ := hx
  obtain ⟨i', hi', he⟩ := hx'
  have h2 : (j + 2) * ctx.width = (j + 1) * ctx.width + ctx.width := by ring
  have h3 : (j + 2) * ctx.width ≤ (j' + 1) * ctx.width :=
    Nat.mul_le_mul_right _ (by omega)
  omega

lemma fst_mem_take_of_mem_zip :
    ∀ {α β : Type} (l1 : List α) (l2 : List β) (q : α × β),
      q ∈ l1.zip l2 → q.1 ∈ l1.take l2.length := by
  intro α β l1
  induction l1 with
  | nil => intro l2 q hq; simp at hq
  | cons a l1 ih =>
    intro l2 q hq
    cases l2 with
    | nil => simp at hq
    | cons b l2 =>
      simp only [List.zip_cons_cons, List.mem_cons] at hq
      rcases hq with rfl | hq
      · simp
      · simpa using Or.inr (ih l2 q hq)

/-- Claim C4: `parse_problem` returns true (and stores
`compilable = true`) iff the parsed level holds exactly one player, as
many goals as crates, and a crate bit-vector different from the goal
bit-vector; the returned flag is `compilable`, with no dependence on
`potentially_solvable`. -/
theorem claim_C4 (ctx : Ctx) (level : List Char) :
    (parse_problem ctx level).compilable = true ↔
      ((parseTiles level (interiorCells ctx) (initAcc ctx)).playerCount = 1 ∧
       (parseTiles level (interiorCells ctx) (initAcc ctx)).goalCount =
         (parseTiles level (interiorCells ctx) (initAcc ctx)).crateCount ∧
       (parse_problem ctx level).crates ≠ (parse_problem ctx level).goals) := by
  simp [parse_problem, Bool.and_eq_true, decide_eq_true_iff, and_assoc]

/-- Claim C8: `parse_problem` fills the interior of the padded grid
left-to-right, top-to-bottom, consuming one tile character per cell:
the result is the fold of the tile effects over the interior cells
paired one-for-one with the stream of tile characters (characters
outside the tile alphabet are dropped from the stream without advancing
the cell cursor, and a NUL truncates the stream); every interior cell
beyond the consumed stream keeps its initial wall bit. -/
theorem claim_C8 (ctx : Ctx) (level : List Char) :
    parseTiles level (interiorCells ctx) (initAcc ctx) =
      ((interiorCells ctx).zip (tileStream level)).foldl
        (fun a pc => applyTile a pc.1 pc.2) (initAcc ctx) ∧
    ∀ p ∈ (interiorCells ctx).drop (tileStream level).length,
      p ∈ (parseTiles level (interiorCells ctx) (initAcc ctx)).walls := by
  refine ⟨parseTiles_eq_zip_foldl _ _ _, ?_⟩
  intro p hp
  rw [parseTiles_eq_zip_foldl]
  rw [foldl_applyTile_walls_other]
  · have hlt : p < ctx.area :=
      interiorCells_lt_area ctx p (List.mem_of_mem_drop hp)
    simpa [initAcc] using hlt
  · intro q hq heq
    have hq1 : q.1 ∈ (interiorCells ctx).take (tileStream level).length :=
      fst_mem_take_of_mem_zip _ _ _ hq
    exact List.disjoint_take_drop (interiorCells_nodup ctx) le_rfl hq1 (heq ▸ hp)

/-- Claim C8 witness: a one-tile level leaves the later interior cells
walled. -/
theorem claim_C8_witness :
    (7 : ℕ) ∈ (interiorCells ctx31).drop (tileStream ['A']).length ∧
    (7 : ℕ) ∈ (parseTiles ['A'] (interiorCells ctx31) (initAcc ctx31)).walls :=
  ⟨by decide, (claim_C8 ctx31 ['A']).2 7 (by decide)⟩

/-- Claim C3: `potentially_solvable` is the conjunction of the four
checks (compilable, no full-board 2x2 deadlock, no initial crate on a
deadlock cell, player reachability of every mismatched object), and
when it is false both searches return `{solved := false,
limit_exceeded := false, iterations := 0}` with no actions and perform
no search. -/
theorem claim_C3 (ctx : Ctx) (level : List Char) (sc mi fuel : ℕ) (hf gf : ℚ) :
    ((parse_problem ctx level).potentiallySolvable = true ↔
      ((parse_problem ctx level).compilable = true ∧
       check_all_2x2_deadlock ctx (parse_problem ctx level).walls
         (parse_problem ctx level).goals (parse_problem ctx level).crates = false ∧
       (∀ p ∈ (parse_problem ctx level).crates,
          p ∈ (generate_deadlock_map ctx (parse_problem ctx level).walls
                (parse_problem ctx level).goals).nd) ∧
       check_reachability ctx (parse_problem ctx level).crates
         (parse_problem ctx level).goals (parse_problem ctx level).walls
         (parse_problem ctx level).player = true)) ∧
    ((parse_problem ctx level).potentiallySolvable = false →
      solve_bfs ctx (parse_problem ctx level) sc mi fuel =
        some ⟨false, none, 0, false⟩ ∧
      solve_astar ctx (parse_problem ctx level) hf gf sc mi fuel =
        some ⟨false, none, 0, false⟩) := by
  constructor
  · simp only [parse_problem]
    by_cases hp1 : (parseTiles level (interiorCells ctx) (initAcc ctx)).playerCount = 1
    rotate_left
    · simp [hp1]
    by_cases hp2 : (parseTiles level (interiorCells ctx) (initAcc ctx)).goalCount =
      (parseTiles level (interiorCells ctx) (initAcc ctx)).crateCount
    rotate_left
    · simp [hp2]
    by_cases hp3 : (parseTiles level (interiorCells ctx) (initAcc ctx)).crates =
      (parseTiles level (interiorCells ctx) (initAcc ctx)).goals
    · simp [hp3]
    by_cases hp4 : check_all_2x2_deadlock ctx
      (parseTiles level (interiorCells ctx) (initAcc ctx)).walls
      (parseTiles level (interiorCells ctx) (initAcc ctx)).goals
      (parseTiles level (interiorCells ctx) (initAcc ctx)).crates
    · simp [hp1, hp2, hp3, hp4]
    · simp [hp1, hp2, hp3, hp4, not_imp_not]
  · intro hps
    have hb : (!(parse_problem ctx level).potentiallySolvable) = true := by
      simp [hps]
    constructor
    · simp [solve_bfs, solve_bfs_run, hb]
    · simp [solve_astar, solve_astar_run, hb]

/-- Claim C3 witness: a compilable level whose crate sits on a deadlock
cell is refused by both searches. -/
theorem claim_C3_witness :
    (parse_problem ctx41 level1EA0).potentiallySolvable = false ∧
    solve_bfs ctx41 (parse_problem ctx41 level1EA0) 100 0 100 =
      some ⟨false, none, 0, false⟩ ∧
    solve_astar ctx41 (parse_problem ctx41 level1EA0) 1 1 100 0 100 =
      some ⟨false, none, 0, false⟩ :=
  ⟨by decide, (claim_C3 ctx41 level1EA0 100 0 100 1 1).2 (by decide)⟩

lemma astChild_iterations_ok (pr : Problem) (w a sc : ℕ) (hf gf : ℚ)
    (pi : ℕ) (parent : SState) (cost : ℕ) (st : AstSt) (i : ℕ) :
    (∀ st2, astChild pr w a sc hf gf pi parent cost st i = .ok st2 →
      st2.iterations = st.iterations) ∧
    (∀ r b, astChild pr w a sc hf gf pi parent cost st i = .error (r, b) →
      r.iterations = st.iterations) := by
  constructor
  · intro st2 h
    simp only [astChild] at h
    repeat' split at h
    all_goals first
      | (injection h with h2; subst h2; rfl)
      | (cases h)
  · intro r b h
    simp only [astChild] at h
    repeat' split at h
    all_goals first
      | (injection h with h2; injection h2 with h3 h4; subst h3; rfl)
      | (cases h)

lemma foldlM_astChild_iterations (pr : Problem) (w a sc : ℕ) (hf gf : ℚ)
    (pi : ℕ) (parent : SState) (cost : ℕ) :
    ∀ (l : List ℕ) (st : AstSt),
    (∀ st2, List.foldlM (astChild pr w a sc hf gf pi parent cost) st l = .ok st2 →
      st2.iterations = st.iterations) ∧
    (∀ r b, List.foldlM (astChild pr w a sc hf gf pi parent cost) st l = .error (r, b) →
      r.iterations = st.iterations) := by
  intro l
  induction l with
  | nil =>
    intro st
    constructor
    · intro st2 h; injection h with h2; subst h2; rfl
    · intro r b h; cases h
  | cons i l ih =>
    intro st
    constructor
    · intro st2 h
      rw [List.foldlM_cons] at h
      cases hc : astChild pr w a sc hf gf pi parent cost st i with
      | error e => rw [hc] at h; cases h
      | ok st1 =>
        rw [hc] at h
        have h1 := (astChild_iterations_ok pr w a sc hf gf pi parent cost st i).1 st1 hc
        have h2 := (ih st1).1 st2 h
        omega
    · intro r b h
      rw [List.foldlM_cons] at h
      cases hc : astChild pr w a sc hf gf pi parent cost st i with
      | error e =>
        rw [hc] at h
        injection h with h2
        subst h2
        exact (astChild_iterations_ok pr w a sc hf gf pi parent cost st i).2 r b hc
      | ok st1 =>
        rw [hc] at h
        have h1 := (astChild_iterations_ok pr w a sc hf gf pi parent cost st i).1 st1 hc
        have h2 := (ih st1).2 r b h
        omega

lemma astLoop_iterations_le_one (pr : Problem) (w a sc : ℕ) (hf gf : ℚ) :
    ∀ (fuel : ℕ) (st : AstSt) (r : Result) (b : Bool),
      st.iterations ≤ 1 →
      astLoop pr w a sc 1 hf gf fuel st = some (r, b) → r.iterations ≤ 1 := by
  intro fuel
  induction fuel with
  | zero => intro st r b _ h; cases h
  | succ fuel ih =>
    intro st r b hle h
    simp only [astLoop] at h
    split at h
    · injection h with h2
      rw [show r = (⟨false, none, st.iterations, false⟩ : Result) from
        congrArg Prod.fst h2.symm]
      exact hle
    · split at h
      · injection h with h2
        rw [show r = (⟨false, none, st.iterations, true⟩ : Result) from
          congrArg Prod.fst h2.symm]
        exact hle
      · rename_i hne hlim
        have hst0 : st.iterations = 0 := by
          rcases Nat.lt_or_ge st.iterations 1 with h1 | h1
          · omega
          · exact absurd ⟨Nat.one_pos, h1⟩ hlim
        split at h
        · rename_i r2 hfold
          injection h with h2
          have := (foldlM_astChild_iterations pr w a sc hf gf _ _ _ [0, 1, 2, 3] _).2
            r2.1 r2.2 hfold
          simp only at this
          rw [show r = r2.1 from congrArg Prod.fst h2.symm]
          omega
        · rename_i st2 hfold
          have := (foldlM_astChild_iterations pr w a sc hf gf _ _ _ [0, 1, 2, 3] _).1
            st2 hfold
          simp only at this
          exact ih st2 r b (by omega) h

lemma bfsChild_iterations_ok (pr : Problem) (w a sc : ℕ)
    (pi : ℕ) (parent : SState) (cost : ℕ) (st : BfsSt) (i : ℕ) :
    (∀ st2, bfsChild pr w a sc pi parent cost st i = .ok st2 →
      st2.iterations = st.iterations) ∧
    (∀ r b, bfsChild pr w a sc pi parent cost st i = .error (r, b) →
      r.iterations = st.iterations) := by
  constructor
  · intro st2 h
    simp only [bfsChild] at h
    repeat' split at h
    all_goals first
      | (injection h with h2; subst h2; rfl)
      | (cases h)
  · intro r b h
    simp only [bfsChild] at h
    repeat' split at h
    all_goals first
      | (injection h with h2; injection h2 with h3 h4; subst h3; rfl)
      | (cases h)

lemma foldlM_bfsChild_iterations (pr : Problem) (w a sc : ℕ)
    (pi : ℕ) (parent : SState) (cost : ℕ) :
    ∀ (l : List ℕ) (st : BfsSt),
    (∀ st2, List.foldlM (bfsChild pr w a sc pi parent cost) st l = .ok st2 →
      st2.iterations = st.iterations) ∧
    (∀ r b, List.foldlM (bfsChild pr w a sc pi parent cost) st l = .error (r, b) →
      r.iterations = st.iterations) := by
  intro l
  induction l with
  | nil =>
    intro st
    constructor
    · intro st2 h; injection h with h2; subst h2; rfl
    · intro r b h; cases h
  | cons i l ih =>
    intro st
    constructor
    · intro st2 h
      rw [List.foldlM_cons] at h
      cases hc : bfsChild pr w a sc pi parent cost st i with
      | error e => rw [hc] at h; cases h
      | ok st1 =>
        rw [hc] at h
        have h1 := (bfsChild_iterations_ok pr w a sc pi parent cost st i).1 st1 hc
        have h2 := (ih st1).1 st2 h
        omega
    · intro r b h
      rw [List.foldlM_cons] at h
      cases hc : bfsChild pr w a sc pi parent cost st i with
      | error e =>
        rw [hc] at h
        injection h with h2
        subst h2
        exact (bfsChild_iterations_ok pr w a sc pi parent cost st i).2 r b hc
      | ok st1 =>
        rw [hc] at h
        have h1 := (bfsChild_iterations_ok pr w a sc pi parent cost st i).1 st1 hc
        have h2 := (ih st1).2 r b h
        omega

lemma bfsLoop_iterations_le_one (pr : Problem) (w a sc : ℕ) :
    ∀ (fuel : ℕ) (st : BfsSt) (r : Result) (b : Bool),
      st.iterations ≤ 1 →
      bfsLoop pr w a sc 1 fuel st = some (r, b) → r.iterations ≤ 1 := by
  intro fuel
  induction fuel with
  | zero => intro st r b _ h; cases h
  | succ fuel ih =>
    intro st r b hle h
    simp only [bfsLoop] at h
    split at h
    · injection h with h2
      rw [show r = (⟨false, none, st.iterations, false⟩ : Result) from
        congrArg Prod.fst h2.symm]
      exact hle
    · split at h
      · injection h with h2
        rw [show r = (⟨false, none, st.iterations, true⟩ : Result) from
          congrArg Prod.fst h2.symm]
        exact hle
      · rename_i hne hlim
        have hst0 : st.iterations = 0 := by
          rcases Nat.lt_or_ge st.iterations 1 with h1 | h1
          · omega
          · exact absurd ⟨Nat.one_pos, h1⟩ hlim
        split at h
        · rename_i r2 hfold
          injection h with h2
          have := (foldlM_bfsChild_iterations pr w a sc _ _ _ [0, 1, 2, 3] _).2
            r2.1 r2.2 hfold
          simp only at this
          rw [show r = r2.1 from congrArg Prod.fst h2.symm]
          omega
        · rename_i st2 hfold
          have := (foldlM_bfsChild_iterations pr w a sc _ _ _ [0, 1, 2, 3] _).1
            st2 hfold
          simp only at this
          exact ih st2 r b (by omega) h

/-- Claim C10 counterexample: with `max_iterations = 1` on a
potentially solvable level, `solve_astar` does expand the root and
returns a solution — not `{solved := false, limit_exceeded := true,
iterations := 1}` without expansion, as the claim asserts. -/
theorem claim_C10_counterexample :
    (parse_problem ctx31 levelA10).potentiallySolvable = true ∧
    solve_astar ctx31 (parse_problem ctx31 levelA10) 1 1 100 1 100 =
      some ⟨true, some ['R'], 1, false⟩ :=
  ⟨by decide, by decide⟩

/-- Claim C10 (amended): both drivers check the iteration limit before
incrementing the counter, so with `max_iterations = 1` each of them
expands the root exactly once: every returned result carries
`iterations ≤ 1`, and `solve_astar` — like `solve_bfs` — can return
`solved = true` when the root generates a goal child. -/
theorem claim_C10_amended :
    (∀ (ctx : Ctx) (pr : Problem) (sc fuel : ℕ) (hf gf : ℚ) (r : Result),
        solve_astar ctx pr hf gf sc 1 fuel = some r → r.iterations ≤ 1) ∧
    (∀ (ctx : Ctx) (pr : Problem) (sc fuel : ℕ) (r : Result),
        solve_bfs ctx pr sc 1 fuel = some r → r.iterations ≤ 1) ∧
    solve_astar ctx31 (parse_problem ctx31 levelA10) 1 1 100 1 100 =
      some ⟨true, some ['R'], 1, false⟩ ∧
    solve_bfs ctx31 (parse_problem ctx31 levelA10) 100 1 100 =
      some ⟨true, some ['R'], 1, false⟩ := by
  refine ⟨?_, ?_, by decide, by decide⟩
  · intro ctx pr sc fuel hf gf r h
    simp only [solve_astar, solve_astar_run] at h
    split at h
    · injection h with h2
      subst h2
      exact Nat.zero_le _
    · cases hrun : astLoop pr ctx.width ctx.area sc 1 hf gf fuel
        ⟨(heap_insert #[⟨none, 'l', pr.player, pr.crates, 0,
            compute_heuristic pr ctx.area pr.crates,
            hf * (compute_heuristic pr ctx.area pr.crates : ℚ), 0⟩] [] 0).1,
          [((pr.player, pr.crates), 0)],
          (heap_insert #[⟨none, 'l', pr.player, pr.crates, 0,
            compute_heuristic pr ctx.area pr.crates,
            hf * (compute_heuristic pr ctx.area pr.crates : ℚ), 0⟩] [] 0).2, 0, false⟩ with
      | none => rw [hrun] at h; cases h
      | some rb =>
        rw [hrun] at h
        injection h with h2
        subst h2
        exact astLoop_iterations_le_one pr ctx.width ctx.area sc hf gf fuel _
          rb.1 rb.2 (Nat.zero_le _) (by rw [← hrun])
  · intro ctx pr sc fuel r h
    simp only [solve_bfs, solve_bfs_run] at h
    split at h
    · injection h with h2
      subst h2
      exact Nat.zero_le _
    · cases hrun : bfsLoop pr ctx.width ctx.area sc 1 fuel
        ⟨#[⟨none, 'l', pr.player, pr.crates, 0, 0, 0, 0⟩],
          {(pr.player, pr.crates)}, 0, 0, false⟩ with
      | none => rw [hrun] at h; cases h
      | some rb =>
        rw [hrun] at h
        injection h with h2
        subst h2
        exact bfsLoop_iterations_le_one pr ctx.width ctx.area sc fuel _
          rb.1 rb.2 (Nat.zero_le _) (by rw [← hrun])

/-- Claim C10 amended witness: the iteration bound applied to the
concrete one-push level. -/
theorem claim_C10_amended_witness :
    ({ solved := true, actions := some ['R'], iterations := 1,
       limitExceeded := false } : Result).iterations ≤ 1 :=
  claim_C10_amended.1 ctx31 (parse_problem ctx31 levelA10) 100 100 1 1
    ⟨true, some ['R'], 1, false⟩ (by decide)

/-- Claim C9: with capacity 0 (`state_count = 1`), `solve_bfs` on a
potentially solvable level that needs an expansion does stage child
states outside the one-slot arena (the `true` flag: a write past the
preallocated cache in C) and — because `free_state` has already passed
`free_state_end`, so the equality test never fires — it carries on and
returns `solved = true` instead of `{solved := false,
limit_exceeded := true}`. -/
theorem claim_C9_failing_input :
    (parse_problem ctx41 levelA1E0).potentiallySolvable = true ∧
    solve_bfs_run ctx41 (parse_problem ctx41 levelA1E0) 1 0 100 =
      some (⟨true, some ['R', 'R'], 2, false⟩, true) :=
  ⟨by decide, by decide⟩

section Reachability

variable (walls : Finset ℕ) (area width : ℕ)

lemma foldPush_spec (reach1 : Finset ℕ) (current : ℕ) :
    ∀ (ds : List ℤ) (st0 : List ℕ),
      ∃ pushed : List ℕ,
        ds.foldl (fun st d =>
          let next := move current d
          if wallAt walls area next || bit reach1 next then st else next :: st) st0 =
          pushed ++ st0 ∧
        (∀ q ∈ pushed, (∃ d ∈ ds, q = move current d) ∧
          wallAt walls area q = false ∧ q ∉ reach1) ∧
        (∀ d ∈ ds, wallAt walls area (move current d) = false →
          move current d ∈ reach1 ∨ move current d ∈ pushed) ∧
        pushed.length ≤ ds.length ∧
        (∀ q, pushed.head? = some q → q ∉ reach1) := by
  intro ds
  induction ds with
  | nil =>
    intro st0
    exact ⟨[], rfl, by simp, by simp, by simp, by simp⟩
  | cons d ds ih =>
    intro st0
    simp only [List.foldl_cons]
    by_cases hskip : wallAt walls area (move current d) || bit reach1 (move current d)
    · obtain ⟨pushed, h1, h2, h3, h4, h5⟩ := ih st0
      refine ⟨pushed, by simpa [hskip] using h1, ?_, ?_,
        by simpa using h4.trans (Nat.le_succ _), h5⟩
      · intro q hq
        obtain ⟨⟨d2, hd2, hq2⟩, hw, hr⟩ := h2 q hq
        exact ⟨⟨d2, List.mem_cons_of_mem _ hd2, hq2⟩, hw, hr⟩
      · intro d2 hd2 hw
        rcases List.mem_cons.1 hd2 with rfl | hd2
        · rw [hw] at hskip
          simp only [Bool.false_or, bit, decide_eq_true_iff] at hskip
          exact Or.inl hskip
        · exact h3 d2 hd2 hw
    · simp only [Bool.or_eq_true, not_or, Bool.not_eq_true] at hskip
      obtain ⟨hw, hnr⟩ := hskip
      obtain ⟨pushed, h1, h2, h3, h4, h5⟩ := ih (move current d :: st0)
      have hnr' : move current d ∉ reach1 := by
        simpa [bit] using hnr
      refine ⟨pushed ++ [move current d], ?_, ?_, ?_, ?_, ?_⟩
      · rw [show (if wallAt walls area (move current d) ||
            bit reach1 (move current d) then st0 else move current d :: st0) =
            move current d :: st0 by simp [hw, hnr], h1]
        simp
      · intro q hq
        rcases List.mem_append.1 hq with hq | hq
        · obtain ⟨⟨d2, hd2, hq2⟩, hw2, hr2⟩ := h2 q hq
          exact ⟨⟨d2, List.mem_cons_of_mem _ hd2, hq2⟩, hw2, hr2⟩
        · rw [List.mem_singleton.1 hq]
          exact ⟨⟨d, List.mem_cons_self _ _, rfl⟩, hw, hnr'⟩
      · intro d2 hd2 hw2
        rcases List.mem_cons.1 hd2 with rfl | hd2
        · exact Or.inr (List.mem_append.2 (Or.inr (List.mem_singleton.2 rfl)))
        · rcases h3 d2 hd2 hw2 with h | h
          · exact Or.inl h
          · exact Or.inr (List.mem_append.2 (Or.inl h))
      · simpa using h4
      · intro q hq
        cases hp : pushed with
        | nil =>
          rw [hp] at hq
          simp only [List.nil_append, List.head?_cons, Option.some.injEq] at hq
          exact hq ▸ hnr'
        | cons a l =>
          rw [hp] at hq
          simp only [List.cons_append, List.head?_cons, Option.some.injEq] at hq
          exact h5 q (by rw [hp, List.head?_cons, hq])

lemma reachLoop_main :
    ∀ (fuel : ℕ) (reach : Finset ℕ) (stack : List ℕ) (B : ℕ),
      area ≤ B →
      (∀ p ∈ stack, p < B) →
      (∀ p ∈ reach, ∀ d ∈ dirsList width, wallAt walls area (move p d) = false →
        move p d ∈ reach ∨ move p d ∈ stack) →
      ((Finset.range B \ reach).card + 1) * (4 * B + 8) + stack.length ≤ fuel →
      reach ⊆ reachLoop walls area width fuel reach stack ∧
      (∀ p ∈ stack, p ∈ reachLoop walls area width fuel reach stack) ∧
      (∀ p ∈ reachLoop walls area width fuel reach stack, ∀ d ∈ dirsList width,
        wallAt walls area (move p d) = false →
        move p d ∈ reachLoop walls area width fuel reach stack) := by
  intro fuel
  induction fuel using Nat.strong_induction_on with
  | _ fuel ih =>
    intro reach stack B hB hbound hinv hfuel
    cases stack with
    | nil =>
      have hloop : reachLoop walls area width fuel reach [] = reach := by
        cases fuel <;> simp only [reachLoop]
      rw [hloop]
      refine ⟨Finset.Subset.refl _, by simp, ?_⟩
      intro p hp d hd hw
      rcases hinv p hp d hd hw with h | h
      · exact h
      · cases h
    | cons current rest =>
      cases fuel with
      | zero => simp at hfuel
      | succ f =>
        have hK8 : 8 ≤ 4 * B + 8 := by omega
        have hcurB : current < B := hbound current (List.mem_cons_self _ _)
        obtain ⟨pushed, hfold, hprops, hcover, hlen, hhead⟩ :=
          foldPush_spec walls area (insert current reach) current (dirsList width) rest
        have hlen4 : pushed.length ≤ 4 := by simpa [dirsList] using hlen
        have hunfold : reachLoop walls area width (f + 1) reach (current :: rest) =
            reachLoop walls area width f (insert current reach) (pushed ++ rest) :=
          (rfl :
            reachLoop walls area width (f + 1) reach (current :: rest) =
            reachLoop walls area width f (insert current reach)
              ((dirsList width).foldl (fun st d =>
                let next := move current d
                if wallAt walls area next || bit (insert current reach) next then st
                else next :: st) rest)).trans
            (congrArg _ hfold)
        have hbound1 : ∀ p ∈ pushed ++ rest, p < B := by
          intro p hp
          rcases List.mem_append.1 hp with hp | hp
          · have hw := (hprops p hp).2.1
            simp only [wallAt, Bool.or_eq_false_iff, decide_eq_false_iff_not] at hw
            omega
          · exact hbound p (List.mem_cons_of_mem _ hp)
        have hinv1 : ∀ p ∈ insert current reach, ∀ d ∈ dirsList width,
            wallAt walls area (move p d) = false →
            move p d ∈ insert current reach ∨ move p d ∈ pushed ++ rest := by
          intro p hp d hd hw
          rcases Finset.mem_insert.1 hp with rfl | hp
          · rcases hcover d hd hw with h | h
            · exact Or.inl h
            · exact Or.inr (List.mem_append.2 (Or.inl h))
          · rcases hinv p hp d hd hw with h | h
            · exact Or.inl (Finset.mem_insert_of_mem h)
            · rcases List.mem_cons.1 h with rfl | h
              · exact Or.inl (Finset.mem_insert_self _ _)
              · exact Or.inr (List.mem_append.2 (Or.inr h))
        by_cases hcur : current ∈ reach
        · -- the popped cell was already marked
          have heq : insert current reach = reach := Finset.insert_eq_self.2 hcur
          rw [heq] at hunfold hinv1
          cases hpu : pushed with
          | nil =>
            -- nothing pushed: the stack shrinks
            rw [hpu] at hunfold hinv1
            simp only [List.nil_append] at hunfold hinv1
            have hm1 : ((Finset.range B \ reach).card + 1) * (4 * B + 8) +
                rest.length ≤ f := by
              simp only [List.length_cons] at hfuel
              omega
            obtain ⟨hsub, hstk, hclosed⟩ :=
              ih f (Nat.lt_succ_self f) reach rest B hB
                (fun p hp => hbound p (List.mem_cons_of_mem _ hp)) hinv1 hm1
            rw [hunfold]
            exact ⟨hsub, fun p hp => by
              rcases List.mem_cons.1 hp with rfl | hp
              · exact hsub hcur
              · exact hstk p hp, hclosed⟩
          | cons pstar ptail =>
            -- something was pushed: its head is unmarked, so the next
            -- iteration marks a fresh cell
            rw [hpu] at hunfold hinv1 hprops hhead hlen4 hbound1
            have hpsnr : pstar ∉ reach := by
              have := hhead pstar (by simp)
              rwa [heq] at this
            have hpsB : pstar < B := by
              have hw := (hprops pstar (by simp)).2.1
              simp only [wallAt, Bool.or_eq_false_iff, decide_eq_false_iff_not] at hw
              omega
            have hf1 : 1 ≤ f := by
              have h1 : 1 * (4 * B + 8) ≤ ((Finset.range B \ reach).card + 1) * (4 * B + 8) :=
                Nat.mul_le_mul_right _ (by omega)
              simp only [List.length_cons] at hfuel
              omega
            obtain ⟨f2, rfl⟩ : ∃ f2, f = f2 + 1 := ⟨f - 1, by omega⟩
            obtain ⟨pushed2, hfold2, hprops2, hcover2, hlen2, hhead2⟩ :=
              foldPush_spec walls area (insert pstar reach) pstar (dirsList width)
                (ptail ++ rest)
            have hlen24 : pushed2.length ≤ 4 := by simpa [dirsList] using hlen2
            have hunfold2 : reachLoop walls area width (f2 + 1) reach
                (pstar :: ptail ++ rest) =
                reachLoop walls area width f2 (insert pstar reach)
                  (pushed2 ++ (ptail ++ rest)) :=
              (rfl :
                reachLoop walls area width (f2 + 1) reach (pstar :: (ptail ++ rest)) =
                reachLoop walls area width f2 (insert pstar reach)
                  ((dirsList width).foldl (fun st d =>
                    let next := move pstar d
                    if wallAt walls area next || bit (insert pstar reach) next then st
                    else next :: st) (ptail ++ rest))).trans
                (congrArg _ hfold2)
            have hbound2 : ∀ p ∈ pushed2 ++ (ptail ++ rest), p < B := by
              intro p hp
              rcases List.mem_append.1 hp with hp | hp
              · have hw := (hprops2 p hp).2.1
                simp only [wallAt, Bool.or_eq_false_iff, decide_eq_false_iff_not] at hw
                omega
              · exact hbound1 p (by
                  rcases List.mem_append.1 hp with hp | hp
                  · exact List.mem_append.2 (Or.inl (List.mem_cons_of_mem _ hp))
                  · exact List.mem_append.2 (Or.inr hp))
            have hinv2 : ∀ p ∈ insert pstar reach, ∀ d ∈ dirsList width,
                wallAt walls area (move p d) = false →
                move p d ∈ insert pstar reach ∨ move p d ∈ pushed2 ++ (ptail ++ rest) := by
              intro p hp d hd hw
              rcases Finset.mem_insert.1 hp with rfl | hp
              · rcases hcover2 d hd hw with h | h
                · exact Or.inl h
                · exact Or.inr (List.mem_append.2 (Or.inl h))
              · rcases hinv1 p hp d hd hw with h | h
                · exact Or.inl (Finset.mem_insert_of_mem h)
                · rcases List.mem_cons.1 h with heq2 | h
                  · exact Or.inl (heq2 ▸ Finset.mem_insert_self _ _)
                  · exact Or.inr (List.mem_append.2 (Or.inr h))
            have hcard : (Finset.range B \ insert pstar reach).card + 1 =
                (Finset.range B \ reach).card := by
              rw [Finset.sdiff_insert]
              rw [Finset.card_erase_of_mem (Finset.mem_sdiff.2 ⟨Finset.mem_range.2 hpsB, hpsnr⟩)]
              have : 1 ≤ (Finset.range B \ reach).card :=
                Finset.card_pos.2 ⟨pstar, Finset.mem_sdiff.2 ⟨Finset.mem_range.2 hpsB, hpsnr⟩⟩
              omega
            have hm2 : ((Finset.range B \ insert pstar reach).card + 1) * (4 * B + 8) +
                (pushed2 ++ (ptail ++ rest)).length ≤ f2 := by
              have he1 : ((Finset.range B \ insert pstar reach).card + 1) * (4 * B + 8) +
                  (4 * B + 8) = ((Finset.range B \ reach).card + 1) * (4 * B + 8) := by
                rw [← hcard]; ring
              simp only [List.length_append, List.length_cons] at hfuel hlen4 ⊢
              omega
            obtain ⟨hsub, hstk, hclosed⟩ :=
              ih f2 (by omega) (insert pstar reach) (pushed2 ++ (ptail ++ rest)) B hB
                hbound2 hinv2 hm2
            rw [hunfold, hunfold2]
            refine ⟨?_, ?_, hclosed⟩
            · exact fun p hp => hsub (Finset.mem_insert_of_mem hp)
            · intro p hp
              rcases List.mem_cons.1 hp with rfl | hp
              · exact hsub (Finset.mem_insert_of_mem hcur)
              · exact hstk p (List.mem_append.2 (Or.inr (List.mem_append.2 (Or.inr hp))))
        · -- the popped cell is fresh: the unmarked count drops
          have hcard : (Finset.range B \ insert current reach).card + 1 =
              (Finset.range B \ reach).card := by
            rw [Finset.sdiff_insert]
            rw [Finset.card_erase_of_mem (Finset.mem_sdiff.2 ⟨Finset.mem_range.2 hcurB, hcur⟩)]
            have : 1 ≤ (Finset.range B \ reach).card :=
              Finset.card_pos.2 ⟨current, Finset.mem_sdiff.2 ⟨Finset.mem_range.2 hcurB, hcur⟩⟩
            omega
          have hm1 : ((Finset.range B \ insert current reach).card + 1) * (4 * B + 8) +
              (pushed ++ rest).length ≤ f := by
            have he1 : ((Finset.range B \ insert current reach).card + 1) * (4 * B + 8) +
                (4 * B + 8) = ((Finset.range B \ reach).card + 1) * (4 * B + 8) := by
              rw [← hcard]; ring
            simp only [List.length_append, List.length_cons] at hfuel ⊢
            omega
          obtain ⟨hsub, hstk, hclosed⟩ :=
            ih f (Nat.lt_succ_self f) (insert current reach) (pushed ++ rest) B hB
              hbound1 hinv1 hm1
          rw [hunfold]
          refine ⟨?_, ?_, hclosed⟩
          · exact fun p hp => hsub (Finset.mem_insert_of_mem hp)
          · intro p hp
            rcases List.mem_cons.1 hp with rfl | hp
            · exact hsub (Finset.mem_insert_self _ _)
            · exact hstk p (List.mem_append.2 (Or.inr hp))

lemma reachLoop_sound :
    ∀ (fuel : ℕ) (reach : Finset ℕ) (stack : List ℕ) (player : ℕ),
      (∀ p ∈ reach, Reaches walls area width player p) →
      (∀ p ∈ stack, Reaches walls area width player p) →
      ∀ p ∈ reachLoop walls area width fuel reach stack,
        Reaches walls area width player p := by
  intro fuel
  induction fuel with
  | zero => intro reach stack player hr _ p hp; exact hr p hp
  | succ f ih =>
    intro reach stack player hr hs p hp
    cases stack with
    | nil => exact hr p hp
    | cons current rest =>
      obtain ⟨pushed, hfold, hprops, _, _, _⟩ :=
        foldPush_spec walls area (insert current reach) current (dirsList width) rest
      have hunfold : reachLoop walls area width (f + 1) reach (current :: rest) =
          reachLoop walls area width f (insert current reach) (pushed ++ rest) :=
        (rfl :
          reachLoop walls area width (f + 1) reach (current :: rest) =
          reachLoop walls area width f (insert current reach)
            ((dirsList width).foldl (fun st d =>
              let next := move current d
              if wallAt walls area next || bit (insert current reach) next then st
              else next :: st) rest)).trans
          (congrArg _ hfold)
      rw [hunfold] at hp
      have hcur : Reaches walls area width player current :=
        hs current (List.mem_cons_self _ _)
      refine ih (insert current reach) (pushed ++ rest) player ?_ ?_ p hp
      · intro q hq
        rcases Finset.mem_insert.1 hq with rfl | hq
        · exact hcur
        · exact hr q hq
      · intro q hq
        rcases List.mem_append.1 hq with hq | hq
        · obtain ⟨⟨d, hd, rfl⟩, hw, _⟩ := hprops q hq
          exact Relation.ReflTransGen.tail hcur ⟨⟨d, hd, rfl⟩, hw⟩
        · exact hs q (List.mem_cons_of_mem _ hq)

end Reachability

/-- Claim C7: `check_reachability` flood-fills the set of cells the
player can reach across non-wall cells with 4-directional moves and
returns true iff every set bit of `crates XOR goals` — every cell
holding a crate or a goal but not both — lies in that reachable set. -/
theorem claim_C7 (ctx : Ctx) (crates goals walls : Finset ℕ) (player : ℕ) :
    check_reachability ctx crates goals walls player = true ↔
      ∀ p ∈ symmDiff crates goals, Reaches walls ctx.area ctx.width player p := by
  have hmeas : ((Finset.range (ctx.area + player + 1) \ ∅).card + 1) *
      (4 * (ctx.area + player + 1) + 8) + ([player] : List ℕ).length ≤
      reachFuel ctx.area player := by
    simp only [Finset.sdiff_empty, Finset.card_range, List.length_singleton, reachFuel]
    nlinarith [ctx.area + player + 1]
  obtain ⟨hsub, hstk, hclosed⟩ :=
    reachLoop_main walls ctx.area ctx.width (reachFuel ctx.area player) ∅ [player]
      (ctx.area + player + 1) (by omega)
      (by intro p hp; rw [List.mem_singleton.1 hp]; omega)
      (by intro p hp; cases Finset.not_mem_empty p hp)
      hmeas
  have hRsound : ∀ p ∈ reachLoop walls ctx.area ctx.width
      (reachFuel ctx.area player) ∅ [player],
      Reaches walls ctx.area ctx.width player p :=
    reachLoop_sound walls ctx.area ctx.width _ ∅ [player] player
      (by intro p hp; cases Finset.not_mem_empty p hp)
      (by intro p hp; rw [List.mem_singleton.1 hp]; exact Relation.ReflTransGen.refl)
  have hRcomplete : ∀ p, Reaches walls ctx.area ctx.width player p →
      p ∈ reachLoop walls ctx.area ctx.width (reachFuel ctx.area player) ∅ [player] := by
    intro p hp
    induction hp with
    | refl => exact hstk player (List.mem_singleton.2 rfl)
    | tail _ hbc ih2 =>
      obtain ⟨⟨d, hd, rfl⟩, hw⟩ := hbc
      exact hclosed _ ih2 d hd hw
  simp only [check_reachability, decide_eq_true_iff]
  constructor
  · intro h p hp
    exact hRsound p (h hp)
  · intro h p hp
    exact hRcomplete p (h p hp)

lemma listGetD_set_ne (l : List ℕ) (i j x : ℕ) (h : i ≠ j) :
    (l.set i x).getD j 0 = l.getD j 0 := by
  simp [List.getD, List.getElem?_set_ne h]

lemma listGetD_set_self (l : List ℕ) (i x : ℕ) (h : i < l.length) :
    (l.set i x).getD i 0 = x := by
  simp [List.getD, List.getElem?_set_self, h]

lemma prioOf_setHeapIndex (arena : Array SState) (i : ℕ) (v : ℤ) (j : ℕ) :
    prioOf (setHeapIndex arena i v) j = prioOf arena j := by
  unfold prioOf setHeapIndex
  rw [Array.getD_eq_get?, Array.getD_eq_get?, Array.getElem?_modify]
  by_cases hij : i = j
  · rw [if_pos hij]
    cases hx : arena[j]? with
    | none => rfl
    | some s => rfl
  · rw [if_neg hij]

lemma heapPrioAt_swap (arena arena2 : Array SState) (heap : List ℕ)
    (node parent : ℕ) (hpar : parent < heap.length) (hnode : node < heap.length)
    (hne : parent ≠ node)
    (hprio : ∀ j, prioOf arena2 j = prioOf arena j) (j : ℕ) :
    heapPrioAt arena2 ((heap.set parent (heap.getD node 0)).set node
        (heap.getD parent 0)) j =
      if j = node then heapPrioAt arena heap parent
      else if j = parent then heapPrioAt arena heap node
      else heapPrioAt arena heap j := by
  unfold heapPrioAt
  rw [hprio]
  by_cases hjn : j = node
  · subst hjn
    rw [listGetD_set_self _ _ _ (by simpa using hnode), if_pos rfl]
  · rw [listGetD_set_ne _ _ _ _ (Ne.symm hjn), if_neg hjn]
    by_cases hjp : j = parent
    · subst hjp
      rw [listGetD_set_self _ _ _ hpar, if_pos rfl]
    · rw [listGetD_set_ne _ _ _ _ (Ne.symm hjp), if_neg hjp]

lemma heapify_bottomup_spec :
    ∀ (fuel node : ℕ) (arena : Array SState) (heap : List ℕ),
      node ≤ fuel → node < heap.length →
      heapAlmostUp arena heap node →
      HeapProp (heapify_bottomup fuel (arena, heap) node).1
          (heapify_bottomup fuel (arena, heap) node).2 ∧
        (heapify_bottomup fuel (arena, heap) node).2.length = heap.length ∧
        (∀ j, prioOf (heapify_bottomup fuel (arena, heap) node).1 j = prioOf arena j) := by
  intro fuel
  induction fuel with
  | zero =>
    intro node arena heap hle hlt halmost
    have hn0 : node = 0 := Nat.le_zero.1 hle
    subst hn0
    refine ⟨?_, rfl, fun _ => rfl⟩
    intro j h1 h2
    exact halmost.1 j h1 h2 (by omega)
  | succ fuel ih =>
    intro node arena heap hle hlt halmost
    by_cases hn0 : node = 0
    · subst hn0
      rw [show heapify_bottomup (fuel + 1) (arena, heap) 0 = (arena, heap) by
        simp [heapify_bottomup]]
      refine ⟨?_, rfl, fun _ => rfl⟩
      intro j h1 h2
      exact halmost.1 j h1 h2 (by omega)
    · have hparlt : node / 2 < node := Nat.div_lt_self (by omega) (by omega)
      by_cases hswap : prioOf arena (heap.getD node 0) <
          prioOf arena (heap.getD (node / 2) 0)
      · have hstep : heapify_bottomup (fuel + 1) (arena, heap) node =
            heapify_bottomup fuel
              (setHeapIndex (setHeapIndex arena (heap.getD node 0) ((node / 2 : ℕ) : ℤ))
                  (heap.getD (node / 2) 0) ((node : ℕ) : ℤ),
                (heap.set (node / 2) (heap.getD node 0)).set node
                  (heap.getD (node / 2) 0)) (node / 2) := by
          simp only [heapify_bottomup]
          rw [if_neg hn0, if_pos hswap]
        rw [hstep]
        have hprio2 : ∀ j, prioOf
            (setHeapIndex (setHeapIndex arena (heap.getD node 0) ((node / 2 : ℕ) : ℤ))
              (heap.getD (node / 2) 0) ((node : ℕ) : ℤ)) j = prioOf arena j := by
          intro j
          rw [prioOf_setHeapIndex, prioOf_setHeapIndex]
        have hswapAt := heapPrioAt_swap arena _ heap node (node / 2)
          (lt_trans hparlt hlt) hlt (by omega) hprio2
        have hlen2 : ((heap.set (node / 2) (heap.getD node 0)).set node
            (heap.getD (node / 2) 0)).length = heap.length := by simp
        have halmost2 : heapAlmostUp
            (setHeapIndex (setHeapIndex arena (heap.getD node 0) ((node / 2 : ℕ) : ℤ))
              (heap.getD (node / 2) 0) ((node : ℕ) : ℤ))
            ((heap.set (node / 2) (heap.getD node 0)).set node (heap.getD (node / 2) 0))
            (node / 2) := by
          constructor
          · intro j h1 h2 hjne
            rw [hlen2] at h2
            rw [hswapAt j, hswapAt (j / 2)]
            by_cases hjn : j = node
            · rw [if_pos hjn]
              rw [if_neg (show ¬ j / 2 = node by omega)]
              rw [if_pos (show j / 2 = node / 2 by omega)]
              exact le_of_lt hswap
            · rw [if_neg hjn, if_neg hjne]
              by_cases hj2n : j / 2 = node
              · rw [if_pos hj2n]
                exact halmost.2 (by omega) j h2 (by omega)
              · rw [if_neg hj2n]
                by_cases hj2p : j / 2 = node / 2
                · rw [if_pos hj2p]
                  exact le_trans (le_of_lt hswap) (hj2p ▸ halmost.1 j h1 h2 hjn)
                · rw [if_neg hj2p]
                  exact halmost.1 j h1 h2 hjn
          · intro hp1 c hc hcc
            rw [hlen2] at hc
            rw [hswapAt c, hswapAt (node / 2 / 2)]
            rw [if_neg (show ¬ node / 2 / 2 = node by omega)]
            rw [if_neg (show ¬ node / 2 / 2 = node / 2 by omega)]
            by_cases hcn : c = node
            · rw [if_pos hcn]
              exact halmost.1 (node / 2) hp1 (lt_trans hparlt hlt) (by omega)
            · rw [if_neg hcn]
              rw [if_neg (show ¬ c = node / 2 by omega)]
              have hc2 : c / 2 = node / 2 := by omega
              exact le_trans
                (halmost.1 (node / 2) hp1 (lt_trans hparlt hlt) (by omega))
                (hc2 ▸ halmost.1 c (by omega) hc hcn)
        obtain ⟨hH, hL, hP⟩ := ih (node / 2) _ _
          (by omega) (by rw [hlen2]; exact lt_trans hparlt hlt) halmost2
        exact ⟨hH, by rw [hL, hlen2], fun j => by rw [hP, hprio2]⟩
      · have hstep : heapify_bottomup (fuel + 1) (arena, heap) node = (arena, heap) := by
          simp only [heapify_bottomup]
          rw [if_neg hn0, if_neg hswap]
        rw [hstep]
        refine ⟨?_, rfl, fun _ => rfl⟩
        intro j h1 h2
        by_cases hjn : j = node
        · subst hjn
          unfold heapPrioAt
          exact le_of_not_lt hswap
        · exact halmost.1 j h1 h2 hjn

lemma heapPrioAt_append_lt (arena : Array SState) (heap : List ℕ) (e : ℕ)
    (j : ℕ) (hj : j < heap.length) :
    heapPrioAt arena (heap ++ [e]) j = heapPrioAt arena heap j := by
  unfold heapPrioAt
  congr 1
  simp [List.getD, List.getElem?_append_left hj]

lemma heap_insert_spec (arena : Array SState) (heap : List ℕ) (e : ℕ)
    (h : HeapProp arena heap) :
    HeapProp (heap_insert arena heap e).1 (heap_insert arena heap e).2 ∧
    (heap_insert arena heap e).2.length = heap.length + 1 := by
  simp only [heap_insert]
  by_cases hn : 0 < heap.length
  · rw [if_pos hn]
    have hAt : ∀ j, j < heap.length →
        heapPrioAt (setHeapIndex arena e (heap.length : ℤ)) (heap ++ [e]) j =
          heapPrioAt arena heap j := by
      intro j hj
      rw [heapPrioAt_append_lt]
      · unfold heapPrioAt
        rw [prioOf_setHeapIndex]
      · exact hj
    have halmost : heapAlmostUp (setHeapIndex arena e (heap.length : ℤ))
        (heap ++ [e]) heap.length := by
      constructor
      · intro j h1 h2 hjne
        simp only [List.length_append, List.length_singleton] at h2
        have hj : j < heap.length := by omega
        rw [hAt j hj, hAt (j / 2) (by omega)]
        exact h j h1 hj
      · intro h1 c hc hcc
        simp only [List.length_append, List.length_singleton] at hc
        omega
    obtain ⟨hH, hL, _⟩ := heapify_bottomup_spec heap.length heap.length _ _
      le_rfl (by simp) halmost
    exact ⟨hH, by rw [hL]; simp⟩
  · rw [if_neg hn]
    constructor
    · intro j h1 h2
      simp only [List.length_append, List.length_singleton] at h2
      omega
    · simp

lemma heapify_topdown_spec :
    ∀ (fuel : ℕ) (arena : Array SState) (heap : List ℕ) (root size : ℕ),
      size = heap.length → size ≤ fuel + root →
      heapAlmostDown arena heap root →
      HeapProp (heapify_topdown fuel (arena, heap) root size).1
          (heapify_topdown fuel (arena, heap) root size).2 ∧
        (heapify_topdown fuel (arena, heap) root size).2.length = heap.length := by
  intro fuel
  induction fuel with
  | zero =>
    intro arena heap root size hsz hle halmost
    show HeapProp arena heap ∧ heap.length = heap.length
    refine ⟨?_, rfl⟩
    intro j h1 h2
    exact halmost.1 j h1 h2 (by omega)
  | succ fuel ih =>
    intro arena heap root size hsz hle halmost
    by_cases hc1 : size ≤ 2 * root
    · rw [show heapify_topdown (fuel + 1) (arena, heap) root size = (arena, heap) by
        simp only [heapify_topdown]
        rw [if_pos hc1]]
      show HeapProp arena heap ∧ heap.length = heap.length
      refine ⟨?_, rfl⟩
      intro j h1 h2
      exact halmost.1 j h1 h2 (by omega)
    · -- children exist; select the smaller one
      set m : ℕ := if 2 * root + 1 < size ∧
          heapPrioAt arena heap (2 * root + 1) < heapPrioAt arena heap (2 * root) then
          2 * root + 1 else 2 * root with hm
      have hm_or : m = 2 * root ∨ m = 2 * root + 1 := by
        rw [hm]
        split
        · exact Or.inr rfl
        · exact Or.inl rfl
      have hmlt : m < size := by
        rw [hm]
        split
        · rename_i hsel
          exact hsel.1
        · omega
      have hm1 : heapPrioAt arena heap m ≤ heapPrioAt arena heap (2 * root) := by
        rw [hm]
        split
        · rename_i hsel
          exact le_of_lt hsel.2
        · exact le_rfl
      have hm2 : 2 * root + 1 < size →
          heapPrioAt arena heap m ≤ heapPrioAt arena heap (2 * root + 1) := by
        intro hlt
        rw [hm]
        split
        · exact le_rfl
        · rename_i hsel
          rw [not_and] at hsel
          exact le_of_not_lt (hsel hlt)
      by_cases hswap : heapPrioAt arena heap m < heapPrioAt arena heap root
      · have hmr : m ≠ root := by
          intro he
          rw [he] at hswap
          exact lt_irrefl _ hswap
        have hstep : heapify_topdown (fuel + 1) (arena, heap) root size =
            heapify_topdown fuel
              (setHeapIndex (setHeapIndex arena (heap.getD m 0) ((root : ℕ) : ℤ))
                  (heap.getD root 0) ((m : ℕ) : ℤ),
                (heap.set root (heap.getD m 0)).set m (heap.getD root 0)) m size := by
          simp only [heapify_topdown]
          rw [if_neg (by omega : ¬ size ≤ 2 * root), ← hm,
            if_pos (show prioOf arena (heap.getD m 0) <
              prioOf arena (heap.getD root 0) from hswap)]
        rw [hstep]
        have hrs : root < size := by omega
        have hprio2 : ∀ j, prioOf
            (setHeapIndex (setHeapIndex arena (heap.getD m 0) ((root : ℕ) : ℤ))
              (heap.getD root 0) ((m : ℕ) : ℤ)) j = prioOf arena j := by
          intro j
          rw [prioOf_setHeapIndex, prioOf_setHeapIndex]
        have hswapAt := heapPrioAt_swap arena _ heap m root
          (by omega) (by omega) (Ne.symm hmr) hprio2
        have hlen2 : ((heap.set root (heap.getD m 0)).set m (heap.getD root 0)).length =
            heap.length := by simp
        have halmost2 : heapAlmostDown
            (setHeapIndex (setHeapIndex arena (heap.getD m 0) ((root : ℕ) : ℤ))
              (heap.getD root 0) ((m : ℕ) : ℤ))
            ((heap.set root (heap.getD m 0)).set m (heap.getD root 0)) m := by
          constructor
          · intro j h1 h2 hj2m
            rw [hlen2] at h2
            rw [hswapAt j, hswapAt (j / 2)]
            by_cases hjm : j = m
            · rw [if_pos hjm, if_neg (show ¬ j / 2 = m by omega),
                if_pos (show j / 2 = root by omega)]
              exact le_of_lt hswap
            · rw [if_neg hjm]
              by_cases hjr : j = root
              · rw [if_pos hjr, if_neg (show ¬ j / 2 = m by omega),
                  if_neg (show ¬ j / 2 = root by omega)]
                have h1r : 1 ≤ root := by omega
                rw [show j / 2 = root / 2 by omega]
                exact halmost.2 h1r m (by omega) hm_or
              · rw [if_neg hjr]
                by_cases hj2r : j / 2 = root
                · -- j is the sibling of m
                  rw [if_neg (show ¬ j / 2 = m by omega), if_pos hj2r]
                  have hsib : (j = 2 * root ∧ m = 2 * root + 1) ∨
                      (j = 2 * root + 1 ∧ m = 2 * root) := by omega
                  rcases hsib with ⟨hj, _⟩ | ⟨hj, _⟩
                  · rw [hj]
                    exact hm1
                  · rw [hj]
                    exact hm2 (by omega)
                · rw [if_neg (show ¬ j / 2 = m from hj2m), if_neg hj2r]
                  exact halmost.1 j h1 (by omega) hj2r
          · intro h1m c hc hcc
            rw [hlen2] at hc
            rw [hswapAt c, hswapAt (m / 2)]
            rw [if_neg (show ¬ m / 2 = m by omega), if_pos (show m / 2 = root by omega)]
            rw [if_neg (show ¬ c = m by omega), if_neg (show ¬ c = root by omega)]
            have hedge := halmost.1 c (by omega) (by omega) (by omega)
            rw [show c / 2 = m by omega] at hedge
            exact hedge
        obtain ⟨hH, hL⟩ := ih _ _ m size (by rw [hlen2, ← hsz])
          (by omega) halmost2
        exact ⟨hH, by rw [hL]; exact hlen2⟩
      · rw [show heapify_topdown (fuel + 1) (arena, heap) root size = (arena, heap) by
          simp only [heapify_topdown]
          rw [if_neg (by omega : ¬ size ≤ 2 * root), ← hm,
            if_neg (show ¬ prioOf arena (heap.getD m 0) <
              prioOf arena (heap.getD root 0) from hswap)]]
        show HeapProp arena heap ∧ heap.length = heap.length
        refine ⟨?_, rfl⟩
        intro j h1 h2
        by_cases hj2r : j / 2 = root
        · have hj : j = 2 * root ∨ j = 2 * root + 1 := by omega
          have hroot : heapPrioAt arena heap root ≤ heapPrioAt arena heap m :=
            le_of_not_lt hswap
          rcases hj with hj | hj
          · rw [hj2r, hj]
            exact le_trans hroot hm1
          · rw [hj2r, hj]
            exact le_trans hroot (hm2 (by omega))
        · exact halmost.1 j h1 h2 hj2r

lemma listGetD_dropLast (l : List ℕ) (i : ℕ) (h : i < l.length - 1) :
    l.dropLast.getD i 0 = l.getD i 0 := by
  have h2 : i < l.length := by omega
  simp [List.getD, List.getElem?_dropLast, h, List.getElem?_eq_getElem h2]

lemma heap_pop_spec (arena : Array SState) (heap : List ℕ)
    (h : HeapProp arena heap) :
    HeapProp (heap_pop arena heap).2.1 (heap_pop arena heap).2.2 := by
  match heap with
  | [] =>
    intro j h1 h2
    simp only [heap_pop, List.length_nil] at h2
    omega
  | [r] =>
    intro j h1 h2
    simp only [heap_pop, List.length_nil] at h2
    omega
  | rootIdx :: r2 :: rs =>
    show HeapProp
      (heapify_topdown (((r2 :: rs).getLastD 0 :: (r2 :: rs).dropLast).length)
        (setHeapIndex arena ((r2 :: rs).getLastD 0) 0,
          (r2 :: rs).getLastD 0 :: (r2 :: rs).dropLast) 0
        (((r2 :: rs).getLastD 0 :: (r2 :: rs).dropLast).length)).1
      (heapify_topdown (((r2 :: rs).getLastD 0 :: (r2 :: rs).dropLast).length)
        (setHeapIndex arena ((r2 :: rs).getLastD 0) 0,
          (r2 :: rs).getLastD 0 :: (r2 :: rs).dropLast) 0
        (((r2 :: rs).getLastD 0 :: (r2 :: rs).dropLast).length)).2
    have hAt : ∀ k, 1 ≤ k → k < rs.length + 1 →
        heapPrioAt (setHeapIndex arena ((r2 :: rs).getLastD 0) 0)
          ((r2 :: rs).getLastD 0 :: (r2 :: rs).dropLast) k =
        heapPrioAt arena (rootIdx :: r2 :: rs) k := by
      intro k hk1 hk2
      obtain ⟨k2, rfl⟩ : ∃ k2, k = k2 + 1 := ⟨k - 1, by omega⟩
      unfold heapPrioAt
      rw [prioOf_setHeapIndex]
      congr 1
      show ((r2 :: rs).dropLast).getD k2 0 = (r2 :: rs).getD k2 0
      exact listGetD_dropLast _ _ (by simp; omega)
    have halmost : heapAlmostDown (setHeapIndex arena ((r2 :: rs).getLastD 0) 0)
        ((r2 :: rs).getLastD 0 :: (r2 :: rs).dropLast) 0 := by
      constructor
      · intro j h1 h2 hj20
        simp only [List.length_cons, List.length_dropLast] at h2
        have hj2 : 2 ≤ j := by omega
        rw [hAt j h1 (by omega), hAt (j / 2) (by omega) (by omega)]
        exact h j h1 (by simp; omega)
      · intro h10
        omega
    obtain ⟨hH, _⟩ := heapify_topdown_spec _ _ _ 0 _ rfl le_rfl halmost
    exact hH

/-- Claim C6 counterexample: the heap is not 1-based with the first
array slot unused.  Inserting into an empty heap stores the element in
slot 0 with intrusive back-pointer 0 — the resulting heap is `[0]`, of
length 1, so slot 1 does not even exist — and `heap_pop` removes the
slot-0 element. -/
theorem claim_C6_counterexample :
    (heap_insert #[(default : SState)] [] 0).2 = [0] ∧
    ((heap_insert #[(default : SState)] [] 0).1.getD 0 default).heapIndex = 0 ∧
    (heap_pop #[(default : SState)] [0]).1 = 0 :=
  ⟨by decide, by decide, by decide⟩

/-- Claim C6 (amended): the A* frontier is a binary min-heap laid out
with the root in slot 0 — the first slot of the array is used — and the
parent of slot `j ≥ 1` at slot `j / 2`, so slot 0 has the single child
1 and every slot `i ≥ 1` has its children at `2i` and `2i + 1`.  The
heap-order property `min_heap[j/2].priority ≤ min_heap[j].priority`
(for every `1 ≤ j < size`) is preserved by `heap_insert` and by
`heap_pop`. -/
theorem claim_C6_amended :
    (∀ (arena : Array SState) (heap : List ℕ) (e : ℕ),
      HeapProp arena heap →
      HeapProp (heap_insert arena heap e).1 (heap_insert arena heap e).2) ∧
    (∀ (arena : Array SState) (heap : List ℕ),
      HeapProp arena heap →
      HeapProp (heap_pop arena heap).2.1 (heap_pop arena heap).2.2) :=
  ⟨fun arena heap e h => (heap_insert_spec arena heap e h).1,
   fun arena heap h => heap_pop_spec arena heap h⟩

/-- Claim C6 amended witness: popping a concrete three-element heap
with priorities 1, 2, 3 keeps the heap ordered. -/
theorem claim_C6_amended_witness :
    HeapProp
      (heap_pop #[⟨none, 'l', 0, ∅, 0, 0, 1, 0⟩, ⟨none, 'l', 0, ∅, 0, 0, 2, 0⟩,
        ⟨none, 'l', 0, ∅, 0, 0, 3, 0⟩] [0, 1, 2]).2.1
      (heap_pop #[⟨none, 'l', 0, ∅, 0, 0, 1, 0⟩, ⟨none, 'l', 0, ∅, 0, 0, 2, 0⟩,
        ⟨none, 'l', 0, ∅, 0, 0, 3, 0⟩] [0, 1, 2]).2.2 :=
  claim_C6_amended.2 _ _ (by
    intro j h1 h2
    simp only [List.length_cons, List.length_nil] at h2
    interval_cases j <;> decide)

/-! ## Deadlock map (`generate_deadlock_map`) -/

lemma wallAt_false_lt {walls : Finset ℕ} {area p : ℕ}
    (h : wallAt walls area p = false) : p < area := by
  simp only [wallAt, Bool.or_eq_false_iff, decide_eq_false_iff_not, not_le] at h
  exact h.2

lemma sum_update_eq (h : ℕ → ℕ) (x v area : ℕ) (hx : x ∈ Finset.range area) :
    (∑ p ∈ Finset.range area, Function.update h x v p) + h x
      = (∑ p ∈ Finset.range area, h p) + v := by
  rw [Finset.sum_update_of_mem hx, ← Finset.erase_eq,
    ← Finset.sum_erase_add (Finset.range area) h hx]
  omega

lemma dlExpand_eq_wall {walls : Finset ℕ} {area : ℕ} {current cost : ℕ}
    {s : DLState} {d : ℤ} (h1 : wallAt walls area (move current d) = true) :
    dlExpand walls area current cost s d = s := by
  simp only [dlExpand]
  rw [if_pos h1]

lemma dlExpand_eq_skip {walls : Finset ℕ} {area : ℕ} {current cost : ℕ}
    {s : DLState} {d : ℤ} (h1 : wallAt walls area (move current d) = false)
    (h2 : move current d ∈ s.nd ∧ s.heur (move current d) ≤ cost) :
    dlExpand walls area current cost s d = s := by
  simp only [dlExpand]
  rw [if_neg (by simp [h1]), if_pos (by simp [h2.1, h2.2])]

lemma dlExpand_eq_beyond {walls : Finset ℕ} {area : ℕ} {current cost : ℕ}
    {s : DLState} {d : ℤ} (h1 : wallAt walls area (move current d) = false)
    (h2 : ¬ (move current d ∈ s.nd ∧ s.heur (move current d) ≤ cost))
    (h3 : wallAt walls area (move (move current d) d) = true) :
    dlExpand walls area current cost s d = s := by
  simp only [dlExpand]
  rw [if_neg (by simp [h1]), if_neg (by simpa using h2), if_pos h3]

lemma dlExpand_eq_update {walls : Finset ℕ} {area : ℕ} {current cost : ℕ}
    {s : DLState} {d : ℤ} (h1 : wallAt walls area (move current d) = false)
    (h2 : ¬ (move current d ∈ s.nd ∧ s.heur (move current d) ≤ cost))
    (h3 : wallAt walls area (move (move current d) d) = false) :
    dlExpand walls area current cost s d =
      { nd := insert (move current d) s.nd,
        heur := Function.update s.heur (move current d) cost,
        queue := s.queue ++ [move current d] } := by
  simp only [dlExpand]
  rw [if_neg (by simp [h1]), if_neg (by simpa using h2), if_neg (by simp [h3])]

lemma dlExpand_spec (walls : Finset ℕ) (area width : ℕ) (current cost : ℕ)
    (s : DLState) (d : ℤ) (hd : d ∈ dirsList width)
    (hcur : current ∈ s.nd) (hcost : cost ≤ s.nd.card)
    (hch : s.heur current ≤ cost) (hinv : DLInv area s) :
    DLInv area (dlExpand walls area current cost s d) ∧
    s.nd ⊆ (dlExpand walls area current cost s d).nd ∧
    (∀ p, (dlExpand walls area current cost s d).heur p ≤ s.heur p) ∧
    (∃ adds, (dlExpand walls area current cost s d).queue = s.queue ++ adds ∧
      ∀ q ∈ adds, q ∈ (dlExpand walls area current cost s d).nd) ∧
    (∀ q ∈ (dlExpand walls area current cost s d).nd,
      q ∈ s.nd ∨ revStep walls area width current q) ∧
    (∀ q, (dlExpand walls area current cost s d).heur q < s.heur q →
      q ∈ (dlExpand walls area current cost s d).queue) ∧
    (dlExpand walls area current cost s d).heur current = s.heur current ∧
    dlMeasure area (dlExpand walls area current cost s d) ≤ dlMeasure area s ∧
    (wallAt walls area (move current d) = false →
      wallAt walls area (move (move current d) d) = false →
      move current d ∈ (dlExpand walls area current cost s d).nd ∧
      (dlExpand walls area current cost s d).heur (move current d) ≤ cost) := by
  by_cases h1 : wallAt walls area (move current d) = true
  · rw [dlExpand_eq_wall h1]
    refine ⟨hinv, Finset.Subset.refl _, fun p => le_refl _,
      ⟨[], (List.append_nil _).symm, fun q hq => absurd hq (List.not_mem_nil q)⟩,
      fun q hq => Or.inl hq, fun q hq => (lt_irrefl _ hq).elim, rfl, le_refl _, ?_⟩
    intro hw1
    rw [hw1] at h1
    exact absurd h1 (by simp)
  rw [Bool.not_eq_true] at h1
  by_cases h2 : move current d ∈ s.nd ∧ s.heur (move current d) ≤ cost
  · rw [dlExpand_eq_skip h1 h2]
    exact ⟨hinv, Finset.Subset.refl _, fun p => le_refl _,
      ⟨[], (List.append_nil _).symm, fun q hq => absurd hq (List.not_mem_nil q)⟩,
      fun q hq => Or.inl hq, fun q hq => (lt_irrefl _ hq).elim, rfl, le_refl _,
      fun hw1 hw2 => h2⟩
  by_cases h3 : wallAt walls area (move (move current d) d) = true
  · rw [dlExpand_eq_beyond h1 h2 h3]
    refine ⟨hinv, Finset.Subset.refl _, fun p => le_refl _,
      ⟨[], (List.append_nil _).symm, fun q hq => absurd hq (List.not_mem_nil q)⟩,
      fun q hq => Or.inl hq, fun q hq => (lt_irrefl _ hq).elim, rfl, le_refl _, ?_⟩
    intro hw1 hw2
    rw [hw2] at h3
    exact absurd h3 (by simp)
  rw [Bool.not_eq_true] at h3
  rw [dlExpand_eq_update h1 h2 h3]
  dsimp only
  have hlt : move current d < area := wallAt_false_lt h1
  have hcardle : s.nd.card ≤ area := by
    have := Finset.card_le_card hinv.1
    simpa using this
  have hne : current ≠ move current d := by
    intro hEq
    exact h2 ⟨hEq ▸ hcur, hEq ▸ hch⟩
  have hstrict : cost + 1 ≤ s.heur (move current d) := by
    by_cases hmem : move current d ∈ s.nd
    · have : ¬ s.heur (move current d) ≤ cost := fun hle => h2 ⟨hmem, hle⟩
      omega
    · have harea : s.heur (move current d) = area := hinv.2.2.1 _ hmem
      have hcls : s.nd.card < area := by
        have hss : s.nd ⊂ Finset.range area := by
          rw [Finset.ssubset_def]
          exact ⟨hinv.1, fun hsub => hmem (hsub (Finset.mem_range.mpr hlt))⟩
        have := Finset.card_lt_card hss
        simpa using this
      omega
  refine ⟨?_, Finset.subset_insert _ _, ?_, ⟨[move current d], rfl, ?_⟩, ?_, ?_, ?_, ?_, ?_⟩
  · dsimp only [DLInv]
    refine ⟨Finset.insert_subset (Finset.mem_range.mpr hlt) hinv.1, ?_, ?_, ?_⟩
    · intro c hc
      have hcard2 : s.nd.card ≤ (insert (move current d) s.nd).card :=
        Finset.card_le_card (Finset.subset_insert _ _)
      by_cases hceq : c = move current d
      · subst hceq
        rw [Function.update_same]
        by_cases hmem : move current d ∈ s.nd
        · have hh := hinv.2.1 _ hmem
          omega
        · rw [Finset.card_insert_of_not_mem hmem]
          omega
      · have hcs : c ∈ s.nd := by
          rcases Finset.mem_insert.mp hc with h | h
          · exact absurd h hceq
          · exact h
        rw [Function.update_noteq hceq]
        exact le_trans (hinv.2.1 _ hcs) hcard2
    · intro c hcmem
      have hc1 : c ≠ move current d := fun hEq =>
        hcmem (hEq ▸ Finset.mem_insert_self _ _)
      have hc2 : c ∉ s.nd := fun hmem =>
        hcmem (Finset.mem_insert_of_mem hmem)
      rw [Function.update_noteq hc1]
      exact hinv.2.2.1 _ hc2
    · intro c hcq
      rcases List.mem_append.mp hcq with hcq | hcq
      · exact Finset.mem_insert_of_mem (hinv.2.2.2 _ hcq)
      · rw [List.mem_singleton.mp hcq]
        exact Finset.mem_insert_self _ _
  · intro p
    by_cases hp : p = move current d
    · subst hp
      rw [Function.update_same]
      omega
    · rw [Function.update_noteq hp]
  · intro q hq
    rw [List.mem_singleton.mp hq]
    exact Finset.mem_insert_self _ _
  · intro q hq
    rcases Finset.mem_insert.mp hq with hq | hq
    · exact Or.inr ⟨d, hd, hq, hq ▸ h1, hq ▸ h3⟩
    · exact Or.inl hq
  · intro q hq
    by_cases hp : q = move current d
    · subst hp
      exact List.mem_append.mpr (Or.inr (List.mem_singleton.mpr rfl))
    · rw [Function.update_noteq hp] at hq
      exact (lt_irrefl _ hq).elim
  · exact Function.update_noteq hne _ _
  · show (∑ p ∈ Finset.range area,
        Function.update s.heur (move current d) cost p) + (s.queue ++ [move current d]).length
      ≤ (∑ p ∈ Finset.range area, s.heur p) + s.queue.length
    have hsum := sum_update_eq s.heur (move current d) cost area
      (Finset.mem_range.mpr hlt)
    simp only [List.length_append, List.length_singleton]
    omega
  · intro hw1 hw2
    exact ⟨Finset.mem_insert_self _ _, by rw [Function.update_same]⟩

lemma dlExpand_foldl_spec (walls : Finset ℕ) (area width : ℕ) (current cost : ℕ)
    (ds : List ℤ) : ∀ (s : DLState), (∀ d ∈ ds, d ∈ dirsList width) →
    current ∈ s.nd → cost ≤ s.nd.card → s.heur current ≤ cost → DLInv area s →
    DLInv area (ds.foldl (dlExpand walls area current cost) s) ∧
    s.nd ⊆ (ds.foldl (dlExpand walls area current cost) s).nd ∧
    (∀ p, (ds.foldl (dlExpand walls area current cost) s).heur p ≤ s.heur p) ∧
    (∃ adds, (ds.foldl (dlExpand walls area current cost) s).queue = s.queue ++ adds ∧
      ∀ q ∈ adds, q ∈ (ds.foldl (dlExpand walls area current cost) s).nd) ∧
    (∀ q ∈ (ds.foldl (dlExpand walls area current cost) s).nd,
      q ∈ s.nd ∨ revStep walls area width current q) ∧
    (∀ q, (ds.foldl (dlExpand walls area current cost) s).heur q < s.heur q →
      q ∈ (ds.foldl (dlExpand walls area current cost) s).queue) ∧
    (ds.foldl (dlExpand walls area current cost) s).heur current = s.heur current ∧
    dlMeasure area (ds.foldl (dlExpand walls area current cost) s) ≤ dlMeasure area s ∧
    (∀ d ∈ ds, wallAt walls area (move current d) = false →
      wallAt walls area (move (move current d) d) = false →
      move current d ∈ (ds.foldl (dlExpand walls area current cost) s).nd ∧
      (ds.foldl (dlExpand walls area current cost) s).heur (move current d) ≤ cost) := by
  induction ds with
  | nil =>
    intro s hds hcur hcost hch hinv
    simp only [List.foldl_nil]
    exact ⟨hinv, Finset.Subset.refl _, fun p => le_refl _,
      ⟨[], (List.append_nil _).symm, fun q hq => absurd hq (List.not_mem_nil q)⟩,
      fun q hq => Or.inl hq, fun q hq => (lt_irrefl _ hq).elim, trivial, le_refl _,
      fun d hd => absurd hd (List.not_mem_nil d)⟩
  | cons d ds ih =>
    intro s hds hcur hcost hch hinv
    simp only [List.foldl_cons]
    obtain ⟨hJ1, hsub1, hmono1, ⟨a1, hq1, ha1⟩, hF41, hF81, hF101, hM1, hcov1⟩ :=
      dlExpand_spec walls area width current cost s d
        (hds d (List.mem_cons_self d ds)) hcur hcost hch hinv
    obtain ⟨hJ2, hsub2, hmono2, ⟨a2, hq2, ha2⟩, hF42, hF82, hF102, hM2, hcov2⟩ :=
      ih (dlExpand walls area current cost s d)
        (fun e he => hds e (List.mem_cons_of_mem d he))
        (hsub1 hcur) (le_trans hcost (Finset.card_le_card hsub1))
        (by rw [hF101]; exact hch) hJ1
    refine ⟨hJ2, Finset.Subset.trans hsub1 hsub2,
      fun p => le_trans (hmono2 p) (hmono1 p),
      ⟨a1 ++ a2, by rw [hq2, hq1, List.append_assoc], ?_⟩, ?_, ?_, ?_,
      le_trans hM2 hM1, ?_⟩
    · intro q hq
      rcases List.mem_append.mp hq with hq | hq
      · exact hsub2 (ha1 q hq)
      · exact ha2 q hq
    · intro q hq
      rcases hF42 q hq with hq2m | hrev
      · exact hF41 q hq2m
      · exact Or.inr hrev
    · intro q hq
      by_cases hq1lt : (dlExpand walls area current cost s d).heur q < s.heur q
      · have hmem := hF81 q hq1lt
        rw [hq2]
        exact List.mem_append.mpr (Or.inl hmem)
      · have heq : (dlExpand walls area current cost s d).heur q = s.heur q :=
          le_antisymm (hmono1 q) (not_lt.mp hq1lt)
        exact hF82 q (by rw [heq]; exact hq)
    · rw [hF102, hF101]
    · intro e he hw1 hw2
      rcases List.mem_cons.mp he with he | he
      · subst he
        obtain ⟨hmem, hle⟩ := hcov1 hw1 hw2
        exact ⟨hsub2 hmem, le_trans (hmono2 _) hle⟩
      · exact hcov2 e he hw1 hw2

lemma dlLoop_spec (walls : Finset ℕ) (area width : ℕ) :
    ∀ (fuel : ℕ) (s : DLState), DLInv area s → dlMeasure area s ≤ fuel →
    (dlLoop walls area width fuel s).queue = [] ∧
    DLInv area (dlLoop walls area width fuel s) ∧
    s.nd ⊆ (dlLoop walls area width fuel s).nd ∧
    (∀ p, (dlLoop walls area width fuel s).heur p ≤ s.heur p) ∧
    ((∀ c ∈ s.nd, c ∉ s.queue → DLClosedAt walls area width s c) →
      ∀ c ∈ (dlLoop walls area width fuel s).nd,
        DLClosedAt walls area width (dlLoop walls area width fuel s) c) ∧
    (∀ P : ℕ → Prop, (∀ c n, P c → revStep walls area width c n → P n) →
      (∀ c ∈ s.nd, P c) → ∀ c ∈ (dlLoop walls area width fuel s).nd, P c) := by
  intro fuel
  induction fuel using Nat.strong_induction_on with
  | _ fuel ih =>
  intro s hinv hM
  obtain ⟨nd, heur, queue⟩ := s
  cases fuel with
  | zero =>
    have hq : queue = [] := by
      have hlen : queue.length = 0 := by
        have : dlMeasure area ⟨nd, heur, queue⟩ ≤ 0 := hM
        unfold dlMeasure at this
        simp only at this
        omega
      exact List.length_eq_zero.mp hlen
    subst hq
    exact ⟨rfl, hinv, Finset.Subset.refl _, fun p => le_refl _,
      fun hK c hc => hK c hc (List.not_mem_nil c),
      fun P hstep hP c hc => hP c hc⟩
  | succ fuel =>
    cases queue with
    | nil =>
      exact ⟨rfl, hinv, Finset.Subset.refl _, fun p => le_refl _,
        fun hK c hc => hK c hc (List.not_mem_nil c),
        fun P hstep hP c hc => hP c hc⟩
    | cons current rest =>
      have hcur : current ∈ nd := hinv.2.2.2 current (List.mem_cons_self _ _)
      have hcost : heur current + 1 ≤ nd.card := hinv.2.1 current hcur
      have hinv1 : DLInv area (⟨nd, heur, rest⟩ : DLState) :=
        ⟨hinv.1, hinv.2.1, hinv.2.2.1,
          fun c hc => hinv.2.2.2 c (List.mem_cons_of_mem _ hc)⟩
      obtain ⟨hJ2, hsub2, hmono2, ⟨adds, hq2, hadds⟩, hF42, hF82, hF102, hM2, hcov2⟩ :=
        dlExpand_foldl_spec walls area width current (heur current + 1)
          (dirsList width) ⟨nd, heur, rest⟩ (fun d hd => hd) hcur hcost
          (Nat.le_succ _) hinv1
      have hstep : dlLoop walls area width (fuel + 1) ⟨nd, heur, current :: rest⟩ =
          dlLoop walls area width fuel
            ((dirsList width).foldl (dlExpand walls area current (heur current + 1))
              ⟨nd, heur, rest⟩) := rfl
      have hMt : dlMeasure area
          ((dirsList width).foldl (dlExpand walls area current (heur current + 1))
            ⟨nd, heur, rest⟩) ≤ fuel := by
        have hM1 : dlMeasure area (⟨nd, heur, rest⟩ : DLState) + 1
            = dlMeasure area (⟨nd, heur, current :: rest⟩ : DLState) := by
          unfold dlMeasure
          simp only [List.length_cons]
          omega
        have hMs : dlMeasure area (⟨nd, heur, current :: rest⟩ : DLState) ≤ fuel + 1 := hM
        omega
      obtain ⟨hq3, hJ3, hsub3, hmono3, hK3, hP3⟩ :=
        ih fuel (Nat.lt_succ_self fuel) _ hJ2 hMt
      rw [hstep]
      refine ⟨hq3, hJ3, Finset.Subset.trans hsub2 hsub3,
        fun p => le_trans (hmono3 p) (hmono2 p), ?_, ?_⟩
      · intro hK
        refine hK3 ?_
        intro c hc hcq
        have hcard : ((dirsList width).foldl (dlExpand walls area current
            (heur current + 1)) ⟨nd, heur, rest⟩).nd.card ≤ area := by
          have := Finset.card_le_card hJ2.1
          simpa using this
        by_cases hcs : c ∈ nd
        · by_cases hdec : ((dirsList width).foldl (dlExpand walls area current
              (heur current + 1)) ⟨nd, heur, rest⟩).heur c < heur c
          · exact absurd (hF82 c hdec) hcq
          · have hceq : ((dirsList width).foldl (dlExpand walls area current
                (heur current + 1)) ⟨nd, heur, rest⟩).heur c = heur c :=
              le_antisymm (hmono2 c) (not_lt.mp hdec)
            by_cases hcc : c = current
            · subst hcc
              intro d hd hw1 hw2
              obtain ⟨hmem, hle⟩ := hcov2 d hd hw1 hw2
              rw [hceq]
              exact ⟨hmem, hle⟩
            · have hcq0 : c ∉ (⟨nd, heur, current :: rest⟩ : DLState).queue := by
                intro hmem
                rcases List.mem_cons.mp hmem with h | h
                · exact hcc h
                · exact hcq (by rw [hq2]; exact List.mem_append.mpr (Or.inl h))
              have hclosed := hK c hcs hcq0
              intro d hd hw1 hw2
              obtain ⟨hmem, hle⟩ := hclosed d hd hw1 hw2
              refine ⟨hsub2 hmem, ?_⟩
              rw [hceq]
              exact le_trans (hmono2 _) hle
        · exfalso
          have harea : heur c = area := hinv.2.2.1 c hcs
          have hnew := hJ2.2.1 c hc
          refine hcq (hF82 c ?_)
          show ((dirsList width).foldl (dlExpand walls area current
              (heur current + 1)) ⟨nd, heur, rest⟩).heur c < heur c
          omega
      · intro P hstepP hP
        refine hP3 P hstepP ?_
        intro c hc
        rcases hF42 c hc with hcs | hrev
        · exact hP c hcs
        · exact hstepP current c (hP current hcur) hrev

lemma generate_deadlock_map_eq (ctx : Ctx) (walls goals : Finset ℕ) :
    generate_deadlock_map ctx walls goals =
      (List.range ctx.area).foldl (dlSeedStep ctx walls goals)
        ⟨∅, fun _ => ctx.area, []⟩ := rfl

lemma DLInv_heur_le {area : ℕ} {s : DLState} (hinv : DLInv area s) (p : ℕ) :
    s.heur p ≤ area := by
  by_cases hp : p ∈ s.nd
  · have h1 := hinv.2.1 p hp
    have h2 : s.nd.card ≤ area := by
      have := Finset.card_le_card hinv.1
      simpa using this
    omega
  · rw [hinv.2.2.1 p hp]

lemma revReachable_tail {walls goals : Finset ℕ} {area width : ℕ} {c n : ℕ}
    (h : RevReachable walls goals area width c)
    (hstep : revStep walls area width c n) :
    RevReachable walls goals area width n := by
  obtain ⟨g, hg, hpath⟩ := h
  exact ⟨g, hg, hpath.tail hstep⟩

lemma update_zero_le (h : ℕ → ℕ) (x q : ℕ) : Function.update h x 0 q ≤ h q := by
  by_cases hq : q = x
  · subst hq
    rw [Function.update_same]
    exact Nat.zero_le _
  · rw [Function.update_noteq hq]

lemma dlSeed_foldl_spec (ctx : Ctx) (walls goals : Finset ℕ) :
    ∀ (l : List ℕ) (s : DLState), (∀ p ∈ l, p < ctx.area) →
    DLInv ctx.area s →
    (∀ c ∈ s.nd, DLClosedAt walls ctx.area ctx.width s c) →
    (∀ c ∈ s.nd, RevReachable walls goals ctx.area ctx.width c) →
    DLInv ctx.area (l.foldl (dlSeedStep ctx walls goals) s) ∧
    (∀ c ∈ (l.foldl (dlSeedStep ctx walls goals) s).nd,
      DLClosedAt walls ctx.area ctx.width (l.foldl (dlSeedStep ctx walls goals) s) c) ∧
    (∀ c ∈ (l.foldl (dlSeedStep ctx walls goals) s).nd,
      RevReachable walls goals ctx.area ctx.width c) ∧
    s.nd ⊆ (l.foldl (dlSeedStep ctx walls goals) s).nd ∧
    (∀ p, (l.foldl (dlSeedStep ctx walls goals) s).heur p ≤ s.heur p) ∧
    (∀ g ∈ l, g ∈ goals → (l.foldl (dlSeedStep ctx walls goals) s).heur g = 0 ∧
      g ∈ (l.foldl (dlSeedStep ctx walls goals) s).nd) := by
  intro l
  induction l with
  | nil =>
    intro s hl hinv hclosed hsound
    simp only [List.foldl_nil]
    exact ⟨hinv, hclosed, hsound, Finset.Subset.refl _, fun p => le_refl _,
      fun g hg => absurd hg (List.not_mem_nil g)⟩
  | cons position l ihl =>
    intro s hl hinv hclosed hsound
    simp only [List.foldl_cons]
    by_cases hbit : bit goals position = true
    · have hpmem : position ∈ goals := by
        simpa [bit] using hbit
      have hplt : position < ctx.area := hl position (List.mem_cons_self _ _)
      have hstep1 : dlSeedStep ctx walls goals s position =
          dlLoop walls ctx.area ctx.width (dlFuel ctx.area)
            ⟨insert position s.nd, Function.update s.heur position 0, [position]⟩ := by
        unfold dlSeedStep
        rw [if_pos hbit]
      have hinv0 : DLInv ctx.area
          (⟨insert position s.nd, Function.update s.heur position 0,
            [position]⟩ : DLState) := by
        refine ⟨Finset.insert_subset (Finset.mem_range.mpr hplt) hinv.1, ?_, ?_, ?_⟩
        · intro c hc
          have hcard2 : s.nd.card ≤ (insert position s.nd).card :=
            Finset.card_le_card (Finset.subset_insert _ _)
          by_cases hceq : c = position
          · subst hceq
            show Function.update s.heur c 0 c + 1 ≤ (insert c s.nd).card
            rw [Function.update_same]
            have : 0 < (insert c s.nd).card := Finset.card_pos.mpr ⟨c, Finset.mem_insert_self _ _⟩
            omega
          · show Function.update s.heur position 0 c + 1 ≤ (insert position s.nd).card
            rw [Function.update_noteq hceq]
            have hcs : c ∈ s.nd := by
              rcases Finset.mem_insert.mp hc with h | h
              · exact absurd h hceq
              · exact h
            exact le_trans (hinv.2.1 c hcs) hcard2
        · intro c hc
          have hc1 : c ≠ position := fun hEq => hc (hEq ▸ Finset.mem_insert_self _ _)
          have hc2 : c ∉ s.nd := fun hmem => hc (Finset.mem_insert_of_mem hmem)
          show Function.update s.heur position 0 c = ctx.area
          rw [Function.update_noteq hc1]
          exact hinv.2.2.1 c hc2
        · intro c hc
          rw [List.mem_singleton.mp hc]
          exact Finset.mem_insert_self _ _
      have hfuel : dlMeasure ctx.area
          (⟨insert position s.nd, Function.update s.heur position 0,
            [position]⟩ : DLState) ≤ dlFuel ctx.area := by
        show (∑ p ∈ Finset.range ctx.area, Function.update s.heur position 0 p)
            + [position].length ≤ dlFuel ctx.area
        have hsum : (∑ p ∈ Finset.range ctx.area, Function.update s.heur position 0 p)
            ≤ ctx.area * ctx.area := by
          calc (∑ p ∈ Finset.range ctx.area, Function.update s.heur position 0 p)
              ≤ ∑ _p ∈ Finset.range ctx.area, ctx.area :=
                Finset.sum_le_sum (fun p _hp =>
                  le_trans (update_zero_le s.heur position p) (DLInv_heur_le hinv p))
            _ = ctx.area * ctx.area := by
                rw [Finset.sum_const, Finset.card_range, smul_eq_mul]
        simp only [List.length_singleton]
        unfold dlFuel
        omega
      obtain ⟨hq1, hJ1, hsub1, hmono1, hK1, hP1⟩ :=
        dlLoop_spec walls ctx.area ctx.width (dlFuel ctx.area)
          ⟨insert position s.nd, Function.update s.heur position 0, [position]⟩
          hinv0 hfuel
      have hclosed1 := hK1 (by
        intro c hc hcq
        have hcp : c ≠ position := by
          intro hEq
          exact hcq (hEq ▸ List.mem_singleton.mpr rfl)
        have hcs : c ∈ s.nd := by
          rcases Finset.mem_insert.mp hc with h | h
          · exact absurd h hcp
          · exact h
        intro d hd hw1 hw2
        obtain ⟨hmem, hle⟩ := hclosed c hcs d hd hw1 hw2
        refine ⟨Finset.mem_insert_of_mem hmem, ?_⟩
        show Function.update s.heur position 0 (move c d) ≤
          Function.update s.heur position 0 c + 1
        rw [Function.update_noteq hcp]
        exact le_trans (update_zero_le s.heur position (move c d)) hle)
      have hsound1 := hP1 (RevReachable walls goals ctx.area ctx.width)
        (fun c n hc hstep => revReachable_tail hc hstep)
        (by
          intro c hc
          rcases Finset.mem_insert.mp hc with h | h
          · exact h ▸ ⟨position, hpmem, Relation.ReflTransGen.refl⟩
          · exact hsound c h)
      have hz1 : (dlLoop walls ctx.area ctx.width (dlFuel ctx.area)
          ⟨insert position s.nd, Function.update s.heur position 0,
            [position]⟩).heur position = 0 := by
        have := hmono1 position
        have h0 : (⟨insert position s.nd, Function.update s.heur position 0,
            [position]⟩ : DLState).heur position = 0 :=
          Function.update_same _ _ _
        omega
      have hmem1 : position ∈ (dlLoop walls ctx.area ctx.width (dlFuel ctx.area)
          ⟨insert position s.nd, Function.update s.heur position 0,
            [position]⟩).nd :=
        hsub1 (Finset.mem_insert_self _ _)
      rw [hstep1]
      obtain ⟨hJ2, hC2, hS2, hsub2, hmono2, hzero2⟩ :=
        ihl (dlLoop walls ctx.area ctx.width (dlFuel ctx.area)
            ⟨insert position s.nd, Function.update s.heur position 0, [position]⟩)
          (fun p hp => hl p (List.mem_cons_of_mem _ hp)) hJ1 hclosed1 hsound1
      refine ⟨hJ2, hC2, hS2, ?_, ?_, ?_⟩
      · exact Finset.Subset.trans
          (Finset.Subset.trans (Finset.subset_insert _ _) hsub1) hsub2
      · intro p
        refine le_trans (hmono2 p) (le_trans (hmono1 p) ?_)
        exact update_zero_le s.heur position p
      · intro g hg hgoal
        rcases List.mem_cons.mp hg with hg | hg
        · subst hg
          refine ⟨?_, hsub2 hmem1⟩
          have := hmono2 g
          omega
        · exact hzero2 g hg hgoal
    · have hstep1 : dlSeedStep ctx walls goals s position = s := by
        unfold dlSeedStep
        rw [if_neg hbit]
      rw [hstep1]
      obtain ⟨hJ2, hC2, hS2, hsub2, hmono2, hzero2⟩ :=
        ihl s (fun p hp => hl p (List.mem_cons_of_mem _ hp)) hinv hclosed hsound
      refine ⟨hJ2, hC2, hS2, hsub2, hmono2, ?_⟩
      intro g hg hgoal
      rcases List.mem_cons.mp hg with hg | hg
      · subst hg
        exact absurd (by simpa [bit] using hgoal) hbit
      · exact hzero2 g hg hgoal

lemma generate_deadlock_map_spec (ctx : Ctx) (walls goals : Finset ℕ) :
    DLInv ctx.area (generate_deadlock_map ctx walls goals) ∧
    (∀ c ∈ (generate_deadlock_map ctx walls goals).nd,
      DLClosedAt walls ctx.area ctx.width (generate_deadlock_map ctx walls goals) c) ∧
    (∀ c ∈ (generate_deadlock_map ctx walls goals).nd,
      RevReachable walls goals ctx.area ctx.width c) ∧
    (∀ g ∈ goals, g < ctx.area →
      (generate_deadlock_map ctx walls goals).heur g = 0 ∧
      g ∈ (generate_deadlock_map ctx walls goals).nd) := by
  have h := dlSeed_foldl_spec ctx walls goals (List.range ctx.area)
    ⟨∅, fun _ => ctx.area, []⟩ (fun p hp => List.mem_range.mp hp)
    ⟨Finset.empty_subset _, fun c hc => absurd hc (Finset.not_mem_empty c),
      fun c _ => rfl, fun c hc => absurd hc (List.not_mem_nil c)⟩
    (fun c hc => absurd hc (Finset.not_mem_empty c))
    (fun c hc => absurd hc (Finset.not_mem_empty c))
  rw [generate_deadlock_map_eq]
  obtain ⟨h1, h2, h3, _, _, h6⟩ := h
  exact ⟨h1, h2, h3, fun g hg hlt => h6 g (List.mem_range.mpr hlt) hg⟩

lemma revReachable_mem_nd (ctx : Ctx) (walls goals : Finset ℕ)
    (hgoals : ∀ g ∈ goals, g < ctx.area) (p : ℕ)
    (h : RevReachable walls goals ctx.area ctx.width p) :
    p ∈ (generate_deadlock_map ctx walls goals).nd := by
  obtain ⟨g, hg, hpath⟩ := h
  obtain ⟨_, hclosed, _, hseed⟩ := generate_deadlock_map_spec ctx walls goals
  induction hpath with
  | refl => exact (hseed g hg (hgoals g hg)).2
  | tail hab hbc ih =>
    obtain ⟨d, hd, hc, hw1, hw2⟩ := hbc
    have hcl := hclosed _ ih d hd (hc ▸ hw1) (hc ▸ hw2)
    rw [hc]
    exact hcl.1

lemma neg_mem_dirsList {width : ℕ} {d : ℤ} (hd : d ∈ dirsList width) :
    -d ∈ dirsList width := by
  simp only [dirsList, List.mem_cons, List.not_mem_nil, or_false] at hd ⊢
  rcases hd with h | h | h | h <;> omega

lemma pushStep_revStep {walls : Finset ℕ} {area width : ℕ} {x y : ℕ}
    (h : pushStep walls area width x y) : revStep walls area width y x := by
  obtain ⟨d, hd, hy, hwx, hwy, pc, hpc, hwpc⟩ := h
  refine ⟨-d, neg_mem_dirsList hd, ?_, hwx, ?_⟩
  · show x = ((y : ℤ) + -d).toNat
    omega
  · have hmv : move x (-d) = pc := by
      show ((x : ℤ) + -d).toNat = pc
      omega
    show wallAt walls area (move x (-d)) = false
    rw [hmv]
    exact hwpc

lemma pushesTo_heur (ctx : Ctx) (walls goals : Finset ℕ) {x z k : ℕ}
    (h : PushesTo walls ctx.area ctx.width x z k) :
    (generate_deadlock_map ctx walls goals).heur x ≤
      (generate_deadlock_map ctx walls goals).heur z + k := by
  induction h with
  | refl x => omega
  | @step x y z k hpush hrest ih =>
    obtain ⟨hinv, hclosed, _, _⟩ := generate_deadlock_map_spec ctx walls goals
    have hrev := pushStep_revStep hpush
    by_cases hy : y ∈ (generate_deadlock_map ctx walls goals).nd
    · obtain ⟨d, hd, hx, hw1, hw2⟩ := hrev
      have hcl := hclosed y hy d hd (hx ▸ hw1) (hx ▸ hw2)
      have hle := hcl.2
      rw [← hx] at hle
      omega
    · have harea := hinv.2.2.1 y hy
      have hxle := DLInv_heur_le hinv x
      omega

/-- **C5.** On any problem with at least one goal (all goals lying on the
grid), `generate_deadlock_map` leaves every cell `p` with
`heuristics[p] ≤ area`; `heuristics[p] = area` holds exactly when no goal
reaches `p` by the reverse-push expansion; whenever the deadlock bit of
`p` is still set (`p` was never cleared into `nd`), no reverse-push
sequence from any goal reaches `p`; and `heuristics[p]` is an admissible
lower bound: it is at most the length of any push sequence bringing a
lone crate from `p` to a goal (walls blocking, other crates ignored). -/
theorem claim_C5 (ctx : Ctx) (walls goals : Finset ℕ)
    (_hne : goals.Nonempty) (hgoals : ∀ g ∈ goals, g < ctx.area) :
    (∀ p, (generate_deadlock_map ctx walls goals).heur p ≤ ctx.area) ∧
    (∀ p, (generate_deadlock_map ctx walls goals).heur p = ctx.area ↔
      ¬ RevReachable walls goals ctx.area ctx.width p) ∧
    (∀ p, p ∉ (generate_deadlock_map ctx walls goals).nd →
      ¬ RevReachable walls goals ctx.area ctx.width p) ∧
    (∀ p g k, g ∈ goals → PushesTo walls ctx.area ctx.width p g k →
      (generate_deadlock_map ctx walls goals).heur p ≤ k) := by
  obtain ⟨hinv, hclosed, hsound, hseed⟩ := generate_deadlock_map_spec ctx walls goals
  have hcard : (generate_deadlock_map ctx walls goals).nd.card ≤ ctx.area := by
    have := Finset.card_le_card hinv.1
    simpa using this
  refine ⟨fun p => DLInv_heur_le hinv p, ?_, ?_, ?_⟩
  · intro p
    constructor
    · intro heq hr
      have hmem := revReachable_mem_nd ctx walls goals hgoals p hr
      have := hinv.2.1 p hmem
      omega
    · intro hnr
      by_contra hne2
      have hmem : p ∈ (generate_deadlock_map ctx walls goals).nd := by
        by_contra hnm
        exact hne2 (hinv.2.2.1 p hnm)
      exact hnr (hsound p hmem)
  · intro p hnd hr
    exact hnd (revReachable_mem_nd ctx walls goals hgoals p hr)
  · intro p g k hg hpush
    have h1 := pushesTo_heur ctx walls goals hpush
    have h2 := (hseed g hg (hgoals g hg)).1
    omega

/-- Witness for C5: instantiated on the 3×1 interior (5×3 padded grid)
with no extra walls and the single goal cell 0. -/
theorem claim_C5_witness :
    ({0} : Finset ℕ).Nonempty ∧ (∀ g ∈ ({0} : Finset ℕ), g < ctx31.area) ∧
    ((∀ p, (generate_deadlock_map ctx31 ∅ {0}).heur p ≤ ctx31.area) ∧
     (∀ p, (generate_deadlock_map ctx31 ∅ {0}).heur p = ctx31.area ↔
       ¬ RevReachable ∅ {0} ctx31.area ctx31.width p) ∧
     (∀ p, p ∉ (generate_deadlock_map ctx31 ∅ {0}).nd →
       ¬ RevReachable ∅ {0} ctx31.area ctx31.width p) ∧
     (∀ p g k, g ∈ ({0} : Finset ℕ) → PushesTo ∅ ctx31.area ctx31.width p g k →
       (generate_deadlock_map ctx31 ∅ {0}).heur p ≤ k)) :=
  ⟨Finset.singleton_nonempty 0, by decide,
    claim_C5 ctx31 ∅ {0} (Finset.singleton_nonempty 0) (by decide)⟩

/-! ## Solution validity (claim C1) -/

lemma replayStep_move_walk (walls : Finset ℕ) (area width : ℕ) (index : ℕ)
    (hidx : index < 4) (pp : ℕ) (pc : Finset ℕ)
    (hb : bit pc (move pp ((dirsList width).getD index 0)) = false)
    (hw : wallAt walls area (move pp ((dirsList width).getD index 0)) = false) :
    replayStep walls area width (pp, pc) (actionChars.getD index 'l')
      = some (move pp ((dirsList width).getD index 0), pc) := by
  interval_cases index
  · have hv : (dirsList width).getD 0 0 = -1 := rfl
    have hd : dirOfAction width 'l' = -1 := rfl
    rw [hv] at hb hw ⊢
    rw [show actionChars.getD 0 'l' = 'l' from rfl]
    have hmem : move pp (-1) ∉ pc := by simpa [bit] using hb
    simp only [replayStep, hd]
    rw [if_neg (by simp [hw]), if_neg hmem]
  · have hv : (dirsList width).getD 1 0 = 1 := rfl
    have hd : dirOfAction width 'r' = 1 := rfl
    rw [hv] at hb hw ⊢
    rw [show actionChars.getD 1 'l' = 'r' from rfl]
    have hmem : move pp 1 ∉ pc := by simpa [bit] using hb
    simp only [replayStep, hd]
    rw [if_neg (by simp [hw]), if_neg hmem]
  · have hv : (dirsList width).getD 2 0 = (width : ℤ) := rfl
    have hd : dirOfAction width 'd' = (width : ℤ) := rfl
    rw [hv] at hb hw ⊢
    rw [show actionChars.getD 2 'l' = 'd' from rfl]
    have hmem : move pp ((width : ℤ)) ∉ pc := by simpa [bit] using hb
    simp only [replayStep, hd]
    rw [if_neg (by simp [hw]), if_neg hmem]
  · have hv : (dirsList width).getD 3 0 = -(width : ℤ) := rfl
    have hd : dirOfAction width 'u' = -(width : ℤ) := rfl
    rw [hv] at hb hw ⊢
    rw [show actionChars.getD 3 'l' = 'u' from rfl]
    have hmem : move pp (-(width : ℤ)) ∉ pc := by simpa [bit] using hb
    simp only [replayStep, hd]
    rw [if_neg (by simp [hw]), if_neg hmem]

lemma replayStep_move_push (walls : Finset ℕ) (area width : ℕ) (index : ℕ)
    (hidx : index < 4) (pp : ℕ) (pc : Finset ℕ)
    (hb : bit pc (move pp ((dirsList width).getD index 0)) = true)
    (hw : wallAt walls area (move pp ((dirsList width).getD index 0)) = false)
    (hw2 : wallAt walls area (move (move pp ((dirsList width).getD index 0))
      ((dirsList width).getD index 0)) = false)
    (hq : move (move pp ((dirsList width).getD index 0)) ((dirsList width).getD index 0) ∉ pc) :
    replayStep walls area width (pp, pc) (actionChars.getD (index + 4) 'l')
      = some (move pp ((dirsList width).getD index 0),
          insert (move (move pp ((dirsList width).getD index 0)) ((dirsList width).getD index 0))
            (pc.erase (move pp ((dirsList width).getD index 0)))) := by
  interval_cases index
  · have hv : (dirsList width).getD 0 0 = -1 := rfl
    have hd : dirOfAction width 'L' = -1 := rfl
    rw [hv] at hb hw hw2 hq ⊢
    rw [show actionChars.getD (0 + 4) 'l' = 'L' from rfl]
    have hmem : move pp (-1) ∈ pc := by simpa [bit] using hb
    simp only [replayStep, hd]
    rw [if_neg (by simp [hw]), if_pos hmem, if_neg (by decide),
      if_neg (by simp [hw2, hq])]
  · have hv : (dirsList width).getD 1 0 = 1 := rfl
    have hd : dirOfAction width 'R' = 1 := rfl
    rw [hv] at hb hw hw2 hq ⊢
    rw [show actionChars.getD (1 + 4) 'l' = 'R' from rfl]
    have hmem : move pp 1 ∈ pc := by simpa [bit] using hb
    simp only [replayStep, hd]
    rw [if_neg (by simp [hw]), if_pos hmem, if_neg (by decide),
      if_neg (by simp [hw2, hq])]
  · have hv : (dirsList width).getD 2 0 = (width : ℤ) := rfl
    have hd : dirOfAction width 'D' = (width : ℤ) := rfl
    rw [hv] at hb hw hw2 hq ⊢
    rw [show actionChars.getD (2 + 4) 'l' = 'D' from rfl]
    have hmem : move pp ((width : ℤ)) ∈ pc := by simpa [bit] using hb
    simp only [replayStep, hd]
    rw [if_neg (by simp [hw]), if_pos hmem, if_neg (by decide),
      if_neg (by simp [hw2, hq])]
  · have hv : (dirsList width).getD 3 0 = -(width : ℤ) := rfl
    have hd : dirOfAction width 'U' = -(width : ℤ) := rfl
    rw [hv] at hb hw hw2 hq ⊢
    rw [show actionChars.getD (3 + 4) 'l' = 'U' from rfl]
    have hmem : move pp (-(width : ℤ)) ∈ pc := by simpa [bit] using hb
    simp only [replayStep, hd]
    rw [if_neg (by simp [hw]), if_pos hmem, if_neg (by decide),
      if_neg (by simp [hw2, hq])]

lemma backtrack_replay (pr : Problem) (area width : ℕ) (arena : Array SState)
    (hinv : ChainInv pr area width arena) :
    ∀ n i, i < arena.size → (arena.getD i default).cost = n →
    ∀ (acc : List Char) (res : Option (ℕ × Finset ℕ)),
      replay pr.walls area width
        ((arena.getD i default).player, (arena.getD i default).crates) acc = res →
      replay pr.walls area width (pr.player, pr.crates)
        (backtrack arena n (some i) acc) = res := by
  intro n
  induction n with
  | zero =>
    intro i hi hc acc res hrep
    rcases hpar : (arena.getD i default).parent with _ | j
    · obtain ⟨hp, hcr, _⟩ := (hinv i hi).1 hpar
      rw [hp, hcr] at hrep
      exact hrep
    · obtain ⟨_, hcost, _⟩ := (hinv i hi).2 j hpar
      omega
  | succ n ihn =>
    intro i hi hc acc res hrep
    rcases hpar : (arena.getD i default).parent with _ | j
    · obtain ⟨_, _, hc0⟩ := (hinv i hi).1 hpar
      omega
    · obtain ⟨hj, hcost, hstep⟩ := (hinv i hi).2 j hpar
      have hbt : backtrack arena (n + 1) (some i) acc =
          backtrack arena n (arena.getD i default).parent
            ((arena.getD i default).action :: acc) := rfl
      rw [hbt, hpar]
      refine ihn j hj (by omega) _ res ?_
      show List.foldlM (replayStep pr.walls area width) _ (_ :: acc) = res
      rw [List.foldlM_cons, hstep]
      exact hrep

lemma arr_getD_push_lt (a : Array SState) (x : SState) (i : ℕ) (h : i < a.size) :
    (a.push x).getD i default = a.getD i default := by
  unfold Array.getD
  rw [dif_pos (show i < (a.push x).size by rw [Array.size_push]; omega), dif_pos h]
  exact Array.getElem_push_lt a x i h

lemma arr_getD_push_eq (a : Array SState) (x : SState) :
    (a.push x).getD a.size default = x := by
  unfold Array.getD
  rw [dif_pos (show a.size < (a.push x).size by rw [Array.size_push]; omega)]
  exact Array.getElem_push_eq a x

lemma replay_singleton (walls : Finset ℕ) (area width : ℕ) (st0 : ℕ × Finset ℕ) (a : Char) :
    replay walls area width st0 [a] = replayStep walls area width st0 a := by
  show List.foldlM _ st0 [a] = _
  rcases h : replayStep walls area width st0 a with _ | v <;>
    simp [List.foldlM, h]

lemma bfsChild_spec (pr : Problem) (width area stateCount parentIdx : ℕ)
    (parent : SState) (st : BfsSt) (index : ℕ)
    (hidx : index < 4) (hinv : ChainInv pr area width st.arena)
    (hpi : parentIdx < st.arena.size)
    (hsnap : st.arena.getD parentIdx default = parent) :
    match bfsChild pr width area stateCount parentIdx parent (parent.cost + 1) st index with
    | .error (res, _) => res.solved = true → ∃ acts, res.actions = some acts ∧
        validSolution pr area width acts
    | .ok st2 => ChainInv pr area width st2.arena ∧ st.arena.size ≤ st2.arena.size ∧
        (∀ i, i < st.arena.size → st2.arena.getD i default = st.arena.getD i default) ∧
        st2.current = st.current := by
  simp only [bfsChild]
  set D := (dirsList width).getD index 0 with hD
  set P := move parent.player D with hP
  set B := bit parent.crates P with hB
  set NX := move P D with hNX
  by_cases h1 : wallAt pr.walls area P = true
  · rw [if_pos h1]
    exact ⟨hinv, le_refl _, fun i _ => rfl, rfl⟩
  rw [if_neg h1]
  have hw1 : wallAt pr.walls area P = false := by simpa using h1
  by_cases h2 : (B && (wallAt pr.walls area NX || bit parent.crates NX || !bit pr.nd NX)) = true
  · rw [if_pos h2]
    exact ⟨hinv, le_refl _, fun i _ => rfl, rfl⟩
  rw [if_neg h2]
  by_cases h3 : (B && check_single_2x2_deadlock pr.walls pr.goals area width parent.crates NX D) = true
  · rw [if_pos h3]
    exact ⟨hinv, le_refl _, fun i _ => rfl, rfl⟩
  rw [if_neg h3]
  set A := actionChars.getD (if B = true then index + 4 else index) 'l' with hA
  set C := if B = true then insert NX (parent.crates.erase P) else parent.crates with hC
  have hstep : replayStep pr.walls area width (parent.player, parent.crates) A
      = some (P, C) := by
    by_cases hBt : B = true
    · simp only [hBt, if_true] at h2
      have h2f : (wallAt pr.walls area NX || bit parent.crates NX || !bit pr.nd NX) = false := by
        simpa using h2
      simp only [Bool.or_eq_false_iff] at h2f
      obtain ⟨⟨hw2, hbn⟩, _⟩ := h2f
      rw [hA, if_pos hBt, hC, if_pos hBt, hNX, hP, hD]
      rw [hB, hP, hD] at hBt
      rw [hP, hD] at hw1
      rw [hNX, hP, hD] at hw2 hbn
      exact replayStep_move_push pr.walls area width index hidx parent.player
        parent.crates hBt hw1 hw2 (by simpa [bit] using hbn)
    · have hBf : B = false := by simpa using hBt
      rw [hA, if_neg hBt, hC, if_neg hBt, hP, hD]
      rw [hB, hP, hD] at hBf
      rw [hP, hD] at hw1
      exact replayStep_move_walk pr.walls area width index hidx parent.player
        parent.crates hBf hw1
  by_cases h4 : (B && decide (C = pr.goals)) = true
  · rw [if_pos h4]
    intro _
    refine ⟨buildSolution st.arena parentIdx A (parent.cost + 1), rfl, ?_⟩
    have h4' := h4
    simp only [Bool.and_eq_true, decide_eq_true_eq] at h4'
    have hCg : C = pr.goals := h4'.2
    refine ⟨(P, C), ?_, hCg⟩
    have hbs : buildSolution st.arena parentIdx A (parent.cost + 1)
        = backtrack st.arena parent.cost (some parentIdx) [A] := by
      unfold buildSolution
      simp
    rw [hbs]
    refine backtrack_replay pr area width st.arena hinv parent.cost parentIdx hpi
      (by rw [hsnap]) [A] (some (P, C)) ?_
    rw [hsnap, replay_singleton]
    exact hstep
  rw [if_neg h4]
  by_cases h5 : decide ((P, C) ∈ st.visited) = true
  · rw [if_pos h5]
    exact ⟨hinv, le_refl _, fun i _ => rfl, rfl⟩
  rw [if_neg h5]
  by_cases h6 : decide ((st.arena.push
      ⟨some parentIdx, A, P, C, parent.cost + 1, 0, 0, 0⟩).size = stateCount) = true
  · rw [if_pos h6]
    intro h
    exact nomatch h
  rw [if_neg h6]
  refine ⟨?_, by rw [Array.size_push]; omega, fun i hi => arr_getD_push_lt _ _ _ hi, rfl⟩
  intro i hi
  have hi' : i < st.arena.size + 1 := by simpa [Array.size_push] using hi
  by_cases hilt : i < st.arena.size
  · rw [arr_getD_push_lt _ _ _ hilt]
    refine ⟨(hinv i hilt).1, ?_⟩
    intro j hpar
    obtain ⟨hj, hcost, hrs⟩ := (hinv i hilt).2 j hpar
    rw [arr_getD_push_lt _ _ _ hj]
    exact ⟨by rw [Array.size_push]; omega, hcost, hrs⟩
  · have hieq : i = st.arena.size := by omega
    subst hieq
    rw [arr_getD_push_eq]
    constructor
    · intro h
      exact nomatch h
    · intro j hpar
      have hj : j = parentIdx := by
        injection hpar with hpar2
        exact hpar2.symm
      subst hj
      rw [arr_getD_push_lt _ _ _ hpi, hsnap]
      exact ⟨by rw [Array.size_push]; omega, rfl, hstep⟩


lemma bfsChild_foldlM_spec (pr : Problem) (width area stateCount parentIdx : ℕ)
    (parent : SState) :
    ∀ (idxs : List ℕ) (st : BfsSt), (∀ x ∈ idxs, x < 4) →
    ChainInv pr area width st.arena →
    parentIdx < st.arena.size →
    st.arena.getD parentIdx default = parent →
    (∀ st2, List.foldlM (bfsChild pr width area stateCount parentIdx parent
        (parent.cost + 1)) st idxs = .ok st2 →
      ChainInv pr area width st2.arena ∧ st.arena.size ≤ st2.arena.size ∧
      st2.current = st.current) ∧
    (∀ res b, List.foldlM (bfsChild pr width area stateCount parentIdx parent
        (parent.cost + 1)) st idxs = .error (res, b) →
      res.solved = true → ∃ acts, res.actions = some acts ∧
        validSolution pr area width acts) := by
  intro idxs
  induction idxs with
  | nil =>
    intro st _ hinv _ _
    constructor
    · intro st2 h
      injection h with h2
      subst h2
      exact ⟨hinv, le_refl _, rfl⟩
    · intro res b h
      cases h
  | cons x xs ih =>
    intro st hxs hinv hpi hsnap
    constructor
    · intro st2 h
      rw [List.foldlM_cons] at h
      cases hc : bfsChild pr width area stateCount parentIdx parent (parent.cost + 1) st x with
      | error e =>
        rw [hc] at h
        cases h
      | ok st1 =>
        rw [hc] at h
        have hspec := bfsChild_spec pr width area stateCount parentIdx parent st x
          (hxs x (List.mem_cons_self _ _)) hinv hpi hsnap
        rw [hc] at hspec
        obtain ⟨hinv1, hsz1, hstab1, hcur1⟩ := hspec
        have hrest := (ih st1 (fun y hy => hxs y (List.mem_cons_of_mem _ hy)) hinv1
          (lt_of_lt_of_le hpi hsz1) (by rw [hstab1 parentIdx hpi]; exact hsnap)).1 st2 h
        exact ⟨hrest.1, le_trans hsz1 hrest.2.1, hrest.2.2.trans hcur1⟩
    · intro res b h
      rw [List.foldlM_cons] at h
      cases hc : bfsChild pr width area stateCount parentIdx parent (parent.cost + 1) st x with
      | error e =>
        rw [hc] at h
        have hspec := bfsChild_spec pr width area stateCount parentIdx parent st x
          (hxs x (List.mem_cons_self _ _)) hinv hpi hsnap
        rw [hc] at hspec
        injection h with h2
        rw [h2] at hspec
        exact hspec
      | ok st1 =>
        rw [hc] at h
        have hspec := bfsChild_spec pr width area stateCount parentIdx parent st x
          (hxs x (List.mem_cons_self _ _)) hinv hpi hsnap
        rw [hc] at hspec
        obtain ⟨hinv1, hsz1, hstab1, hcur1⟩ := hspec
        exact (ih st1 (fun y hy => hxs y (List.mem_cons_of_mem _ hy)) hinv1
          (lt_of_lt_of_le hpi hsz1) (by rw [hstab1 parentIdx hpi]; exact hsnap)).2 res b h


lemma bfsLoop_valid (pr : Problem) (width area stateCount maxIterations : ℕ) :
    ∀ (fuel : ℕ) (st : BfsSt), ChainInv pr area width st.arena →
    st.current ≤ st.arena.size →
    ∀ res b, bfsLoop pr width area stateCount maxIterations fuel st = some (res, b) →
    res.solved = true →
    ∃ acts, res.actions = some acts ∧ validSolution pr area width acts := by
  intro fuel
  induction fuel with
  | zero =>
    intro st _ _ res b h
    cases h
  | succ fuel ihf =>
    intro st hinv hcur res b h
    simp only [bfsLoop] at h
    by_cases hc1 : st.current = st.arena.size
    · rw [if_pos hc1] at h
      injection h with h2
      obtain ⟨h3, h4⟩ := Prod.mk.inj h2
      intro hsolved
      rw [← h3] at hsolved
      exact nomatch hsolved
    rw [if_neg hc1] at h
    by_cases hc2 : 0 < maxIterations ∧ maxIterations ≤ st.iterations
    · rw [if_pos hc2] at h
      injection h with h2
      obtain ⟨h3, h4⟩ := Prod.mk.inj h2
      intro hsolved
      rw [← h3] at hsolved
      exact nomatch hsolved
    rw [if_neg hc2] at h
    have hcur_lt : st.current < st.arena.size := lt_of_le_of_ne hcur hc1
    have hfold := bfsChild_foldlM_spec pr width area stateCount st.current
      (st.arena.getD st.current default) [0, 1, 2, 3]
      ({ st with current := st.current + 1, iterations := st.iterations + 1 } : BfsSt)
      (by decide) hinv hcur_lt rfl
    cases hF : List.foldlM (bfsChild pr width area stateCount st.current
        (st.arena.getD st.current default)
        ((st.arena.getD st.current default).cost + 1))
        ({ st with current := st.current + 1, iterations := st.iterations + 1 } : BfsSt)
        [0, 1, 2, 3] with
    | error e =>
      rw [hF] at h
      injection h with h2
      obtain ⟨res2, b2⟩ := e
      obtain ⟨h3, h4⟩ := Prod.mk.inj h2
      rw [h3, h4] at hF
      exact hfold.2 res b hF
    | ok st2 =>
      rw [hF] at h
      obtain ⟨hinv2, hsz2, hcur2⟩ := hfold.1 st2 hF
      refine ihf st2 hinv2 ?_ res b h
      have hsz2b : st.arena.size ≤ st2.arena.size := hsz2
      have hcur2b : st2.current = st.current + 1 := hcur2
      omega

lemma solve_bfs_valid (ctx : Ctx) (pr : Problem) (stateCount maxIterations fuel : ℕ)
    (res : Result)
    (hrun : solve_bfs ctx pr stateCount maxIterations fuel = some res)
    (hsolved : res.solved = true) :
    ∃ acts, res.actions = some acts ∧ validSolution pr ctx.area ctx.width acts := by
  unfold solve_bfs at hrun
  cases hr : solve_bfs_run ctx pr stateCount maxIterations fuel with
  | none =>
    rw [hr] at hrun
    cases hrun
  | some rb =>
    rw [hr] at hrun
    obtain ⟨res2, b2⟩ := rb
    injection hrun with h2
    rw [← h2] at hsolved ⊢
    unfold solve_bfs_run at hr
    by_cases hps : (!pr.potentiallySolvable) = true
    · rw [if_pos hps] at hr
      injection hr with h3
      obtain ⟨h4, h5⟩ := Prod.mk.inj h3
      rw [← h4] at hsolved
      exact nomatch hsolved
    · rw [if_neg hps] at hr
      refine bfsLoop_valid pr ctx.width ctx.area stateCount maxIterations fuel
        _ ?_ ?_ res2 b2 hr hsolved
      · intro i hi
        have hi1 : i = 0 := by
          have : i < 1 := by simpa using hi
          omega
        subst hi1
        constructor
        · intro _
          exact ⟨rfl, rfl, rfl⟩
        · intro j hj
          exact nomatch hj
      · show 0 ≤ _
        exact Nat.zero_le _


lemma setHeapIndex_size (a : Array SState) (i : ℕ) (v : ℤ) :
    (setHeapIndex a i v).size = a.size := by
  unfold setHeapIndex
  exact Array.size_modify _ _ _

lemma setHeapIndex_getD_ne (a : Array SState) (i : ℕ) (v : ℤ) (j : ℕ) (h : j ≠ i) :
    (setHeapIndex a i v).getD j default = a.getD j default := by
  unfold setHeapIndex
  rw [Array.getD_eq_get?, Array.getD_eq_get?, Array.getElem?_modify,
    if_neg (fun hEq => h hEq.symm)]

lemma setHeapIndex_getD_self (a : Array SState) (i : ℕ) (v : ℤ) (h : i < a.size) :
    (setHeapIndex a i v).getD i default = { a.getD i default with heapIndex := v } := by
  unfold setHeapIndex
  rw [Array.getD_eq_get?, Array.getD_eq_get?, Array.getElem?_modify, if_pos rfl,
    Array.getElem?_eq_getElem h]
  rfl

lemma coreEq_refl (a : Array SState) : CoreEq a a :=
  ⟨rfl, fun _ => ⟨rfl, rfl, rfl, rfl, rfl⟩⟩

lemma coreEq_trans {a b c : Array SState} (h1 : CoreEq a b) (h2 : CoreEq b c) :
    CoreEq a c := by
  refine ⟨h1.1.trans h2.1, fun i => ?_⟩
  obtain ⟨x1, x2, x3, x4, x5⟩ := h1.2 i
  obtain ⟨y1, y2, y3, y4, y5⟩ := h2.2 i
  exact ⟨x1.trans y1, x2.trans y2, x3.trans y3, x4.trans y4, x5.trans y5⟩

lemma coreEq_setHeapIndex (a : Array SState) (i : ℕ) (v : ℤ) :
    CoreEq (setHeapIndex a i v) a := by
  refine ⟨setHeapIndex_size a i v, ?_⟩
  intro j
  by_cases hj : j = i
  · subst hj
    by_cases hlt : j < a.size
    · rw [setHeapIndex_getD_self a j v hlt]
      exact ⟨rfl, rfl, rfl, rfl, rfl⟩
    · have h1 : (setHeapIndex a j v).getD j default = default := by
        unfold Array.getD
        rw [dif_neg (by rw [setHeapIndex_size]; exact hlt)]
      have h2 : a.getD j default = default := by
        unfold Array.getD
        rw [dif_neg hlt]
      rw [h1, h2]
      exact ⟨rfl, rfl, rfl, rfl, rfl⟩
  · rw [setHeapIndex_getD_ne a i v j hj]
    exact ⟨rfl, rfl, rfl, rfl, rfl⟩

lemma chainInv_coreEq (pr : Problem) (area width : ℕ) {a b : Array SState}
    (hc : CoreEq b a) (h : ChainInv pr area width a) : ChainInv pr area width b := by
  intro i hi
  have hi2 : i < a.size := by rw [← hc.1]; exact hi
  obtain ⟨hroot, hpar⟩ := h i hi2
  obtain ⟨hp, hact, hpl, hcr, hco⟩ := hc.2 i
  constructor
  · intro hn
    rw [hp] at hn
    obtain ⟨h1, h2, h3⟩ := hroot hn
    exact ⟨by rw [hpl, h1], by rw [hcr, h2], by rw [hco, h3]⟩
  · intro j hj
    rw [hp] at hj
    obtain ⟨h1, h2, h3⟩ := hpar j hj
    obtain ⟨_, _, hpl2, hcr2, hco2⟩ := hc.2 j
    refine ⟨by rw [hc.1]; exact h1, by rw [hco, hco2]; exact h2, ?_⟩
    rw [hact, hpl, hcr, hpl2, hcr2]
    exact h3

lemma visitedWF_coreEq {a b : Array SState} {v : List (Key × ℕ)}
    (hc : CoreEq b a) (h : VisitedWF a v) : VisitedWF b v := by
  intro e he
  obtain ⟨h1, h2, h3⟩ := h e he
  obtain ⟨_, _, hpl, hcr, _⟩ := hc.2 e.2
  exact ⟨by rw [hc.1]; exact h1, by rw [hpl]; exact h2, by rw [hcr]; exact h3⟩

lemma lookup_mem : ∀ {l : List (Key × ℕ)} {k : Key} {v : ℕ},
    List.lookup k l = some v → (k, v) ∈ l := by
  intro l
  induction l with
  | nil => intro k v h; cases h
  | cons e es ih =>
    intro k v h
    obtain ⟨a, b⟩ := e
    by_cases hk : (k == a) = true
    · simp only [List.lookup, hk, cond_true] at h
      injection h with h2
      subst h2
      have hka : k = a := eq_of_beq hk
      subst hka
      exact List.mem_cons_self _ _
    · have hkf : (k == a) = false := by simpa using hk
      simp only [List.lookup, hkf, cond_false] at h
      exact List.mem_cons_of_mem _ (ih h)

lemma getD_mem_list {l : List ℕ} {j : ℕ} (h : j < l.length) : l.getD j 0 ∈ l := by
  rw [List.getD_eq_getElem l 0 h]
  exact List.getElem_mem h

lemma mem_slot {l : List ℕ} {i : ℕ} (h : i ∈ l) :
    ∃ j, j < l.length ∧ l.getD j 0 = i := by
  obtain ⟨j, hj, he⟩ := List.mem_iff_getElem.mp h
  exact ⟨j, hj, by rw [List.getD_eq_getElem l 0 hj]; exact he⟩


lemma heapify_bottomup_wf :
    ∀ (fuel : ℕ) (arena : Array SState) (heap : List ℕ) (node : ℕ),
      HeapWF arena heap → node < heap.length →
      HeapWF (heapify_bottomup fuel (arena, heap) node).1
        (heapify_bottomup fuel (arena, heap) node).2 ∧
      (heapify_bottomup fuel (arena, heap) node).2.length = heap.length ∧
      CoreEq (heapify_bottomup fuel (arena, heap) node).1 arena ∧
      (∀ i, i ∈ (heapify_bottomup fuel (arena, heap) node).2 ↔ i ∈ heap) ∧
      (∀ i, i ∉ heap →
        ((heapify_bottomup fuel (arena, heap) node).1.getD i default).heapIndex
          = (arena.getD i default).heapIndex) := by
  intro fuel
  induction fuel with
  | zero =>
    intro arena heap node hW hn
    exact ⟨hW, rfl, coreEq_refl _, fun i => Iff.rfl, fun i _ => rfl⟩
  | succ fuel ih =>
    intro arena heap node hW hn
    by_cases hn0 : node = 0
    · subst hn0
      rw [show heapify_bottomup (fuel + 1) (arena, heap) 0 = (arena, heap) by
        simp [heapify_bottomup]]
      exact ⟨hW, rfl, coreEq_refl _, fun i => Iff.rfl, fun i _ => rfl⟩
    · have hparlt : node / 2 < node := Nat.div_lt_self (by omega) (by omega)
      have hp_lt : node / 2 < heap.length := lt_trans hparlt hn
      obtain ⟨hniSz, hniIdx⟩ := hW node hn
      obtain ⟨hpiSz, hpiIdx⟩ := hW (node / 2) hp_lt
      have hnipi : heap.getD node 0 ≠ heap.getD (node / 2) 0 := by
        intro hEq
        rw [hEq, hpiIdx] at hniIdx
        have : node = node / 2 := by exact_mod_cast hniIdx.symm
        omega
      by_cases hswap : prioOf arena (heap.getD node 0) <
          prioOf arena (heap.getD (node / 2) 0)
      · have hstep : heapify_bottomup (fuel + 1) (arena, heap) node =
            heapify_bottomup fuel
              (setHeapIndex (setHeapIndex arena (heap.getD node 0) ((node / 2 : ℕ) : ℤ))
                  (heap.getD (node / 2) 0) ((node : ℕ) : ℤ),
                (heap.set (node / 2) (heap.getD node 0)).set node
                  (heap.getD (node / 2) 0)) (node / 2) := by
          simp only [heapify_bottomup]
          rw [if_neg hn0, if_pos hswap]
        rw [hstep]
        set ni := heap.getD node 0 with hni_def
        set pi := heap.getD (node / 2) 0 with hpi_def
        set arena2 := setHeapIndex (setHeapIndex arena ni ((node / 2 : ℕ) : ℤ))
          pi ((node : ℕ) : ℤ) with harena2
        set heap2 := (heap.set (node / 2) ni).set node pi with hheap2
        have hlen2 : heap2.length = heap.length := by
          rw [hheap2]
          simp
        have hsz2 : arena2.size = arena.size := by
          rw [harena2, setHeapIndex_size, setHeapIndex_size]
        have hgetD2 : ∀ j, heap2.getD j 0 =
            if j = node then pi else if j = node / 2 then ni else heap.getD j 0 := by
          intro j
          by_cases hj1 : j = node
          · subst hj1
            rw [if_pos rfl, hheap2, listGetD_set_self]
            rw [List.length_set]
            exact hn
          · rw [if_neg hj1, hheap2, listGetD_set_ne _ _ _ _ (fun h => hj1 h.symm)]
            by_cases hj2 : j = node / 2
            · subst hj2
              rw [if_pos rfl, listGetD_set_self _ _ _ hp_lt]
            · rw [if_neg hj2, listGetD_set_ne _ _ _ _ (fun h => hj2 h.symm)]
        have hA_pi : arena2.getD pi default =
            { arena.getD pi default with heapIndex := ((node : ℕ) : ℤ) } := by
          rw [harena2, setHeapIndex_getD_self _ _ _ (by rwa [setHeapIndex_size]),
            setHeapIndex_getD_ne _ _ _ _ (fun h => hnipi h.symm)]
        have hA_ni : arena2.getD ni default =
            { arena.getD ni default with heapIndex := ((node / 2 : ℕ) : ℤ) } := by
          rw [harena2, setHeapIndex_getD_ne _ _ _ _ hnipi,
            setHeapIndex_getD_self _ _ _ hniSz]
        have hA_other : ∀ m, m ≠ ni → m ≠ pi →
            arena2.getD m default = arena.getD m default := by
          intro m h1 h2
          rw [harena2, setHeapIndex_getD_ne _ _ _ _ h2, setHeapIndex_getD_ne _ _ _ _ h1]
        have hW2 : HeapWF arena2 heap2 := by
          intro j hj
          rw [hlen2] at hj
          rw [hgetD2 j]
          by_cases hj1 : j = node
          · rw [if_pos hj1, hA_pi]
            refine ⟨?_, ?_⟩
            · rw [hsz2]
              exact hpiSz
            · show ((node : ℕ) : ℤ) = (j : ℤ)
              rw [hj1]
          · rw [if_neg hj1]
            by_cases hj2 : j = node / 2
            · rw [if_pos hj2, hA_ni]
              refine ⟨?_, ?_⟩
              · rw [hsz2]
                exact hniSz
              · show ((node / 2 : ℕ) : ℤ) = (j : ℤ)
                rw [hj2]
            · rw [if_neg hj2]
              obtain ⟨hmSz, hmIdx⟩ := hW j hj
              have hm1 : heap.getD j 0 ≠ ni := by
                intro hEq
                rw [hEq, hniIdx] at hmIdx
                have hnj : node = j := by exact_mod_cast hmIdx
                exact hj1 hnj.symm
              have hm2 : heap.getD j 0 ≠ pi := by
                intro hEq
                rw [hEq, hpiIdx] at hmIdx
                have hnj : node / 2 = j := by exact_mod_cast hmIdx
                exact hj2 hnj.symm
              rw [hA_other _ hm1 hm2]
              refine ⟨?_, hmIdx⟩
              rw [hsz2]
              exact hmSz
        have hmem2 : ∀ i, i ∈ heap2 ↔ i ∈ heap := by
          intro i
          constructor
          · intro hi
            obtain ⟨j, hj, hje⟩ := mem_slot hi
            rw [hgetD2 j] at hje
            by_cases hj1 : j = node
            · rw [if_pos hj1] at hje
              rw [← hje]
              exact getD_mem_list hp_lt
            · rw [if_neg hj1] at hje
              by_cases hj2 : j = node / 2
              · rw [if_pos hj2] at hje
                rw [← hje]
                exact getD_mem_list hn
              · rw [if_neg hj2] at hje
                rw [← hje]
                exact getD_mem_list (by rw [hlen2] at hj; exact hj)
          · intro hi
            obtain ⟨j, hj, hje⟩ := mem_slot hi
            by_cases hj1 : j = node
            · have hslot : heap2.getD (node / 2) 0 = i := by
                rw [hgetD2, if_neg (show ¬ node / 2 = node by omega), if_pos rfl,
                  hni_def, ← hj1, hje]
              rw [← hslot]
              exact getD_mem_list (by rw [hlen2]; exact hp_lt)
            · by_cases hj2 : j = node / 2
              · have hslot : heap2.getD node 0 = i := by
                  rw [hgetD2, if_pos rfl, hpi_def, ← hj2, hje]
                rw [← hslot]
                exact getD_mem_list (by rw [hlen2]; exact hn)
              · have hslot : heap2.getD j 0 = i := by
                  rw [hgetD2, if_neg hj1, if_neg hj2, hje]
                rw [← hslot]
                exact getD_mem_list (by rw [hlen2]; exact hj)
        have hnonmem2 : ∀ i, i ∉ heap →
            (arena2.getD i default).heapIndex = (arena.getD i default).heapIndex := by
          intro i hi
          have h1 : i ≠ ni := fun hEq => hi (hEq ▸ getD_mem_list hn)
          have h2 : i ≠ pi := fun hEq => hi (hEq ▸ getD_mem_list hp_lt)
          rw [hA_other i h1 h2]
        obtain ⟨rW, rLen, rCore, rMem, rNon⟩ :=
          ih arena2 heap2 (node / 2) hW2 (by rw [hlen2]; exact hp_lt)
        refine ⟨rW, rLen.trans hlen2, coreEq_trans rCore (coreEq_trans
          (coreEq_setHeapIndex _ _ _) (coreEq_setHeapIndex _ _ _)), ?_, ?_⟩
        · intro i
          exact (rMem i).trans (hmem2 i)
        · intro i hi
          have hi2 : i ∉ heap2 := fun h => hi ((hmem2 i).mp h)
          rw [rNon i hi2, hnonmem2 i hi]
      · rw [show heapify_bottomup (fuel + 1) (arena, heap) node = (arena, heap) by
          simp only [heapify_bottomup]
          rw [if_neg hn0, if_neg hswap]]
        exact ⟨hW, rfl, coreEq_refl _, fun i => Iff.rfl, fun i _ => rfl⟩


lemma heapify_topdown_wf :
    ∀ (fuel : ℕ) (arena : Array SState) (heap : List ℕ) (root size : ℕ),
      HeapWF arena heap → size ≤ heap.length →
      HeapWF (heapify_topdown fuel (arena, heap) root size).1
        (heapify_topdown fuel (arena, heap) root size).2 ∧
      (heapify_topdown fuel (arena, heap) root size).2.length = heap.length ∧
      CoreEq (heapify_topdown fuel (arena, heap) root size).1 arena ∧
      (∀ i, i ∈ (heapify_topdown fuel (arena, heap) root size).2 ↔ i ∈ heap) ∧
      (∀ i, i ∉ heap →
        ((heapify_topdown fuel (arena, heap) root size).1.getD i default).heapIndex
          = (arena.getD i default).heapIndex) := by
  intro fuel
  induction fuel with
  | zero =>
    intro arena heap root size hW hsz
    exact ⟨hW, rfl, coreEq_refl _, fun i => Iff.rfl, fun i _ => rfl⟩
  | succ fuel ih =>
    intro arena heap root size hW hsz
    by_cases hc1 : size ≤ 2 * root
    · rw [show heapify_topdown (fuel + 1) (arena, heap) root size = (arena, heap) by
        simp only [heapify_topdown]
        rw [if_pos hc1]]
      exact ⟨hW, rfl, coreEq_refl _, fun i => Iff.rfl, fun i _ => rfl⟩
    · set m : ℕ := if 2 * root + 1 < size ∧
          heapPrioAt arena heap (2 * root + 1) < heapPrioAt arena heap (2 * root) then
          2 * root + 1 else 2 * root with hm
      have hmlt : m < size := by
        rw [hm]
        split
        · rename_i hsel
          exact hsel.1
        · omega
      have hrs : root < size := by omega
      have hm_len : m < heap.length := lt_of_lt_of_le hmlt hsz
      have hr_len : root < heap.length := lt_of_lt_of_le hrs hsz
      by_cases hswap : heapPrioAt arena heap m < heapPrioAt arena heap root
      · have hmr : m ≠ root := by
          intro he
          rw [he] at hswap
          exact lt_irrefl _ hswap
        have hstep : heapify_topdown (fuel + 1) (arena, heap) root size =
            heapify_topdown fuel
              (setHeapIndex (setHeapIndex arena (heap.getD m 0) ((root : ℕ) : ℤ))
                  (heap.getD root 0) ((m : ℕ) : ℤ),
                (heap.set root (heap.getD m 0)).set m (heap.getD root 0)) m size := by
          simp only [heapify_topdown]
          rw [if_neg (by omega : ¬ size ≤ 2 * root), ← hm,
            if_pos (show prioOf arena (heap.getD m 0) <
              prioOf arena (heap.getD root 0) from hswap)]
        rw [hstep]
        obtain ⟨hciSz, hciIdx⟩ := hW m hm_len
        obtain ⟨hriSz, hriIdx⟩ := hW root hr_len
        have hcri : heap.getD m 0 ≠ heap.getD root 0 := by
          intro hEq
          rw [hEq, hriIdx] at hciIdx
          have : root = m := by exact_mod_cast hciIdx
          exact hmr this.symm
        set ci := heap.getD m 0 with hci_def
        set ri := heap.getD root 0 with hri_def
        set arena2 := setHeapIndex (setHeapIndex arena ci ((root : ℕ) : ℤ))
          ri ((m : ℕ) : ℤ) with harena2
        set heap2 := (heap.set root ci).set m ri with hheap2
        have hlen2 : heap2.length = heap.length := by
          rw [hheap2]
          simp
        have hsz2 : arena2.size = arena.size := by
          rw [harena2, setHeapIndex_size, setHeapIndex_size]
        have hgetD2 : ∀ j, heap2.getD j 0 =
            if j = m then ri else if j = root then ci else heap.getD j 0 := by
          intro j
          by_cases hj1 : j = m
          · subst hj1
            rw [if_pos rfl, hheap2, listGetD_set_self]
            rw [List.length_set]
            exact hm_len
          · rw [if_neg hj1, hheap2, listGetD_set_ne _ _ _ _ (fun h => hj1 h.symm)]
            by_cases hj2 : j = root
            · subst hj2
              rw [if_pos rfl, listGetD_set_self _ _ _ hr_len]
            · rw [if_neg hj2, listGetD_set_ne _ _ _ _ (fun h => hj2 h.symm)]
        have hA_ri : arena2.getD ri default =
            { arena.getD ri default with heapIndex := ((m : ℕ) : ℤ) } := by
          rw [harena2, setHeapIndex_getD_self _ _ _ (by rwa [setHeapIndex_size]),
            setHeapIndex_getD_ne _ _ _ _ (fun h => hcri h.symm)]
        have hA_ci : arena2.getD ci default =
            { arena.getD ci default with heapIndex := ((root : ℕ) : ℤ) } := by
          rw [harena2, setHeapIndex_getD_ne _ _ _ _ hcri,
            setHeapIndex_getD_self _ _ _ hciSz]
        have hA_other : ∀ x, x ≠ ci → x ≠ ri →
            arena2.getD x default = arena.getD x default := by
          intro x h1 h2
          rw [harena2, setHeapIndex_getD_ne _ _ _ _ h2, setHeapIndex_getD_ne _ _ _ _ h1]
        have hW2 : HeapWF arena2 heap2 := by
          intro j hj
          rw [hlen2] at hj
          rw [hgetD2 j]
          by_cases hj1 : j = m
          · rw [if_pos hj1, hA_ri]
            refine ⟨?_, ?_⟩
            · rw [hsz2]
              exact hriSz
            · show ((m : ℕ) : ℤ) = (j : ℤ)
              rw [hj1]
          · rw [if_neg hj1]
            by_cases hj2 : j = root
            · rw [if_pos hj2, hA_ci]
              refine ⟨?_, ?_⟩
              · rw [hsz2]
                exact hciSz
              · show ((root : ℕ) : ℤ) = (j : ℤ)
                rw [hj2]
            · rw [if_neg hj2]
              obtain ⟨hxSz, hxIdx⟩ := hW j hj
              have hx1 : heap.getD j 0 ≠ ci := by
                intro hEq
                rw [hEq, hciIdx] at hxIdx
                have hnj : m = j := by exact_mod_cast hxIdx
                exact hj1 hnj.symm
              have hx2 : heap.getD j 0 ≠ ri := by
                intro hEq
                rw [hEq, hriIdx] at hxIdx
                have hnj : root = j := by exact_mod_cast hxIdx
                exact hj2 hnj.symm
              rw [hA_other _ hx1 hx2]
              refine ⟨?_, hxIdx⟩
              rw [hsz2]
              exact hxSz
        have hmem2 : ∀ i, i ∈ heap2 ↔ i ∈ heap := by
          intro i
          constructor
          · intro hi
            obtain ⟨j, hj, hje⟩ := mem_slot hi
            rw [hgetD2 j] at hje
            by_cases hj1 : j = m
            · rw [if_pos hj1] at hje
              rw [← hje]
              exact getD_mem_list hr_len
            · rw [if_neg hj1] at hje
              by_cases hj2 : j = root
              · rw [if_pos hj2] at hje
                rw [← hje]
                exact getD_mem_list hm_len
              · rw [if_neg hj2] at hje
                rw [← hje]
                exact getD_mem_list (by rw [hlen2] at hj; exact hj)
          · intro hi
            obtain ⟨j, hj, hje⟩ := mem_slot hi
            by_cases hj1 : j = m
            · have hslot : heap2.getD root 0 = i := by
                rw [hgetD2, if_neg (fun h => hmr h.symm), if_pos rfl, hci_def, ← hj1, hje]
              rw [← hslot]
              exact getD_mem_list (by rw [hlen2]; exact hr_len)
            · by_cases hj2 : j = root
              · have hslot : heap2.getD m 0 = i := by
                  rw [hgetD2, if_pos rfl, hri_def, ← hj2, hje]
                rw [← hslot]
                exact getD_mem_list (by rw [hlen2]; exact hm_len)
              · have hslot : heap2.getD j 0 = i := by
                  rw [hgetD2, if_neg hj1, if_neg hj2, hje]
                rw [← hslot]
                exact getD_mem_list (by rw [hlen2]; exact hj)
        have hnonmem2 : ∀ i, i ∉ heap →
            (arena2.getD i default).heapIndex = (arena.getD i default).heapIndex := by
          intro i hi
          have h1 : i ≠ ci := fun hEq => hi (hEq ▸ getD_mem_list hm_len)
          have h2 : i ≠ ri := fun hEq => hi (hEq ▸ getD_mem_list hr_len)
          rw [hA_other i h1 h2]
        obtain ⟨rW, rLen, rCore, rMem, rNon⟩ :=
          ih arena2 heap2 m size hW2 (by rw [hlen2]; exact hsz)
        refine ⟨rW, rLen.trans hlen2, coreEq_trans rCore (coreEq_trans
          (coreEq_setHeapIndex _ _ _) (coreEq_setHeapIndex _ _ _)), ?_, ?_⟩
        · intro i
          exact (rMem i).trans (hmem2 i)
        · intro i hi
          have hi2 : i ∉ heap2 := fun h => hi ((hmem2 i).mp h)
          rw [rNon i hi2, hnonmem2 i hi]
      · rw [show heapify_topdown (fuel + 1) (arena, heap) root size = (arena, heap) by
          simp only [heapify_topdown]
          rw [if_neg (by omega : ¬ size ≤ 2 * root), ← hm,
            if_neg (show ¬ prioOf arena (heap.getD m 0) <
              prioOf arena (heap.getD root 0) from hswap)]]
        exact ⟨hW, rfl, coreEq_refl _, fun i => Iff.rfl, fun i _ => rfl⟩


lemma listGetD_append_lt (l l2 : List ℕ) (j : ℕ) (h : j < l.length) :
    (l ++ l2).getD j 0 = l.getD j 0 := by
  simp [List.getD, List.get?_eq_getElem?, List.getElem?_append, h]

lemma listGetD_append_self (l : List ℕ) (x : ℕ) :
    (l ++ [x]).getD l.length 0 = x := by
  simp [List.getD, List.get?_eq_getElem?, List.getElem?_append]

lemma listGetD_cons_succ (a : ℕ) (l : List ℕ) (n : ℕ) :
    (a :: l).getD (n + 1) 0 = l.getD n 0 := by
  simp [List.getD]

lemma listGetLastD (l : List ℕ) (_h : l ≠ []) :
    l.getLastD 0 = l.getD (l.length - 1) 0 := by
  rw [List.getLastD_eq_getLast?, List.getLast?_eq_getElem?]
  simp [List.getD]

lemma heap_insert_wf (arena : Array SState) (heap : List ℕ) (elemIdx : ℕ)
    (hW : HeapWF arena heap) (hsz : elemIdx < arena.size)
    (hnm : elemIdx ∉ heap) :
    HeapWF (heap_insert arena heap elemIdx).1 (heap_insert arena heap elemIdx).2 ∧
    (heap_insert arena heap elemIdx).2.length = heap.length + 1 ∧
    CoreEq (heap_insert arena heap elemIdx).1 arena ∧
    (∀ i, i ∈ (heap_insert arena heap elemIdx).2 ↔ (i ∈ heap ∨ i = elemIdx)) ∧
    (∀ i, i ∉ heap → i ≠ elemIdx →
      ((heap_insert arena heap elemIdx).1.getD i default).heapIndex
        = (arena.getD i default).heapIndex) := by
  have hW1 : HeapWF (setHeapIndex arena elemIdx ((heap.length : ℕ) : ℤ))
      (heap ++ [elemIdx]) := by
    intro j hj
    rw [List.length_append, List.length_singleton] at hj
    by_cases hjl : j < heap.length
    · rw [listGetD_append_lt _ _ _ hjl]
      obtain ⟨hm1, hm2⟩ := hW j hjl
      have hne : heap.getD j 0 ≠ elemIdx := by
        intro hEq
        exact hnm (hEq ▸ getD_mem_list hjl)
      rw [setHeapIndex_getD_ne _ _ _ _ hne]
      exact ⟨by rw [setHeapIndex_size]; exact hm1, hm2⟩
    · have hje : j = heap.length := by omega
      subst hje
      rw [listGetD_append_self, setHeapIndex_getD_self _ _ _ hsz]
      exact ⟨by rw [setHeapIndex_size]; exact hsz, rfl⟩
  have hmem1 : ∀ i, i ∈ heap ++ [elemIdx] ↔ (i ∈ heap ∨ i = elemIdx) := by
    intro i
    rw [List.mem_append, List.mem_singleton]
  by_cases h0 : 0 < heap.length
  · have hstep : heap_insert arena heap elemIdx =
        heapify_bottomup heap.length
          (setHeapIndex arena elemIdx ((heap.length : ℕ) : ℤ), heap ++ [elemIdx])
          heap.length := by
      simp only [heap_insert]
      rw [if_pos h0]
    rw [hstep]
    obtain ⟨rW, rLen, rCore, rMem, rNon⟩ :=
      heapify_bottomup_wf heap.length
        (setHeapIndex arena elemIdx ((heap.length : ℕ) : ℤ)) (heap ++ [elemIdx])
        heap.length hW1 (by rw [List.length_append, List.length_singleton]; omega)
    refine ⟨rW, by rw [rLen, List.length_append, List.length_singleton],
      coreEq_trans rCore (coreEq_setHeapIndex _ _ _), ?_, ?_⟩
    · intro i
      exact (rMem i).trans (hmem1 i)
    · intro i hi hie
      have hi1 : i ∉ heap ++ [elemIdx] := by
        rw [hmem1]
        rintro (h | h)
        · exact hi h
        · exact hie h
      rw [rNon i hi1, setHeapIndex_getD_ne _ _ _ _ hie]
  · have hstep : heap_insert arena heap elemIdx =
        (setHeapIndex arena elemIdx ((heap.length : ℕ) : ℤ), heap ++ [elemIdx]) := by
      simp only [heap_insert]
      rw [if_neg h0]
    rw [hstep]
    refine ⟨hW1, by rw [List.length_append, List.length_singleton],
      coreEq_setHeapIndex _ _ _, hmem1, ?_⟩
    intro i hi hie
    rw [setHeapIndex_getD_ne _ _ _ _ hie]


lemma heap_pop_mark_wf (arena : Array SState) (heap : List ℕ)
    (hW : HeapWF arena heap) (hne : heap ≠ []) (hNM : HeapNonMem arena heap) :
    (heap_pop arena heap).1 < arena.size ∧
    HeapWF (setHeapIndex (heap_pop arena heap).2.1 (heap_pop arena heap).1 (-1))
      (heap_pop arena heap).2.2 ∧
    HeapNonMem (setHeapIndex (heap_pop arena heap).2.1 (heap_pop arena heap).1 (-1))
      (heap_pop arena heap).2.2 ∧
    CoreEq (setHeapIndex (heap_pop arena heap).2.1 (heap_pop arena heap).1 (-1)) arena ∧
    ((setHeapIndex (heap_pop arena heap).2.1 (heap_pop arena heap).1 (-1)).getD
      (heap_pop arena heap).1 default).heapIndex = -1 ∧
    (heap_pop arena heap).2.2.length + 1 = heap.length ∧
    (∀ i, i ∈ (heap_pop arena heap).2.2 → i ∈ heap) ∧
    (∀ i, i ∉ heap → ((setHeapIndex (heap_pop arena heap).2.1 (heap_pop arena heap).1
      (-1)).getD i default).heapIndex = (arena.getD i default).heapIndex) := by
  rcases heap with _ | ⟨r0, _ | ⟨r2, rs⟩⟩
  · exact absurd rfl hne
  · have hstep : heap_pop arena [r0] = (r0, arena, ([] : List ℕ)) := rfl
    rw [hstep]
    have hr0 := hW 0 (by simp)
    have hr0sz : r0 < arena.size := hr0.1
    refine ⟨hr0sz, ?_, ?_, coreEq_setHeapIndex _ _ _, ?_, rfl, ?_, ?_⟩
    · intro j hj
      simp only [List.length_nil] at hj
      omega
    · intro i hi
      by_cases hir : i = r0
      · subst hir
        rw [setHeapIndex_getD_self _ _ _ hr0sz]
        exact Or.inl rfl
      · rw [setHeapIndex_getD_ne _ _ _ _ hir]
        rcases hNM i (by rwa [setHeapIndex_size] at hi) with h | h
        · exact Or.inl h
        · rw [List.mem_singleton] at h
          exact absurd h hir
    · rw [setHeapIndex_getD_self _ _ _ hr0sz]
    · intro i hi
      cases hi
    · intro i hi
      have hir : i ≠ r0 := by
        intro hEq
        exact hi (hEq ▸ List.mem_singleton.mpr rfl)
      rw [setHeapIndex_getD_ne _ _ _ _ hir]
  · set rest := r2 :: rs with hrest
    set L := rest.length with hL
    have hL1 : 1 ≤ L := by rw [hL, hrest]; simp
    set lastIdx := rest.getLastD 0 with hlast
    set heap1 := lastIdx :: rest.dropLast with hheap1
    set arena1 := setHeapIndex arena lastIdx 0 with harena1
    have hlen1 : heap1.length = L := by
      rw [hheap1]
      simp only [List.length_cons, List.length_dropLast]
      omega
    have hheaplen : (r0 :: rest).length = L + 1 := by simp [hL]
    have hlast_slot : (r0 :: rest).getD L 0 = lastIdx := by
      have h1 : (r0 :: rest).getD ((L - 1) + 1) 0 = rest.getD (L - 1) 0 :=
        listGetD_cons_succ _ _ _
      rw [show L = (L - 1) + 1 by omega, h1, hlast]
      exact (listGetLastD rest (by rw [hrest]; simp)).symm
    have hW0 := hW 0 (by simp)
    have hr0sz : r0 < arena.size := by
      have := hW0.1
      simpa using this
    have hr0idx : (arena.getD r0 default).heapIndex = 0 := by
      have := hW0.2
      simpa using this
    have hWL := hW L (by omega)
    have hlastsz : lastIdx < arena.size := by
      have := hWL.1
      rwa [hlast_slot] at this
    have hlastidx : (arena.getD lastIdx default).heapIndex = (L : ℤ) := by
      have := hWL.2
      rwa [hlast_slot] at this
    have hr0last : r0 ≠ lastIdx := by
      intro hEq
      rw [← hEq, hr0idx] at hlastidx
      have : (0 : ℤ) = (L : ℤ) := hlastidx
      omega
    have hheap1getD : ∀ j, j < L →
        heap1.getD j 0 = if j = 0 then lastIdx else (r0 :: rest).getD j 0 := by
      intro j hj
      rcases j with _ | k
      · rw [if_pos rfl, hheap1]
        rfl
      · rw [if_neg (by omega), hheap1, listGetD_cons_succ, listGetD_cons_succ]
        exact listGetD_dropLast rest k (by omega)
    have hW1 : HeapWF arena1 heap1 := by
      intro j hj
      rw [hlen1] at hj
      rw [hheap1getD j hj]
      rcases j with _ | k
      · rw [if_pos rfl, harena1, setHeapIndex_getD_self _ _ _ hlastsz]
        exact ⟨by rw [setHeapIndex_size]; exact hlastsz, rfl⟩
      · rw [if_neg (by omega)]
        obtain ⟨hmsz, hmidx⟩ := hW (k + 1) (by omega)
        have hmne : (r0 :: rest).getD (k + 1) 0 ≠ lastIdx := by
          intro hEq
          rw [hEq, hlastidx] at hmidx
          have : (L : ℤ) = ((k + 1 : ℕ) : ℤ) := hmidx
          omega
        rw [harena1, setHeapIndex_getD_ne _ _ _ _ hmne]
        exact ⟨by rw [setHeapIndex_size]; exact hmsz, hmidx⟩
    have hmem1 : ∀ i, i ∈ heap1 → i ∈ (r0 :: rest) := by
      intro i hi
      obtain ⟨j, hj, hje⟩ := mem_slot hi
      rw [hlen1] at hj
      rw [hheap1getD j hj] at hje
      rcases j with _ | k
      · rw [if_pos rfl] at hje
        rw [← hje, ← hlast_slot]
        exact getD_mem_list (by omega)
      · rw [if_neg (by omega)] at hje
        rw [← hje]
        exact getD_mem_list (by omega)
    have hr0mem1 : r0 ∉ heap1 := by
      intro hi
      obtain ⟨j, hj, hje⟩ := mem_slot hi
      rw [hlen1] at hj
      rw [hheap1getD j hj] at hje
      rcases j with _ | k
      · rw [if_pos rfl] at hje
        exact hr0last hje.symm
      · rw [if_neg (by omega)] at hje
        obtain ⟨_, hmidx⟩ := hW (k + 1) (by omega)
        rw [hje, hr0idx] at hmidx
        have : (0 : ℤ) = ((k + 1 : ℕ) : ℤ) := hmidx
        omega
    obtain ⟨rW, rLen, rCore, rMem, rNon⟩ :=
      heapify_topdown_wf heap1.length arena1 heap1 0 heap1.length hW1 (le_refl _)
    have hstep : heap_pop arena (r0 :: r2 :: rs) =
        (r0, (heapify_topdown heap1.length (arena1, heap1) 0 heap1.length).1,
          (heapify_topdown heap1.length (arena1, heap1) 0 heap1.length).2) := rfl
    rw [hstep]
    set td := heapify_topdown heap1.length (arena1, heap1) 0 heap1.length with htd
    have htdsz : td.1.size = arena.size := by
      rw [rCore.1, harena1, setHeapIndex_size]
    have hr0notd : r0 ∉ td.2 := fun h => hr0mem1 ((rMem r0).mp h)
    refine ⟨hr0sz, ?_, ?_, ?_, ?_, ?_, ?_, ?_⟩
    · intro j hj
      obtain ⟨hmsz, hmidx⟩ := rW j hj
      have hmne : td.2.getD j 0 ≠ r0 := by
        intro hEq
        exact hr0notd (hEq ▸ getD_mem_list hj)
      rw [setHeapIndex_getD_ne _ _ _ _ hmne]
      exact ⟨by rw [setHeapIndex_size]; exact hmsz, hmidx⟩
    · intro i hi
      rw [setHeapIndex_size, htdsz] at hi
      by_cases hir : i = r0
      · subst hir
        rw [setHeapIndex_getD_self _ _ _ (by rw [htdsz]; exact hr0sz)]
        exact Or.inl rfl
      · rw [setHeapIndex_getD_ne _ _ _ _ hir]
        rcases hNM i hi with h | h
        · have hih : i ∉ (r0 :: rest) := by
            intro hmem
            obtain ⟨j, hj, hje⟩ := mem_slot hmem
            obtain ⟨_, hmidx⟩ := hW j hj
            rw [hje, h] at hmidx
            omega
          have hih1 : i ∉ heap1 := fun hm => hih (hmem1 i hm)
          have hilast : i ≠ lastIdx := by
            intro hEq
            apply hih
            rw [hEq, ← hlast_slot]
            exact getD_mem_list (by omega)
          rw [rNon i hih1, harena1, setHeapIndex_getD_ne _ _ _ _ hilast]
          exact Or.inl h
        · obtain ⟨j, hj, hje⟩ := mem_slot h
          rcases j with _ | k
          · exact absurd hje.symm (by simpa using hir)
          · have hjlt : k + 1 < L + 1 := by
              rw [hheaplen] at hj
              exact hj
            have hi1 : i ∈ heap1 := by
              by_cases hkL : k + 1 = L
              · rw [hkL] at hje
                rw [hlast_slot] at hje
                rw [← hje, hheap1]
                exact List.mem_cons_self _ _
              · have : heap1.getD (k + 1) 0 = i := by
                  rw [hheap1getD (k + 1) (by omega), if_neg (by omega), hje]
                rw [← this]
                exact getD_mem_list (by rw [hlen1]; omega)
            exact Or.inr ((rMem i).mpr hi1)
    · exact coreEq_trans (coreEq_setHeapIndex _ _ _)
        (coreEq_trans rCore (coreEq_setHeapIndex _ _ _))
    · rw [setHeapIndex_getD_self _ _ _ (by rw [htdsz]; exact hr0sz)]
    · rw [rLen, hlen1, hheaplen]
    · intro i hi
      exact hmem1 i ((rMem i).mp hi)
    · intro i hi
      have hir : i ≠ r0 := fun hEq => hi (hEq ▸ List.mem_cons_self _ _)
      have hilast : i ≠ lastIdx := by
        intro hEq
        apply hi
        rw [hEq, ← hlast_slot]
        exact getD_mem_list (by omega)
      have hih1 : i ∉ heap1 := fun hm => hi (hmem1 i hm)
      rw [setHeapIndex_getD_ne _ _ _ _ hir, rNon i hih1, harena1,
        setHeapIndex_getD_ne _ _ _ _ hilast]


lemma arr_getD_modify_ne (a : Array SState) (f : SState → SState) (i j : ℕ)
    (h : j ≠ i) : (a.modify i f).getD j default = a.getD j default := by
  rw [Array.getD_eq_get?, Array.getD_eq_get?, Array.getElem?_modify,
    if_neg (fun hEq => h hEq.symm)]

lemma arr_getD_modify_self (a : Array SState) (f : SState → SState) (i : ℕ)
    (h : i < a.size) : (a.modify i f).getD i default = f (a.getD i default) := by
  rw [Array.getD_eq_get?, Array.getD_eq_get?, Array.getElem?_modify, if_pos rfl,
    Array.getElem?_eq_getElem h]
  rfl

lemma heapWF_push (a : Array SState) (heap : List ℕ) (x : SState)
    (hW : HeapWF a heap) : HeapWF (a.push x) heap := by
  intro j hj
  obtain ⟨h1, h2⟩ := hW j hj
  rw [arr_getD_push_lt _ _ _ h1]
  exact ⟨by rw [Array.size_push]; omega, h2⟩

lemma neg_not_mem_of_heapWF {a : Array SState} {heap : List ℕ} (hW : HeapWF a heap)
    {i : ℕ} (h : (a.getD i default).heapIndex = -1) : i ∉ heap := by
  intro hmem
  obtain ⟨j, hj, hje⟩ := mem_slot hmem
  obtain ⟨_, hidx⟩ := hW j hj
  rw [hje, h] at hidx
  omega

lemma mem_heap_slot {a : Array SState} {heap : List ℕ} (hW : HeapWF a heap)
    {i : ℕ} (hmem : i ∈ heap) :
    (a.getD i default).heapIndex.toNat < heap.length ∧
    heap.getD (a.getD i default).heapIndex.toNat 0 = i ∧
    0 ≤ (a.getD i default).heapIndex := by
  obtain ⟨j, hj, hje⟩ := mem_slot hmem
  obtain ⟨_, hidx⟩ := hW j hj
  rw [hje] at hidx
  rw [hidx]
  simp only [Int.toNat_ofNat]
  exact ⟨hj, hje, by omega⟩

lemma arr_getD_oob (a : Array SState) (i : ℕ) (h : ¬ i < a.size) :
    a.getD i default = default := by
  unfold Array.getD
  rw [dif_neg h]

lemma astChild_spec (pr : Problem) (width area stateCount : ℕ) (hf gf : ℚ)
    (parentIdx : ℕ) (parent : SState) (st : AstSt) (index : ℕ)
    (hidx : index < 4)
    (hinv : ChainInv pr area width st.arena)
    (hPF : ParentsFrozen st.arena)
    (hW : HeapWF st.arena st.heap)
    (hNM : HeapNonMem st.arena st.heap)
    (hV : VisitedWF st.arena st.visited)
    (hpi : parentIdx < st.arena.size)
    (hcost : (st.arena.getD parentIdx default).cost = parent.cost)
    (hpl : (st.arena.getD parentIdx default).player = parent.player)
    (hcr : (st.arena.getD parentIdx default).crates = parent.crates)
    (hpmark : (st.arena.getD parentIdx default).heapIndex = -1) :
    match astChild pr width area stateCount hf gf parentIdx parent (parent.cost + 1) st index with
    | .error (res, _) => res.solved = true → ∃ acts, res.actions = some acts ∧
        validSolution pr area width acts
    | .ok st2 => ChainInv pr area width st2.arena ∧ ParentsFrozen st2.arena ∧
        HeapWF st2.arena st2.heap ∧ HeapNonMem st2.arena st2.heap ∧
        VisitedWF st2.arena st2.visited ∧
        st.arena.size ≤ st2.arena.size ∧
        ((st2.arena.getD parentIdx default).cost
            = (st.arena.getD parentIdx default).cost ∧
          (st2.arena.getD parentIdx default).player
            = (st.arena.getD parentIdx default).player ∧
          (st2.arena.getD parentIdx default).crates
            = (st.arena.getD parentIdx default).crates ∧
          (st2.arena.getD parentIdx default).heapIndex = -1) := by
  simp only [astChild]
  set D := (dirsList width).getD index 0 with hD
  set P := move parent.player D with hP
  set B := bit parent.crates P with hB
  set NX := move P D with hNX
  by_cases h1 : wallAt pr.walls area P = true
  · rw [if_pos h1]
    exact ⟨hinv, hPF, hW, hNM, hV, le_refl _, rfl, rfl, rfl, hpmark⟩
  rw [if_neg h1]
  have hw1 : wallAt pr.walls area P = false := by simpa using h1
  by_cases h2 : (B && (wallAt pr.walls area NX || bit parent.crates NX || !bit pr.nd NX)) = true
  · rw [if_pos h2]
    exact ⟨hinv, hPF, hW, hNM, hV, le_refl _, rfl, rfl, rfl, hpmark⟩
  rw [if_neg h2]
  by_cases h3 : (B && check_single_2x2_deadlock pr.walls pr.goals area width parent.crates NX D) = true
  · rw [if_pos h3]
    exact ⟨hinv, hPF, hW, hNM, hV, le_refl _, rfl, rfl, rfl, hpmark⟩
  rw [if_neg h3]
  set A := actionChars.getD (if B = true then index + 4 else index) 'l' with hA
  set C := if B = true then insert NX (parent.crates.erase P) else parent.crates with hC
  have hstep : replayStep pr.walls area width (parent.player, parent.crates) A
      = some (P, C) := by
    by_cases hBt : B = true
    · simp only [hBt, if_true] at h2
      have h2f : (wallAt pr.walls area NX || bit parent.crates NX || !bit pr.nd NX) = false := by
        simpa using h2
      simp only [Bool.or_eq_false_iff] at h2f
      obtain ⟨⟨hw2, hbn⟩, _⟩ := h2f
      rw [hA, if_pos hBt, hC, if_pos hBt, hNX, hP, hD]
      rw [hB, hP, hD] at hBt
      rw [hP, hD] at hw1
      rw [hNX, hP, hD] at hw2 hbn
      exact replayStep_move_push pr.walls area width index hidx parent.player
        parent.crates hBt hw1 hw2 (by simpa [bit] using hbn)
    · have hBf : B = false := by simpa using hBt
      rw [hA, if_neg hBt, hC, if_neg hBt, hP, hD]
      rw [hB, hP, hD] at hBf
      rw [hP, hD] at hw1
      exact replayStep_move_walk pr.walls area width index hidx parent.player
        parent.crates hBf hw1
  by_cases h4 : (B && decide (C = pr.goals)) = true
  · rw [if_pos h4]
    intro _
    refine ⟨buildSolution st.arena parentIdx A (parent.cost + 1), rfl, ?_⟩
    have h4b := h4
    simp only [Bool.and_eq_true, decide_eq_true_eq] at h4b
    refine ⟨(P, C), ?_, h4b.2⟩
    have hbs : buildSolution st.arena parentIdx A (parent.cost + 1)
        = backtrack st.arena parent.cost (some parentIdx) [A] := by
      unfold buildSolution
      simp
    rw [hbs]
    refine backtrack_replay pr area width st.arena hinv parent.cost parentIdx hpi
      hcost [A] (some (P, C)) ?_
    rw [replay_singleton, hpl, hcr]
    exact hstep
  rw [if_neg h4]
  cases hlook : List.lookup (P, C) st.visited with
  | none =>
    set H := if B = true then compute_heuristic pr area C else parent.heuristic with hH
    by_cases h6 : decide ((st.arena.push ⟨some parentIdx, A, P, C, parent.cost + 1, H,
        gf * ((parent.cost + 1 : ℕ) : ℚ) + hf * ((H : ℕ) : ℚ), 0⟩).size = stateCount) = true
    · rw [if_pos h6]
      intro hx
      exact nomatch hx
    · rw [if_neg h6]
      set child : SState := ⟨some parentIdx, A, P, C, parent.cost + 1, H,
        gf * ((parent.cost + 1 : ℕ) : ℚ) + hf * ((H : ℕ) : ℚ), 0⟩ with hchild
      have hWp : HeapWF (st.arena.push child) st.heap := heapWF_push _ _ _ hW
      have hfresh : st.arena.size ∉ st.heap := by
        intro hmem
        obtain ⟨j, hj, hje⟩ := mem_slot hmem
        obtain ⟨hlt, _⟩ := hW j hj
        rw [hje] at hlt
        omega
      obtain ⟨iW, iLen, iCore, iMem, iNon⟩ := heap_insert_wf (st.arena.push child)
        st.heap st.arena.size hWp (by rw [Array.size_push]; omega) hfresh
      have hinv1 : ChainInv pr area width (st.arena.push child) := by
        intro i hi
        have hi2 : i < st.arena.size + 1 := by simpa [Array.size_push] using hi
        by_cases hilt : i < st.arena.size
        · rw [arr_getD_push_lt _ _ _ hilt]
          refine ⟨(hinv i hilt).1, ?_⟩
          intro j hpar
          obtain ⟨hj, hcostf, hrs⟩ := (hinv i hilt).2 j hpar
          rw [arr_getD_push_lt _ _ _ hj]
          exact ⟨by rw [Array.size_push]; omega, hcostf, hrs⟩
        · have hieq : i = st.arena.size := by omega
          subst hieq
          rw [arr_getD_push_eq]
          constructor
          · intro h
            exact nomatch h
          · intro j hpar
            have hj : j = parentIdx := by
              injection hpar with hpar2
              exact hpar2.symm
            rw [hj, arr_getD_push_lt _ _ _ hpi]
            refine ⟨by rw [Array.size_push]; omega, ?_, ?_⟩
            · show parent.cost + 1 = (st.arena.getD parentIdx default).cost + 1
              rw [hcost]
            · rw [hpl, hcr]
              exact hstep
      have hfrozen_lt : ∀ j, (st.arena.getD j default).heapIndex = -1 →
          j < st.arena.size := by
        intro j hjm
        by_contra hge
        rw [arr_getD_oob _ _ hge] at hjm
        exact absurd hjm (by decide)
      have hIdxKeep : ∀ j, (st.arena.getD j default).heapIndex = -1 →
          ((heap_insert (st.arena.push child) st.heap st.arena.size).1.getD j
            default).heapIndex = -1 := by
        intro j hjm
        have hjlt := hfrozen_lt j hjm
        have hjne : j ≠ st.arena.size := by omega
        have hjnm : j ∉ st.heap := neg_not_mem_of_heapWF hW hjm
        rw [iNon j hjnm hjne, arr_getD_push_lt _ _ _ hjlt]
        exact hjm
      refine ⟨chainInv_coreEq pr area width iCore hinv1, ?_, iW, ?_, ?_, ?_, ?_⟩
      · intro i hi j hpar
        have hpar1 : ((st.arena.push child).getD i default).parent = some j := by
          rw [← (iCore.2 i).1]
          exact hpar
        have hi1 : i < st.arena.size + 1 := by
          rw [← Array.size_push st.arena child, ← iCore.1]
          exact hi
        by_cases hilt : i < st.arena.size
        · rw [arr_getD_push_lt _ _ _ hilt] at hpar1
          exact hIdxKeep j (hPF i hilt j hpar1)
        · have hieq : i = st.arena.size := by omega
          subst hieq
          rw [arr_getD_push_eq] at hpar1
          have hj : j = parentIdx := by
            injection hpar1 with hpar2
            exact hpar2.symm
          subst hj
          exact hIdxKeep j hpmark
      · intro i hi
        have hi1 : i < st.arena.size + 1 := by
          rw [← Array.size_push st.arena child, ← iCore.1]
          exact hi
        by_cases hic : i = st.arena.size
        · exact Or.inr ((iMem i).mpr (Or.inr hic))
        · have hilt : i < st.arena.size := by omega
          rcases hNM i hilt with h | h
          · have hnm2 : i ∉ st.heap := neg_not_mem_of_heapWF hW h
            left
            rw [iNon i hnm2 hic, arr_getD_push_lt _ _ _ hilt]
            exact h
          · exact Or.inr ((iMem i).mpr (Or.inl h))
      · intro e he
        rcases List.mem_cons.mp he with he | he
        · subst he
          refine ⟨?_, ?_, ?_⟩
          · rw [iCore.1, Array.size_push]
            omega
          · rw [(iCore.2 _).2.2.1, arr_getD_push_eq]
          · rw [(iCore.2 _).2.2.2.1, arr_getD_push_eq]
        · obtain ⟨he1, he2, he3⟩ := hV e he
          refine ⟨?_, ?_, ?_⟩
          · rw [iCore.1, Array.size_push]
            omega
          · rw [(iCore.2 _).2.2.1, arr_getD_push_lt _ _ _ he1]
            exact he2
          · rw [(iCore.2 _).2.2.2.1, arr_getD_push_lt _ _ _ he1]
            exact he3
      · rw [iCore.1, Array.size_push]
        omega
      · have hplt : parentIdx ≠ st.arena.size := by omega
        have hpnm : parentIdx ∉ st.heap := neg_not_mem_of_heapWF hW hpmark
        refine ⟨?_, ?_, ?_, ?_⟩
        · rw [(iCore.2 _).2.2.2.2, arr_getD_push_lt _ _ _ hpi]
        · rw [(iCore.2 _).2.2.1, arr_getD_push_lt _ _ _ hpi]
        · rw [(iCore.2 _).2.2.2.1, arr_getD_push_lt _ _ _ hpi]
        · rw [iNon parentIdx hpnm hplt, arr_getD_push_lt _ _ _ hpi]
          exact hpmark
  | some twinIdx =>
    dsimp only
    have htwmem := lookup_mem hlook
    obtain ⟨htwlt, htwpl, htwcr⟩ := hV _ htwmem
    by_cases h7 : 0 ≤ (st.arena.getD twinIdx default).heapIndex ∧
        parent.cost + 1 < (st.arena.getD twinIdx default).cost
    · rw [if_pos h7]
      have htpne : twinIdx ≠ parentIdx := by
        intro hEq
        rw [hEq, hpmark] at h7
        omega
      set F : SState → SState := fun t =>
        { t with
            parent := some parentIdx, action := A, cost := parent.cost + 1,
            priority := hf * ((t.heuristic : ℕ) : ℚ) + gf * ((parent.cost + 1 : ℕ) : ℚ) }
        with hF
      have hmodself : (st.arena.modify twinIdx F).getD twinIdx default
          = F (st.arena.getD twinIdx default) := arr_getD_modify_self _ _ _ htwlt
      have hmodne : ∀ y, y ≠ twinIdx →
          (st.arena.modify twinIdx F).getD y default = st.arena.getD y default :=
        fun y hy => arr_getD_modify_ne _ _ _ _ hy
      have hIdxAll : ∀ y, ((st.arena.modify twinIdx F).getD y default).heapIndex
          = (st.arena.getD y default).heapIndex := by
        intro y
        by_cases hy : y = twinIdx
        · subst hy
          rw [hmodself]
        · rw [hmodne y hy]
      have hsz1 : (st.arena.modify twinIdx F).size = st.arena.size :=
        Array.size_modify _ _ _
      have hinv1 : ChainInv pr area width (st.arena.modify twinIdx F) := by
        intro i hi
        rw [hsz1] at hi
        by_cases hit : i = twinIdx
        · subst hit
          rw [hmodself]
          constructor
          · intro hnone
            exact nomatch hnone
          · intro j hj
            have hjp : j = parentIdx := by
              injection hj with hj2
              exact hj2.symm
            subst hjp
            rw [hmodne j (fun hEq => htpne hEq.symm)]
            refine ⟨by rw [hsz1]; exact hpi, ?_, ?_⟩
            · show parent.cost + 1 = (st.arena.getD j default).cost + 1
              rw [hcost]
            · rw [hpl, hcr]
              show replayStep pr.walls area width (parent.player, parent.crates) A
                = some ((st.arena.getD i default).player, (st.arena.getD i default).crates)
              rw [htwpl, htwcr]
              exact hstep
        · rw [hmodne i hit]
          obtain ⟨hroot, hpar⟩ := hinv i hi
          refine ⟨hroot, ?_⟩
          intro j hj
          obtain ⟨hjlt, hcostf, hrs⟩ := hpar j hj
          have hjt : j ≠ twinIdx := by
            intro hEq
            have := hPF i hi j hj
            rw [hEq] at this
            rw [this] at h7
            omega
          rw [hmodne j hjt]
          exact ⟨by rw [hsz1]; exact hjlt, hcostf, hrs⟩
      have hPF1 : ParentsFrozen (st.arena.modify twinIdx F) := by
        intro i hi j hj
        rw [hsz1] at hi
        rw [hIdxAll j]
        by_cases hit : i = twinIdx
        · subst hit
          rw [hmodself] at hj
          have hjp : j = parentIdx := by
            injection hj with hj2
            exact hj2.symm
          subst hjp
          exact hpmark
        · rw [hmodne i hit] at hj
          exact hPF i hi j hj
      have hW1 : HeapWF (st.arena.modify twinIdx F) st.heap := by
        intro j hj
        obtain ⟨hm1, hm2⟩ := hW j hj
        rw [hIdxAll]
        exact ⟨by rw [hsz1]; exact hm1, hm2⟩
      have htwheap : twinIdx ∈ st.heap := by
        rcases hNM twinIdx htwlt with h | h
        · rw [h] at h7
          omega
        · exact h
      obtain ⟨hnode_lt, hnode_slot, _⟩ := mem_heap_slot hW htwheap
      obtain ⟨uW, uLen, uCore, uMem, uNon⟩ := heapify_bottomup_wf
        ((st.arena.getD twinIdx default).heapIndex.toNat)
        (st.arena.modify twinIdx F) st.heap
        ((st.arena.getD twinIdx default).heapIndex.toNat) hW1 hnode_lt
      refine ⟨chainInv_coreEq pr area width uCore hinv1, ?_, uW, ?_, ?_, ?_, ?_⟩
      · intro i hi j hj
        have hpar1 : ((st.arena.modify twinIdx F).getD i default).parent = some j := by
          rw [← (uCore.2 i).1]
          exact hj
        have hi1 : i < (st.arena.modify twinIdx F).size := by
          rw [← uCore.1]
          exact hi
        have hjm := hPF1 i hi1 j hpar1
        have hjnm : j ∉ st.heap := neg_not_mem_of_heapWF hW1 hjm
        rw [uNon j hjnm]
        exact hjm
      · intro i hi
        have hi1 : i < st.arena.size := by
          rw [← hsz1, ← uCore.1]
          exact hi
        rcases hNM i hi1 with h | h
        · have him : ((st.arena.modify twinIdx F).getD i default).heapIndex = -1 := by
            rw [hIdxAll]
            exact h
          left
          rw [uNon i (neg_not_mem_of_heapWF hW1 him)]
          exact him
        · exact Or.inr ((uMem i).mpr h)
      · intro e he
        obtain ⟨he1, he2, he3⟩ := hV e he
        refine ⟨by rw [uCore.1, hsz1]; exact he1, ?_, ?_⟩
        · rw [(uCore.2 _).2.2.1]
          by_cases het : e.2 = twinIdx
          · rw [het, hmodself]
            rw [het] at he2
            exact he2
          · rw [hmodne _ het]
            exact he2
        · rw [(uCore.2 _).2.2.2.1]
          by_cases het : e.2 = twinIdx
          · rw [het, hmodself]
            rw [het] at he3
            exact he3
          · rw [hmodne _ het]
            exact he3
      · rw [uCore.1, hsz1]
      · have hpm1 : ((st.arena.modify twinIdx F).getD parentIdx default).heapIndex = -1 := by
          rw [hIdxAll]
          exact hpmark
        have hpnm : parentIdx ∉ st.heap := neg_not_mem_of_heapWF hW1 hpm1
        refine ⟨?_, ?_, ?_, ?_⟩
        · rw [(uCore.2 _).2.2.2.2, hmodne _ (fun hEq => htpne hEq.symm)]
        · rw [(uCore.2 _).2.2.1, hmodne _ (fun hEq => htpne hEq.symm)]
        · rw [(uCore.2 _).2.2.2.1, hmodne _ (fun hEq => htpne hEq.symm)]
        · rw [uNon parentIdx hpnm]
          exact hpm1
    · rw [if_neg h7]
      exact ⟨hinv, hPF, hW, hNM, hV, le_refl _, rfl, rfl, rfl, hpmark⟩

lemma astChild_foldlM_spec (pr : Problem) (width area stateCount : ℕ) (hf gf : ℚ)
    (parentIdx : ℕ) (parent : SState) :
    ∀ (idxs : List ℕ) (st : AstSt), (∀ x ∈ idxs, x < 4) →
    ChainInv pr area width st.arena → ParentsFrozen st.arena →
    HeapWF st.arena st.heap → HeapNonMem st.arena st.heap →
    VisitedWF st.arena st.visited →
    parentIdx < st.arena.size →
    (st.arena.getD parentIdx default).cost = parent.cost →
    (st.arena.getD parentIdx default).player = parent.player →
    (st.arena.getD parentIdx default).crates = parent.crates →
    (st.arena.getD parentIdx default).heapIndex = -1 →
    (∀ st2, List.foldlM (astChild pr width area stateCount hf gf parentIdx parent
        (parent.cost + 1)) st idxs = .ok st2 →
      ChainInv pr area width st2.arena ∧ ParentsFrozen st2.arena ∧
      HeapWF st2.arena st2.heap ∧ HeapNonMem st2.arena st2.heap ∧
      VisitedWF st2.arena st2.visited) ∧
    (∀ res b, List.foldlM (astChild pr width area stateCount hf gf parentIdx parent
        (parent.cost + 1)) st idxs = .error (res, b) →
      res.solved = true → ∃ acts, res.actions = some acts ∧
        validSolution pr area width acts) := by
  intro idxs
  induction idxs with
  | nil =>
    intro st _ hinv hPF hW hNM hV _ _ _ _ _
    constructor
    · intro st2 h
      injection h with h2
      subst h2
      exact ⟨hinv, hPF, hW, hNM, hV⟩
    · intro res b h
      cases h
  | cons x xs ih =>
    intro st hxs hinv hPF hW hNM hV hpi hcost hpl hcr hpmark
    have hspec := astChild_spec pr width area stateCount hf gf parentIdx parent st x
      (hxs x (List.mem_cons_self _ _)) hinv hPF hW hNM hV hpi hcost hpl hcr hpmark
    constructor
    · intro st2 h
      rw [List.foldlM_cons] at h
      cases hc : astChild pr width area stateCount hf gf parentIdx parent
          (parent.cost + 1) st x with
      | error e =>
        rw [hc] at h
        cases h
      | ok st1 =>
        rw [hc] at h
        rw [hc] at hspec
        obtain ⟨j1, j2, j3, j4, j5, j6, j7, j8, j9, j10⟩ := hspec
        exact (ih st1 (fun y hy => hxs y (List.mem_cons_of_mem _ hy)) j1 j2 j3 j4 j5
          (lt_of_lt_of_le hpi j6) (j7.trans hcost) (j8.trans hpl) (j9.trans hcr)
          j10).1 st2 h
    · intro res b h
      rw [List.foldlM_cons] at h
      cases hc : astChild pr width area stateCount hf gf parentIdx parent
          (parent.cost + 1) st x with
      | error e =>
        rw [hc] at h
        rw [hc] at hspec
        injection h with h2
        rw [h2] at hspec
        exact hspec
      | ok st1 =>
        rw [hc] at h
        rw [hc] at hspec
        obtain ⟨j1, j2, j3, j4, j5, j6, j7, j8, j9, j10⟩ := hspec
        exact (ih st1 (fun y hy => hxs y (List.mem_cons_of_mem _ hy)) j1 j2 j3 j4 j5
          (lt_of_lt_of_le hpi j6) (j7.trans hcost) (j8.trans hpl) (j9.trans hcr)
          j10).2 res b h

lemma astLoop_valid (pr : Problem) (width area stateCount maxIterations : ℕ)
    (hf gf : ℚ) :
    ∀ (fuel : ℕ) (st : AstSt),
    ChainInv pr area width st.arena → ParentsFrozen st.arena →
    HeapWF st.arena st.heap → HeapNonMem st.arena st.heap →
    VisitedWF st.arena st.visited →
    ∀ res b, astLoop pr width area stateCount maxIterations hf gf fuel st
      = some (res, b) →
    res.solved = true →
    ∃ acts, res.actions = some acts ∧ validSolution pr area width acts := by
  intro fuel
  induction fuel with
  | zero =>
    intro st _ _ _ _ _ res b h
    cases h
  | succ fuel ihf =>
    intro st hinv hPF hW hNM hV res b h
    simp only [astLoop] at h
    by_cases hemp : st.heap.isEmpty = true
    · rw [if_pos hemp] at h
      injection h with h2
      obtain ⟨h3, h4⟩ := Prod.mk.inj h2
      intro hsolved
      rw [← h3] at hsolved
      exact nomatch hsolved
    rw [if_neg hemp] at h
    by_cases hc2 : 0 < maxIterations ∧ maxIterations ≤ st.iterations
    · rw [if_pos hc2] at h
      injection h with h2
      obtain ⟨h3, h4⟩ := Prod.mk.inj h2
      intro hsolved
      rw [← h3] at hsolved
      exact nomatch hsolved
    rw [if_neg hc2] at h
    have hne : st.heap ≠ [] := by
      intro hEq
      apply hemp
      rw [hEq]
      rfl
    obtain ⟨hpop_lt, mW, mNM, mCore, mMark, mLen, mMem, mNon⟩ :=
      heap_pop_mark_wf st.arena st.heap hW hne hNM
    have hinv2 : ChainInv pr area width
        (setHeapIndex (heap_pop st.arena st.heap).2.1 (heap_pop st.arena st.heap).1
          (-1)) := chainInv_coreEq pr area width mCore hinv
    have hPF2 : ParentsFrozen
        (setHeapIndex (heap_pop st.arena st.heap).2.1 (heap_pop st.arena st.heap).1
          (-1)) := by
      intro i hi j hj
      have hpar1 : (st.arena.getD i default).parent = some j := by
        rw [← (mCore.2 i).1]
        exact hj
      have hi1 : i < st.arena.size := by
        rw [← mCore.1]
        exact hi
      have hjm := hPF i hi1 j hpar1
      have hjnm : j ∉ st.heap := neg_not_mem_of_heapWF hW hjm
      rw [mNon j hjnm]
      exact hjm
    have hV2 : VisitedWF
        (setHeapIndex (heap_pop st.arena st.heap).2.1 (heap_pop st.arena st.heap).1
          (-1)) st.visited := visitedWF_coreEq mCore hV
    have hfold := astChild_foldlM_spec pr width area stateCount hf gf
      (heap_pop st.arena st.heap).1
      ((setHeapIndex (heap_pop st.arena st.heap).2.1 (heap_pop st.arena st.heap).1
        (-1)).getD (heap_pop st.arena st.heap).1 default)
      [0, 1, 2, 3]
      (⟨setHeapIndex (heap_pop st.arena st.heap).2.1 (heap_pop st.arena st.heap).1
          (-1), st.visited, (heap_pop st.arena st.heap).2.2, st.iterations + 1,
        st.oob⟩ : AstSt)
      (by decide) hinv2 hPF2 mW mNM hV2
      (by rw [mCore.1]; exact hpop_lt) rfl rfl rfl mMark
    cases hF : List.foldlM (astChild pr width area stateCount hf gf
        (heap_pop st.arena st.heap).1
        ((setHeapIndex (heap_pop st.arena st.heap).2.1 (heap_pop st.arena st.heap).1
          (-1)).getD (heap_pop st.arena st.heap).1 default)
        (((setHeapIndex (heap_pop st.arena st.heap).2.1 (heap_pop st.arena st.heap).1
          (-1)).getD (heap_pop st.arena st.heap).1 default).cost + 1))
        (⟨setHeapIndex (heap_pop st.arena st.heap).2.1 (heap_pop st.arena st.heap).1
            (-1), st.visited, (heap_pop st.arena st.heap).2.2, st.iterations + 1,
          st.oob⟩ : AstSt)
        [0, 1, 2, 3] with
    | error e =>
      rw [hF] at h
      injection h with h2
      obtain ⟨res2, b2⟩ := e
      obtain ⟨h3, h4⟩ := Prod.mk.inj h2
      rw [h3, h4] at hF
      exact hfold.2 res b hF
    | ok st2 =>
      rw [hF] at h
      obtain ⟨k1, k2, k3, k4, k5⟩ := hfold.1 st2 hF
      exact ihf st2 k1 k2 k3 k4 k5 res b h

lemma solve_astar_valid (ctx : Ctx) (pr : Problem) (hf gf : ℚ)
    (stateCount maxIterations fuel : ℕ) (res : Result)
    (hrun : solve_astar ctx pr hf gf stateCount maxIterations fuel = some res)
    (hsolved : res.solved = true) :
    ∃ acts, res.actions = some acts ∧ validSolution pr ctx.area ctx.width acts := by
  unfold solve_astar at hrun
  cases hr : solve_astar_run ctx pr hf gf stateCount maxIterations fuel with
  | none =>
    rw [hr] at hrun
    cases hrun
  | some rb =>
    rw [hr] at hrun
    obtain ⟨res2, b2⟩ := rb
    injection hrun with h2
    rw [← h2] at hsolved ⊢
    unfold solve_astar_run at hr
    by_cases hps : (!pr.potentiallySolvable) = true
    · rw [if_pos hps] at hr
      injection hr with h3
      obtain ⟨h4, h5⟩ := Prod.mk.inj h3
      rw [← h4] at hsolved
      exact nomatch hsolved
    · rw [if_neg hps] at hr
      dsimp only at hr
      rw [show heap_insert #[(⟨none, 'l', pr.player, pr.crates, 0,
          compute_heuristic pr ctx.area pr.crates,
          hf * ((compute_heuristic pr ctx.area pr.crates : ℕ) : ℚ), 0⟩ : SState)] [] 0
        = (setHeapIndex #[(⟨none, 'l', pr.player, pr.crates, 0,
            compute_heuristic pr ctx.area pr.crates,
            hf * ((compute_heuristic pr ctx.area pr.crates : ℕ) : ℚ), 0⟩ : SState)] 0 0,
          [0]) from rfl] at hr
      set R : SState := ⟨none, 'l', pr.player, pr.crates, 0,
        compute_heuristic pr ctx.area pr.crates,
        hf * ((compute_heuristic pr ctx.area pr.crates : ℕ) : ℚ), 0⟩ with hR
      have hszI : (setHeapIndex #[R] 0 0).size = 1 := by
        rw [setHeapIndex_size]
        rfl
      have hget0 : (setHeapIndex #[R] 0 0).getD 0 default = { R with heapIndex := 0 } :=
        setHeapIndex_getD_self #[R] 0 0 (by show 0 < 1; omega)
      refine astLoop_valid pr ctx.width ctx.area stateCount maxIterations hf gf fuel
        _ ?_ ?_ ?_ ?_ ?_ res2 b2 hr hsolved
      · intro i hi
        rw [hszI] at hi
        have hi0 : i = 0 := by omega
        subst hi0
        rw [hget0]
        constructor
        · intro _
          exact ⟨rfl, rfl, rfl⟩
        · intro j hj
          exact nomatch hj
      · intro i hi j hj
        rw [hszI] at hi
        have hi0 : i = 0 := by omega
        subst hi0
        rw [hget0] at hj
        exact nomatch hj
      · intro j hj
        have hj0 : j = 0 := by
          simp only [List.length_singleton] at hj
          omega
        subst hj0
        show (0 : ℕ) < (setHeapIndex #[R] 0 0).size ∧
          ((setHeapIndex #[R] 0 0).getD 0 default).heapIndex = ((0 : ℕ) : ℤ)
        rw [hszI, hget0]
        exact ⟨by omega, rfl⟩
      · intro i hi
        rw [hszI] at hi
        have hi0 : i = 0 := by omega
        subst hi0
        exact Or.inr (List.mem_singleton.mpr rfl)
      · intro e he
        rw [List.mem_singleton] at he
        subst he
        rw [hget0]
        exact ⟨by rw [hszI]; omega, rfl, rfl⟩

/-- **C1.** For every level (any parsed problem) and every successful
search result — `solve_bfs` or `solve_astar` returning `solved = true` —
the returned action string replays on the problem's initial state: the
player is moved by each action's direction, a pushed crate moves one
further cell, no move enters a wall, no push targets a wall or another
crate, every lowercase action lands on a crate-free cell, and the final
crate bit-vector equals the problem's goals. -/
theorem claim_C1 (ctx : Ctx) (pr : Problem) (hf gf : ℚ)
    (stateCount maxIterations fuel : ℕ) (res : Result)
    (hrun : solve_bfs ctx pr stateCount maxIterations fuel = some res ∨
      solve_astar ctx pr hf gf stateCount maxIterations fuel = some res)
    (hsolved : res.solved = true) :
    ∃ acts, res.actions = some acts ∧ validSolution pr ctx.area ctx.width acts := by
  rcases hrun with h | h
  · exact solve_bfs_valid ctx pr stateCount maxIterations fuel res h hsolved
  · exact solve_astar_valid ctx pr hf gf stateCount maxIterations fuel res h hsolved

/-- Witness for C1: the solved BFS run on the concrete one-push level
replays to the goal configuration. -/
theorem claim_C1_witness :
    ∃ acts, (⟨true, some ['R'], 1, false⟩ : Result).actions = some acts ∧
      validSolution (parse_problem ctx31 levelA10) ctx31.area ctx31.width acts :=
  claim_C1 ctx31 (parse_problem ctx31 levelA10) 1 1 100 1 100
    ⟨true, some ['R'], 1, false⟩ (Or.inl (by decide)) rfl

end Sokosolve
